import Mathlib

/-!
# busybox `wget` (networking/wget.c) and the option parser of `mount` (mount.c):
shallow embedding and verified properties

Conventions of the embedding.

* A byte is a `Char`; the NUL byte is `NUL`.
* A read stream (`FILE *` in read mode) is the list of its unread bytes; the
  empty list is end-of-file.  Read errors are not modelled (`ferror` is false).
* A `char` buffer is the list of its bytes (its memory).  `store` overwrites a
  leading segment of the memory, `cstr` reads the NUL-terminated string that
  starts at the beginning of a memory.
* Integers follow the ILP32 data model of the Windows port: `int`, `long`
  and `off_t` are 32 bit wide, `strtol` saturates at `LONG_MIN`/`LONG_MAX`.
* Loops that read from a stream are defined by recursion on a fuel argument.
* Of the progress meter only what it does to the variables of the transfer is
  kept: each call records the value it reads from `statbytes`.  The alarm
  signal, the clock and the text drawn on the standard error are left out.
* The definitions for `wget` are in the namespace `Wget`, those for `mount`
  in the namespace `Mount`.
-/

set_option maxRecDepth 100000
set_option linter.unusedVariables false
set_option linter.unreachableTactic false
set_option linter.unusedTactic false

namespace Wget

/-! ## Bytes, strings, buffers -/

/-- The NUL byte that terminates a C string. -/
def NUL : Char := Char.ofNat 0

/-- Content of a C string (the bytes before the terminating NUL). -/
abbrev CStr := List Char

/-- Unread bytes of a stream opened for reading. -/
abbrev Stream := List Char

/-- C `isspace` in the "C" locale: space, and `\t \n \v \f \r`. -/
def isspace (c : Char) : Bool := c.toNat == 32 || (9 ≤ c.toNat && c.toNat ≤ 13)

/-- C `isdigit`. -/
def isdigit (c : Char) : Bool := 48 ≤ c.toNat && c.toNat ≤ 57

/-- C `isupper` in the "C" locale. -/
def isupper (c : Char) : Bool := 65 ≤ c.toNat && c.toNat ≤ 90

/-- C `islower` in the "C" locale. -/
def islower (c : Char) : Bool := 97 ≤ c.toNat && c.toNat ≤ 122

/-- C `isalnum` in the "C" locale. -/
def isalnum (c : Char) : Bool := isdigit c || isupper c || islower c

/-- C `tolower` in the "C" locale. -/
def tolower (c : Char) : Char := if isupper c then Char.ofNat (c.toNat + 32) else c

/-- The string that starts at the beginning of the memory `m`: its bytes up to
the first NUL. -/
def cstr (m : List Char) : CStr := m.takeWhile (fun c => c != NUL)

/-- Memory `m` after `data` has been written at its beginning. -/
def store (m : List Char) (data : List Char) : List Char := data ++ m.drop data.length

/-- C `strcasecmp(a, b) == 0` on string contents. -/
def strcaseeq (a b : CStr) : Bool := a.map tolower == b.map tolower

/-! ## Numeric conversion -/

/-- Value of `LONG_MAX` (also `INT_MAX`) in the ILP32 data model. -/
def LONG_MAX : Int := 2147483647

/-- Value of `LONG_MIN` (also `INT_MIN`) in the ILP32 data model. -/
def LONG_MIN : Int := -2147483648

/-- Value of a byte as a digit of `strtol` (letters count from 10), if any. -/
def digitVal (c : Char) : Option Nat :=
  if isdigit c then some (c.toNat - 48)
  else if islower c then some (c.toNat - 97 + 10)
  else if isupper c then some (c.toNat - 65 + 10)
  else none

/-- The digit loop of `strtol`: accumulates the leading digits below `base`. -/
def strtol_digits (base : Nat) : List Char → Nat → Nat
  | [], acc => acc
  | c :: cs, acc =>
    match digitVal c with
    | some d => if d < base then strtol_digits base cs (acc * base + d) else acc
    | none => acc

/-- C `strtol(s, NULL, base)` for `base` 10 or 16, on the memory at `s`: skips
white space, takes an optional sign and (base 16) an optional `0x`, converts
the leading digits and saturates at the limits of `long`. -/
def strtol (s : List Char) (base : Nat) : Int :=
  let s1 := s.dropWhile isspace
  let neg := s1.head? == some '-'
  let s2 := if s1.head? == some '-' || s1.head? == some '+' then s1.tail else s1
  let s3 :=
    match s2 with
    | z :: x :: r => if base == 16 && z == '0' && (x == 'x' || x == 'X') then r else s2
    | _ => s2
  let v : Int := (strtol_digits base s3 0 : Nat)
  if neg then max (-v) LONG_MIN else min v LONG_MAX

/-- C `atoi(s)`, that is `(int) strtol(s, NULL, 10)`. -/
def atoi (s : List Char) : Int := strtol s 10

/-- C `atol(s)`, that is `strtol(s, NULL, 10)`. -/
def atol (s : List Char) : Int := strtol s 10

/-! ## stdio reads -/

/-- Splits off what `fgets` reads: at most `k` bytes, ending after the first
newline. -/
def fgets_split : Nat → Stream → List Char × Stream
  | 0, fp => ([], fp)
  | _ + 1, [] => ([], [])
  | k + 1, c :: fp =>
    if c == '\n' then ([c], fp)
    else ((fgets_split k fp).1.cons c, (fgets_split k fp).2)

/-- C `fgets(buf, size, fp)`: `(returned non-NULL, buf afterwards, fp afterwards)`.
At end-of-file nothing is read, NULL is returned and `buf` is unchanged. -/
def fgets (buf : List Char) (size : Nat) (fp : Stream) : Bool × List Char × Stream :=
  match fp with
  | [] => (false, buf, [])
  | _ :: _ => (true, store buf ((fgets_split (size - 1) fp).1 ++ [NUL]), (fgets_split (size - 1) fp).2)

/-- Size of the line buffer `buf` of `wget_main`. -/
def BUFSIZ : Nat := 512

/-- Conversion of an `off_t` value to `size_t`. -/
def to_size_t (x : Int) : Nat := (x % 4294967296).toNat

/-- Reduction of the result of an `int` operation to the range of `int`. -/
def to_int (x : Int) : Int := (x + 2147483648) % 4294967296 - 2147483648

/-- Modelled from the spec: the libbb function `chomp` is not among the
sources; the error it serves reports "the raw status line text", so `chomp`
only cuts the newline that ends the string held in the memory `m`, if any. -/
def chomp (m : List Char) : List Char :=
  if (cstr m).getLast? == some '\n' then
    m.take ((cstr m).length - 1) ++ NUL :: m.drop (cstr m).length
  else m

/-- Digit `d` (below 16) as printed by `printf`: `0`-`9`, then `a`-`f`. -/
def digit_char (d : Nat) : Char := if d < 10 then Char.ofNat (48 + d) else Char.ofNat (87 + d)

/-- Digits of `n` in `base`, most significant first, put in front of `acc`;
`fuel` larger than `n` is never used up. -/
def digits_be (base : Nat) : Nat → Nat → List Char → List Char
  | 0, _, acc => acc
  | fuel + 1, n, acc =>
    if n / base == 0 then digit_char (n % base) :: acc
    else digits_be base fuel (n / base) (digit_char (n % base) :: acc)

/-- Decimal numeral of `n`, as `printf("%u")` prints it. -/
def dec (n : Nat) : List Char := digits_be 10 (n + 1) n []

/-- Hexadecimal numeral of `n`, as `printf("%x")` prints it. -/
def hex (n : Nat) : List Char := digits_be 16 (n + 1) n []

/-- Output of `printf("%d", i)` (and of `"%ld"`). -/
def fmt_int (i : Int) : List Char := if i < 0 then '-' :: dec i.natAbs else dec i.natAbs

/-! ## String search -/

/-- C `strchr(s, c)` for a `c` other than NUL: the string before the first
`c` and the string after it, `none` for a NULL result. -/
def strchr_split (c : Char) : CStr → Option (CStr × CStr)
  | [] => none
  | x :: xs =>
    if x == c then some ([], xs)
    else (strchr_split c xs).map (fun r => (x :: r.1, r.2))

/-- C `strrchr(s, c)` for a `c` other than NUL: the string before the last
`c` and the string after it, `none` for a NULL result. -/
def strrchr_split (c : Char) : CStr → Option (CStr × CStr)
  | [] => none
  | x :: xs =>
    match strrchr_split c xs with
    | some r => some (x :: r.1, r.2)
    | none => if x == c then some ([], xs) else none

/-! ## Data of `wget_main` -/

/-- The C `struct host_info`. -/
structure host_info where
  host : CStr
  port : Int
  path : CStr
  is_ftp : Bool
  user : Option CStr
  deriving DecidableEq, Repr

/-- Where `output` points: the standard output or the stream opened on
`fname_out`. -/
inductive Sink where
  | stdout
  | file
  deriving DecidableEq, Repr

/-- One connection made by `open_socket`, with everything written to it. -/
structure Conn where
  host : CStr
  port : Int
  sent : List Char
  deriving DecidableEq, Repr

/-- Variables of `wget_main`, the globals of the file, and the part of the
outside world the program acts on. -/
structure State where
  /-- The local `n`. -/
  n : Int
  /-- The local `try`. -/
  try_ : Int
  status : Int
  buf : List Char
  server : host_info
  target : host_info
  /-- Whether `proxy` is non-NULL. -/
  proxy : Bool
  /-- Unread bytes of the control connection `sfp`. -/
  sfp : Stream
  /-- Unread bytes of the data connection `dfp`. -/
  dfp : Stream
  do_continue : Int
  beg_range : Int
  got_clen : Bool
  output : Sink
  /-- The global `filesize`. -/
  filesize : Int
  /-- The global `chunked`. -/
  chunked : Bool
  /-- The global `statbytes` (an `unsigned long`). -/
  statbytes : Nat
  /-- Content of the file named `fname_out`, `none` when it does not exist. -/
  outfile : Option (List Char)
  /-- Everything written to the standard output. -/
  stdout : List Char
  /-- The connections opened so far, oldest first. -/
  conns : List Conn
  /-- The local `quiet_flag` (option `-q`, line 137). -/
  quiet_flag : Bool
  /-- The values of `cursize` that the calls of `progressmeter` made so far
  have read from `statbytes` (line 623), oldest first. -/
  meter : List Nat
  deriving DecidableEq, Repr

/-- C `fwrite(data, 1, n, output)`. -/
def fwrite (st : State) (data : List Char) : State :=
  match st.output with
  | Sink.stdout => { st with stdout := st.stdout ++ data }
  | Sink.file => { st with outfile := some (st.outfile.getD [] ++ data) }

/-! ## Fatal errors and the environment -/

/-- The calls that end the process with an error message. -/
inductive Fatal where
  /-- Message "not an http or ftp url: %s" of `parse_url`. -/
  | not_http_or_ftp (url : CStr)
  /-- Message "too many redirections". -/
  | too_many_redirections
  /-- Message "no response from server". -/
  | no_response
  /-- Message "server returned error %d: %s". -/
  | server_error (code : Int) (line : CStr)
  /-- Message "bad header line: %s" of `gethdr`. -/
  | bad_header_line (line : CStr)
  /-- Message "server wants to do %s transfer encoding". -/
  | transfer_encoding (value : CStr)
  /-- Message "buffer overflow" of `base64enc`. -/
  | buffer_overflow
  /-- Failure inside `open_socket` (resolve, socket, connect or fdopen). -/
  | open_socket (host : CStr) (port : Int)
  /-- Message "fgets()" of `ftpcmd`. -/
  | ftp_fgets
  /-- Message "PASV: %s". -/
  | ftp_pasv (msg : CStr)
  /-- Message "%s" with the text of the greeting (line 327). -/
  | ftp_greeting (msg : CStr)
  /-- Message "ftp login: %s". -/
  | ftp_login (msg : CStr)
  deriving DecidableEq, Repr

/-- What the program takes from outside its own source file. -/
structure Env where
  /-- Whether the `k`-th call of `open_socket`, to `host`:`port`, succeeds. -/
  connect : Nat → CStr → Int → Bool
  /-- The bytes the peer of the `k`-th connection sends, given the bytes
  written to it. -/
  reply : Nat → CStr → Int → List Char → List Char

/-- Result of a step that may end the process: the error and the state the
process ends in, or the next state. -/
abbrev Res := Except (Fatal × State) State

/-- C `close_and_delete_outfile(output, fname_out, do_continue)` (lines 67-73). -/
def close_and_delete_outfile (st : State) : State :=
  if st.output != Sink.stdout && st.do_continue == 0 then { st with outfile := none } else st

/-- The `close_delete_and_die` macro (lines 75-77). -/
def close_delete_and_die (e : Fatal) (st : State) : Res :=
  Except.error (e, close_and_delete_outfile st)

/-- The libbb call `error_msg_and_die`. -/
def error_msg_and_die (e : Fatal) (st : State) : Res := Except.error (e, st)

/-! ## `parse_url` (lines 432-468) -/

/-- C `parse_url(url, h)`: the fields written to `*h`, or the fatal error. -/
def parse_url (url : CStr) : Except Fatal host_info :=
  let scheme : Option (Int × CStr × Bool) :=
    if url.take 7 == "http://".toList then some (80, url.drop 7, false)
    else if url.take 6 == "ftp://".toList then some (21, url.drop 6, true)
    else none
  match scheme with
  | none => Except.error (Fatal.not_http_or_ftp url)
  | some (port0, host0, is_ftp) =>
    let sp := strchr_split '/' host0
    let host1 := match sp with | some r => r.1 | none => host0
    let path := match sp with | some r => r.2 | none => []
    let up := strrchr_split '@' host1
    let user := up.map (fun r => r.1)
    let host2 := match up with | some r => r.2 | none => host1
    let cp := strchr_split ':' host2
    let host3 := match cp with | some r => r.1 | none => host2
    let port := match cp with | some r => atoi r.2 | none => port0
    Except.ok { host := host3, port := port, path := path, is_ftp := is_ftp, user := user }

/-- Lines 333-335 of the FTP session: `s = strchr(target.user, ':'); if (s)
*(s++) = '\0';` gives the user name left in `target.user` and the string
`s` (`none` for NULL). -/
def split_user (user : CStr) : CStr × Option CStr :=
  match strchr_split ':' user with
  | some r => (r.1, some r.2)
  | none => (user, none)

/-! ## `gethdr` (lines 499-544) -/

/-- What a call of `gethdr` leaves behind. -/
structure GetHdr where
  /-- The returned string, `none` for NULL. -/
  ret : Option CStr
  /-- Memory of `buf` afterwards. -/
  buf : List Char
  /-- Unread bytes of `fp` afterwards. -/
  fp : Stream
  /-- Value stored in `*istrunc`. -/
  istrunc : Int
  deriving DecidableEq, Repr

/-- The bytes the header-name loop of line 517 steps over. -/
def is_name_char (c : Char) : Bool := isalnum c || c == '-'

/-- The bytes the loop of line 525 steps over. -/
def is_blank (c : Char) : Bool := c == ' ' || c == '\t'

/-- The bytes the loop of lines 530-531 steps over. -/
def is_value_char (c : Char) : Bool := c != NUL && c != '\r' && c != '\n'

/-- The loop of lines 540-541: `getc` until end-of-file or a newline was read. -/
def skip_line (fp : Stream) : Stream := (fp.dropWhile (fun c => c != '\n')).tail

/-- Lines 510-544 of `gethdr`, after `fgets` has put a line into `buf`: `b` is
the memory of `buf` and `fp` the stream behind the line. -/
def gethdr_scan (b : List Char) (fp : Stream) : Except Fatal GetHdr :=
  if (b.dropWhile (fun c => c == '\r')).headD NUL == '\n' then
    Except.ok { ret := none, buf := b, fp := fp, istrunc := 0 }
  else
    let name := (b.takeWhile is_name_char).map tolower
    let rest := b.dropWhile is_name_char
    if rest.headD NUL != ':' then Except.error (Fatal.bad_header_line (cstr (name ++ rest)))
    else
      let blanks := rest.tail.takeWhile is_blank
      let hdrval := rest.tail.dropWhile is_blank
      let value := hdrval.takeWhile is_value_char
      let stop := hdrval.dropWhile is_value_char
      if stop.headD NUL != NUL then
        Except.ok { ret := some value, buf := name ++ NUL :: blanks ++ value ++ NUL :: stop.tail,
                    fp := fp, istrunc := 0 }
      else
        Except.ok { ret := some value, buf := name ++ NUL :: blanks ++ value ++ stop,
                    fp := skip_line fp, istrunc := 1 }

/-- C `gethdr(buf, bufsiz, fp, istrunc)`; the error is "bad header line"
with the string then held in `buf`. -/
def gethdr (buf : List Char) (bufsiz : Nat) (fp : Stream) : Except Fatal GetHdr :=
  let r := fgets buf bufsiz fp
  if !r.1 then Except.ok { ret := none, buf := buf, fp := r.2.2, istrunc := 0 }
  else gethdr_scan r.2.1 r.2.2

/-! ## `base64enc` (lines 86-106) -/

/-- The array `al` of `base64enc`. -/
def al : List Char :=
  "ABCDEFGHIJKLMNOPQRSTUVWXYZabcdefghijklmnopqrstuvwxyz0123456789+/".toList

/-- Memory `m` after the byte `c` has been written at offset `i`. -/
def poke (m : List Char) (i : Nat) (c : Char) : List Char := m.take i ++ c :: m.drop (i + 1)

/-- The `while` loop of `base64enc`: `p` is the string at `p`, `s` the offset
of the pointer `s` in `buf`; gives the memory of `buf` at the end.  The bytes
are taken with their values from 0 to 255; where `char` is signed the masks
leave the same indices. -/
def base64enc_loop (len : Int) : CStr → List Char → Nat → Except Fatal (List Char)
  | [], buf, _ => Except.ok buf
  | [c0], buf, s =>
    if (s : Int) ≥ len - 4 then Except.error Fatal.buffer_overflow
    else
      let b1 := poke buf s (al.getD ((c0.toNat >>> 2) &&& 0x3F) NUL)
      let b2 := poke b1 (s + 1) (al.getD (((c0.toNat <<< 4) &&& 0x30) ||| ((NUL.toNat >>> 4) &&& 0x0F)) NUL)
      Except.ok (poke (poke (poke b2 (s + 3) '=') (s + 2) '=') (s + 4) NUL)
  | [c0, c1], buf, s =>
    if (s : Int) ≥ len - 4 then Except.error Fatal.buffer_overflow
    else
      let b1 := poke buf s (al.getD ((c0.toNat >>> 2) &&& 0x3F) NUL)
      let b2 := poke b1 (s + 1) (al.getD (((c0.toNat <<< 4) &&& 0x30) ||| ((c1.toNat >>> 4) &&& 0x0F)) NUL)
      let b3 := poke (poke (poke b2 (s + 3) '=') (s + 2) '=') (s + 4) NUL
      Except.ok (poke b3 (s + 2) (al.getD (((c1.toNat <<< 2) &&& 0x3C) ||| ((NUL.toNat >>> 6) &&& 0x03)) NUL))
  | c0 :: c1 :: c2 :: p, buf, s =>
    if (s : Int) ≥ len - 4 then Except.error Fatal.buffer_overflow
    else
      let b1 := poke buf s (al.getD ((c0.toNat >>> 2) &&& 0x3F) NUL)
      let b2 := poke b1 (s + 1) (al.getD (((c0.toNat <<< 4) &&& 0x30) ||| ((c1.toNat >>> 4) &&& 0x0F)) NUL)
      let b3 := poke (poke (poke b2 (s + 3) '=') (s + 2) '=') (s + 4) NUL
      let b4 := poke b3 (s + 2) (al.getD (((c1.toNat <<< 2) &&& 0x3C) ||| ((c2.toNat >>> 6) &&& 0x03)) NUL)
      base64enc_loop len p (poke b4 (s + 3) (al.getD (c2.toNat &&& 0x3F) NUL)) (s + 4)

/-- C `base64enc(p, buf, len)`: the memory of `buf` afterwards (the function
returns `buf`), or the fatal "buffer overflow". -/
def base64enc (p : CStr) (buf : List Char) (len : Int) : Except Fatal (List Char) :=
  base64enc_loop len p buf 0

/-! ## The HTTP session (lines 209-316) -/

/-- The request line written at lines 226-232. -/
def request_line (st : State) : List Char :=
  if st.proxy then
    "GET ".toList ++ (if st.target.is_ftp then "f".toList else "ht".toList) ++ "tp://".toList
      ++ st.target.host ++ ":".toList ++ fmt_int st.target.port ++ "/".toList ++ st.target.path
      ++ " HTTP/1.1\r\n".toList
  else "GET /".toList ++ st.target.path ++ " HTTP/1.1\r\n".toList

/-- The `fprintf` of line 234. -/
def host_lines (st : State) : List Char :=
  "Host: ".toList ++ st.target.host ++ "\r\nUser-Agent: Wget\r\n".toList

/-- The end of the request, lines 247-249. -/
def range_lines (st : State) : List Char :=
  (if st.do_continue != 0 then "Range: bytes=".toList ++ fmt_int st.beg_range ++ "-\r\n".toList else [])
    ++ "Connection: close\r\n\r\n".toList

/-- Lines 226-249, "Send HTTP request": the bytes written to the socket and
the memory of `buf` afterwards, with the fatal error of `base64enc` when it
ends the process (the bytes are then those written before). -/
def send_request (st : State) : List Char × List Char × Option Fatal :=
  let w0 := request_line st ++ host_lines st
  let a1 : List Char × List Char × Option Fatal :=
    match st.target.user with
    | none => (w0, st.buf, none)
    | some u =>
      match base64enc u st.buf BUFSIZ with
      | Except.error e => (w0, st.buf, some e)
      | Except.ok b => (w0 ++ "Authorization: Basic ".toList ++ cstr b ++ "\r\n".toList, b, none)
  match a1.2.2 with
  | some e => a1
  | none =>
    let a2 : List Char × List Char × Option Fatal :=
      match (if st.proxy then st.server.user else none) with
      | none => a1
      | some u =>
        match base64enc u a1.2.1 BUFSIZ with
        | Except.error e => (a1.1, a1.2.1, some e)
        | Except.ok b => (a1.1 ++ "Proxy-Authorization: Basic ".toList ++ cstr b ++ "\r\n".toList, b, none)
    match a2.2.2 with
    | some e => a2
    | none => (a2.1 ++ range_lines st, a2.2.1, none)

/-- Lines 257-261: the memory at `s` after the two `for` loops, whose `atoi`
is the status. -/
def status_tail (buf : List Char) : List Char :=
  (buf.dropWhile (fun c => c != NUL && !isspace c)).dropWhile isspace

/-- Line 264: `while (gethdr(buf, sizeof(buf), sfp, &n) != NULL);`.  Every
iteration but the last takes at least one byte from `sfp`; with the fuel used
up `sfp` is at end-of-file, where `gethdr` returns NULL. -/
def drain_headers : Nat → State → Res
  | 0, st => Except.ok { st with n := 0 }
  | fuel + 1, st =>
    match gethdr st.buf BUFSIZ st.sfp with
    | Except.error e => error_msg_and_die e st
    | Except.ok r =>
      let st1 := { st with buf := r.buf, sfp := r.fp, n := r.istrunc }
      if r.ret.isSome then drain_headers fuel st1 else Except.ok st1

/-- C `freopen(fname_out, "w", output)`: the file is truncated. -/
def freopen_w (st : State) : State := { st with outfile := some [] }

/-- Lines 254-283, from the label `read_response` to the end of the `switch`
(`s` is the offset in `buf` the pointer `s` has at line 261).  Every pass
takes at least one byte from `sfp`; with the fuel used up `sfp` is at
end-of-file, where `fgets` returns NULL. -/
def read_response (env : Env) : Nat → State → Res
  | 0, st => close_delete_and_die Fatal.no_response st
  | fuel + 1, st =>
    let r := fgets st.buf BUFSIZ st.sfp
    if !r.1 then close_delete_and_die Fatal.no_response st
    else
      let st1 := { st with buf := r.2.1, sfp := r.2.2, status := atoi (status_tail r.2.1) }
      if st1.status == 0 || st1.status == 100 then
        match drain_headers (st1.sfp.length + 1) st1 with
        | Except.error e => Except.error e
        | Except.ok st2 => read_response env fuel st2
      else if st1.status == 200 then
        let st2 := if st1.do_continue != 0 && st1.output != Sink.stdout then freopen_w st1 else st1
        Except.ok { st2 with do_continue := 0 }
      else if st1.status == 300 || st1.status == 301 || st1.status == 302 || st1.status == 303 then
        Except.ok st1
      else if st1.status == 206 && st1.do_continue != 0 then
        Except.ok st1
      else
        let s := st1.buf.length - (status_tail st1.buf).length
        let st2 := { st1 with buf := chomp st1.buf }
        close_delete_and_die (Fatal.server_error (atoi (st2.buf.drop s)) (cstr st2.buf)) st2

/-- Body of the loop of lines 288-312 for one header `name: value`. -/
def handle_header (name value : CStr) (st : State) : Res :=
  if strcaseeq name "content-length".toList then
    Except.ok { st with filesize := atol value, got_clen := true }
  else
    let r1 : Res :=
      if strcaseeq name "transfer-encoding".toList then
        if strcaseeq value "chunked".toList then
          Except.ok { st with chunked := true, got_clen := true }
        else close_delete_and_die (Fatal.transfer_encoding value) st
      else Except.ok st
    match r1 with
    | Except.error e => Except.error e
    | Except.ok st1 =>
      if strcaseeq name "location".toList then
        if value.head? == some '/' then
          Except.ok { st1 with target := { st1.target with path := value.tail } }
        else
          match parse_url value with
          | Except.error e => error_msg_and_die e st1
          | Except.ok h =>
            if !st1.proxy then
              Except.ok { st1 with target := h, server := { st1.server with host := h.host, port := h.port } }
            else Except.ok { st1 with target := h }
      else Except.ok st1

/-- Lines 288-312, "Retrieve HTTP headers".  With the fuel used up `sfp` is
at end-of-file, where `gethdr` returns NULL. -/
def read_headers : Nat → State → Res
  | 0, st => Except.ok { st with n := 0 }
  | fuel + 1, st =>
    match gethdr st.buf BUFSIZ st.sfp with
    | Except.error e => error_msg_and_die e st
    | Except.ok r =>
      let st1 := { st with buf := r.buf, sfp := r.fp, n := r.istrunc }
      match r.ret with
      | none => Except.ok st1
      | some value =>
        match handle_header (cstr st1.buf) value st1 with
        | Except.error e => Except.error e
        | Except.ok st2 => read_headers fuel st2

/-- Lines 251-312: the status line and the headers of the response are read. -/
def read_reply (env : Env) (st : State) : Res :=
  match read_response env (st.sfp.length + 1) st with
  | Except.error e => Except.error e
  | Except.ok st1 => read_headers (st1.sfp.length + 1) st1

/-- Lines 217-312: one exchange with the server, from `open_socket` to the end
of the headers of the response. -/
def http_exchange (env : Env) (st1 : State) : Res :=
  if !env.connect st1.conns.length st1.server.host st1.server.port then
    error_msg_and_die (Fatal.open_socket st1.server.host st1.server.port) st1
  else
    let rq := send_request st1
    let conn : Conn := { host := st1.server.host, port := st1.server.port, sent := rq.1 }
    let st2 := { st1 with buf := rq.2.1, conns := st1.conns ++ [conn] }
    match rq.2.2 with
    | some e => error_msg_and_die e st2
    | none =>
      read_reply env
        { st2 with sfp := env.reply st1.conns.length st1.server.host st1.server.port rq.1 }

/-- One pass through the body of the `do` loop of lines 213-313: the test of
`try` (lines 214-215), then the exchange. -/
def http_attempt (env : Env) (st : State) : Res :=
  let st1 := { st with try_ := st.try_ - 1 }
  if st1.try_ == 0 then close_delete_and_die Fatal.too_many_redirections st1
  else http_exchange env st1

/-- The loop `do ... while (status >= 300)` of lines 213-313 followed by
`dfp = sfp`.  The counter `try` starts at 5, so five passes always suffice. -/
def http_loop (env : Env) : Nat → State → Res
  | 0, st => Except.ok st
  | fuel + 1, st =>
    match http_attempt env st with
    | Except.error e => Except.error e
    | Except.ok st1 =>
      if st1.status ≥ 300 then http_loop env fuel st1 else Except.ok { st1 with dfp := st1.sfp }

/-- What the command line, the environment variables and the file system
hand to `wget_main` at line 186, after the options were read, the URLs parsed
and the output file name chosen. -/
structure Start where
  target : host_info
  /-- Result of parsing the proxy URL, `none` without a proxy. -/
  proxy : Option host_info
  fname_out : CStr
  /-- Number of `-c` options. -/
  do_continue : Int
  /-- Content of the file `fname_out` before the run, `none` if absent. -/
  old_file : Option (List Char)
  /-- Size `fstat` reports for the standard output. -/
  stdout_size : Int
  /-- Initial memory of `buf` (indeterminate in C). -/
  buf : List Char
  /-- Whether the option `-q` was given (line 137). -/
  quiet_flag : Bool

/-- Lines 155-207: the variables as they are when the session starts, with
the output stream opened and the start of the transfer determined. -/
def start_state (a : Start) : State :=
  let output := if a.fname_out == "-".toList then Sink.stdout else Sink.file
  let outfile :=
    match output with
    | Sink.stdout => a.old_file
    | Sink.file => if a.do_continue != 0 then some (a.old_file.getD []) else some []
  let st_size : Int :=
    match output with
    | Sink.stdout => a.stdout_size
    | Sink.file => ((outfile.getD []).length : Int)
  { n := 0, try_ := 5, status := 0,
    buf := (a.buf ++ List.replicate BUFSIZ NUL).take BUFSIZ,
    server := match a.proxy with
      | some p => p
      | none => { host := a.target.host, port := a.target.port, path := [], is_ftp := false, user := none },
    target := a.target, proxy := a.proxy.isSome, sfp := [], dfp := [],
    do_continue := if a.do_continue != 0 && st_size > 0 then a.do_continue else 0,
    beg_range := if a.do_continue != 0 && st_size > 0 then st_size else 0,
    got_clen := false, output := output, filesize := 0, chunked := false, statbytes := 0,
    outfile := outfile, stdout := [], conns := [], quiet_flag := a.quiet_flag, meter := [] }

/-- The HTTP session of `wget_main` (the branch taken at line 209). -/
def http_session (env : Env) (a : Start) : Res := http_loop env 5 (start_state a)

/-! ## FTP: `ftpcmd` (lines 546-563) and the PASV reply (lines 361-368) -/

/-- The `do ... while` loop of `ftpcmd`: reads lines of at most 509 bytes
until one starts with a digit and has a space at offset 3.  With the fuel
used up `fp` is at end-of-file, where `fgets` returns NULL. -/
def ftp_reply : Nat → List Char → Stream → Except Fatal (List Char × Stream)
  | 0, buf, fp => Except.error Fatal.ftp_fgets
  | fuel + 1, buf, fp =>
    let r := fgets buf 510 fp
    if !r.1 then Except.error Fatal.ftp_fgets
    else if !isdigit (r.2.1.getD 0 NUL) || r.2.1.getD 3 NUL != ' ' then ftp_reply fuel r.2.1 r.2.2
    else Except.ok r.2

/-- C `ftpcmd(s1, s2, fp, buf)` on the control connection `sfp`: the command
(if `s1` is given) is added to what was sent on the latest connection, and the
reply code is returned with the new state. -/
def ftpcmd (s1 : Option CStr) (s2 : Option CStr) (st : State) : Except (Fatal × State) (Int × State) :=
  let sent : List Conn :=
    match s1 with
    | none => st.conns
    | some c =>
      match st.conns.getLast? with
      | none => st.conns
      | some k => st.conns.dropLast ++ [{ k with sent := k.sent ++ c ++ s2.getD [] ++ "\n".toList }]
  let st1 := { st with conns := sent }
  match ftp_reply (st1.sfp.length + 1) st1.buf st1.sfp with
  | Except.error e => Except.error (e, st1)
  | Except.ok r => Except.ok (atoi r.1, { st1 with buf := r.1, sfp := r.2 })

/-- Lines 363-367: the port computed from the PASV reply held in `buf`;
`none` when a `strrchr` returns NULL (the C code then dereferences NULL). -/
def pasv_port (buf : List Char) : Option Int :=
  match strrchr_split ',' (cstr buf) with
  | none => none
  | some r1 =>
    match strrchr_split ',' r1.1 with
    | none => none
    | some r2 => some (to_int (atoi r1.2 + to_int (atoi r2.2 * 256)))

/-- Lines 361-367: send `PASV`, require the reply 227 and compute the data
port; `none` stands for the NULL dereference. -/
def ftp_pasv (st : State) : Except (Fatal × State) (Option Int × State) :=
  match ftpcmd (some "PASV".toList) none st with
  | Except.error e => Except.error e
  | Except.ok r =>
    if r.1 != 227 then
      Except.error (Fatal.ftp_pasv (cstr (r.2.buf.drop 4)), close_and_delete_outfile r.2)
    else Except.ok (pasv_port r.2.buf, r.2)

/-! ## The retrieval loop (wget.c lines 386-419) -/

/-- The third argument of the `fread` call at line 399. -/
def fread_count (st : State) : Nat :=
  if st.chunked then
    (if to_size_t st.filesize > BUFSIZ then BUFSIZ else to_size_t st.filesize)
  else BUFSIZ

/-- The call `n = fread(buf, 1, ..., dfp)` of line 399. -/
def fread_buf (st : State) : State :=
  { st with n := ((st.dfp.take (fread_count st)).length : Int),
            buf := store st.buf (st.dfp.take (fread_count st)),
            dfp := st.dfp.drop (fread_count st) }

/-- Lines 604-697, `progressmeter(flag)`, as far as the variables of the
transfer go: the call reads `statbytes` into `cursize` (line 623) and draws
the meter from it; called with `flag == 1` it ends with `statbytes = 0`
(line 695).  The clock, the alarm timer and the text drawn on the standard
error are not modelled. -/
def progressmeter (flag : Int) (st : State) : State :=
  { st with meter := st.meter ++ [st.statbytes],
            statbytes := if flag == 1 then 0 else st.statbytes }

/-- Lines 400-407, the body of the `while` loop: the `n` bytes `data` just
read are written, `statbytes` is raised, `progressmeter(1)` is called unless
`quiet_flag` is set, and `filesize` is updated. -/
def write_block (st : State) (data : List Char) : State :=
  let st1 := fwrite st data
  let st2 := { st1 with statbytes := (st1.statbytes + data.length) % 4294967296 }
  let st3 := if st2.quiet_flag then st2 else progressmeter 1 st2
  if st3.got_clen then { st3 with filesize := st3.filesize - st3.n } else st3

/-- The `while` loop of lines 399-408.  Every iteration takes at least one
byte from `dfp`; with the fuel used up `dfp` is at end-of-file, where `fread`
returns 0. -/
def read_body : Nat → State → State
  | 0, st => if 0 < st.filesize || !st.got_clen then fread_buf st else st
  | fuel + 1, st =>
    if 0 < st.filesize || !st.got_clen then
      if 0 < (fread_buf st).n then
        read_body fuel (write_block (fread_buf st) (st.dfp.take (fread_count st)))
      else fread_buf st
    else st

/-- The statement `fgets(buf, sizeof(buf), dfp);` whose result is ignored. -/
def fgets_dfp (st : State) : State :=
  { st with buf := (fgets st.buf BUFSIZ st.dfp).2.1, dfp := (fgets st.buf BUFSIZ st.dfp).2.2 }

/-- Lines 410-415: after a chunk, read the newline and the next size line. -/
def next_chunk (st : State) : State :=
  if st.chunked then
    let st1 := fgets_dfp (fgets_dfp st)
    let st2 := { st1 with filesize := strtol st1.buf 16 }
    if st2.filesize == 0 then { st2 with chunked := false } else st2
  else st

/-- Lines 395-397: `statbytes=0;` and, unless `quiet_flag` is set,
`progressmeter(-1)`. -/
def reset_statbytes (st : State) : State :=
  let st1 := { st with statbytes := 0 }
  if st1.quiet_flag then st1 else progressmeter (-1) st1

/-- The `do ... while (chunked)` loop of lines 393-419; `none` when `fuel`
iterations were not enough. -/
def retrieve_loop : Nat → State → Option State
  | 0, _ => none
  | fuel + 1, st =>
    let st1 := read_body (st.dfp.length + 1) (reset_statbytes st)
    let st2 := next_chunk st1
    if st2.chunked then retrieve_loop fuel st2 else some st2

/-- Lines 389-419: "Retrieve file". -/
def retrieve (fuel : Nat) (st : State) : Option State :=
  if st.chunked then
    let st1 := fgets_dfp st
    retrieve_loop fuel { st1 with filesize := strtol st1.buf 16 }
  else retrieve_loop fuel st

/-! ## Notions used to state the properties -/

/-- The bytes the output stream holds: what was written to the standard
output, or the content of the output file. -/
def written (st : State) : List Char :=
  match st.output with
  | Sink.stdout => st.stdout
  | Sink.file => st.outfile.getD []

/-- One chunk of a chunked body as it is sent: `<hex length>\r\n<data>\r\n`. -/
def chunk_frame (c : List Char) : List Char :=
  hex c.length ++ "\r\n".toList ++ c ++ "\r\n".toList

/-- The chunks of a chunked body, each framed, and the zero-size line. -/
def chunk_frames (chunks : List (List Char)) : List Char :=
  (chunks.map chunk_frame).flatten ++ "0\r\n".toList

/-- Body stream of a chunked response: the framed chunks, then `0\r\n\r\n`. -/
def chunked_body (chunks : List (List Char)) : List Char :=
  chunk_frames chunks ++ "\r\n".toList

/-- State of `wget_main` at line 386 for a chunked response whose body is
still unread on `dfp`, writing to the output file. -/
def chunked_start (body : List Char) : State :=
  { n := 0, try_ := 4, status := 200, buf := List.replicate BUFSIZ NUL,
    server := { host := [], port := 80, path := [], is_ftp := false, user := none },
    target := { host := [], port := 80, path := [], is_ftp := false, user := none },
    proxy := false, sfp := body, dfp := body, do_continue := 0, beg_range := 0,
    got_clen := true, output := Sink.file, filesize := 0, chunked := true, statbytes := 0,
    outfile := some [], stdout := [], conns := [], quiet_flag := false, meter := [] }

/-- The state a step ends in, whether the process goes on or dies. -/
def final_state (r : Res) : State :=
  match r with
  | Except.error e => e.2
  | Except.ok st => st

/-- The fatal error of a step, `none` when the process goes on. -/
def fatal_of (r : Res) : Option Fatal :=
  match r with
  | Except.error e => some e.1
  | Except.ok _ => none

/-- The server answers each of the next `k` requests of the session with a
response of status 302 (that is read without another fatal error). -/
def replies_302 (env : Env) : Nat → State → Bool
  | 0, _ => true
  | k + 1, st =>
    match http_exchange env { st with try_ := st.try_ - 1 } with
    | Except.ok st' => st'.status == 302 && replies_302 env k st'
    | Except.error _ => false

/-- The server answers the next `k` requests of the session with redirect
responses (status 300 to 303) and the one after them with a response of
status 200. -/
def redirect_chain (env : Env) : Nat → State → Bool
  | 0, st =>
    match http_exchange env { st with try_ := st.try_ - 1 } with
    | Except.ok st' => st'.status == 200
    | Except.error _ => false
  | k + 1, st =>
    match http_exchange env { st with try_ := st.try_ - 1 } with
    | Except.ok st' => decide (300 ≤ st'.status) && decide (st'.status ≤ 303) && redirect_chain env k st'
    | Except.error _ => false

/-- Text of the credentials `user[:password]`. -/
def cred_text (cred : CStr × Option CStr) : CStr :=
  cred.1 ++ (match cred.2 with | none => [] | some p => ':' :: p)

/-- Text of the optional part `user[:password]@` of an address. -/
def cred_part (cred : Option (CStr × Option CStr)) : CStr :=
  match cred with
  | none => []
  | some c => cred_text c ++ ['@']

/-- Text of the optional part `:port` of an address, the port in decimal. -/
def port_part (port : Option Nat) : CStr :=
  match port with
  | none => []
  | some p => ':' :: dec p

/-- The port an address stands for: the given one, else 21 for ftp and 80
for http. -/
def port_of (is_ftp : Bool) (port : Option Nat) : Int :=
  match port with
  | some p => (p : Int)
  | none => if is_ftp then 21 else 80

/-- Text of the address `scheme://[user[:password]@]host[:port]/path`, the
scheme being `ftp` or `http`. -/
def url_text (is_ftp : Bool) (cred : Option (CStr × Option CStr)) (host : CStr)
    (port : Option Nat) (path : CStr) : CStr :=
  (if is_ftp then "ftp://".toList else "http://".toList)
    ++ ((cred_part cred ++ (host ++ port_part port)) ++ '/' :: path)

/-! ## Concrete servers and command lines -/

/-- A server that accepts every connection and answers every request with
`302 Found` and a `Location` on the same host. -/
def server_302 : Env :=
  { connect := fun _ _ _ => true,
    reply := fun _ _ _ _ => "HTTP/1.1 302 Found\r\nLocation: /next\r\n\r\n".toList }

/-- A server that answers the first `k` requests with `302 Found` and every
later one with `200 OK` and the body `hello`. -/
def server_chain (k : Nat) : Env :=
  { connect := fun _ _ _ => true,
    reply := fun i _ _ _ =>
      if i < k then "HTTP/1.1 302 Found\r\nLocation: http://other:8080/next\r\n\r\n".toList
      else "HTTP/1.1 200 OK\r\nContent-Length: 5\r\n\r\nhello".toList }

/-- The command `wget http://host/file`, the file `file` not existing yet. -/
def plain_start : Start :=
  { target := { host := "host".toList, port := 80, path := "file".toList, is_ftp := false,
                user := none },
    proxy := none, fname_out := "file".toList, do_continue := 0, old_file := none,
    stdout_size := 0, buf := [], quiet_flag := false }

/-- The command `wget -c http://host/file`, the file `file` holding `old`. -/
def resume_start : Start :=
  { target := { host := "host".toList, port := 80, path := "file".toList, is_ftp := false,
                user := none },
    proxy := none, fname_out := "file".toList, do_continue := 1, old_file := some "old".toList,
    stdout_size := 0, buf := [], quiet_flag := false }

/-- The session of `plain_start` at the label `read_response`, the response
`reply` being unread on the connection. -/
def awaiting (reply : List Char) : State :=
  { start_state plain_start with try_ := 4, sfp := reply }

/-- The state `st` had the output file held the bytes `c` in front of what it
holds in `st`. -/
def with_older (c : List Char) (st : State) : State :=
  { st with outfile := some (c ++ st.outfile.getD []) }

/-- The FTP session of `plain_start` before `PASV` is sent, the control
connection being open and `reply` unread on it. -/
def awaiting_pasv (reply : List Char) : State :=
  { start_state plain_start with
      sfp := reply, conns := [{ host := "host".toList, port := 21, sent := [] }] }

/-! ## FTP: the greeting and the login (lines 322-345) -/

/-- Lines 322-327: the default credentials, the control connection and the
greeting.  The peer of the control connection is taken as the stream of its
reply lines. -/
def ftp_connect (env : Env) (st : State) : Res :=
  let st0 :=
    if st.target.user.isNone then
      { st with target := { st.target with user := some "anonymous:busybox@".toList } }
    else st
  if !env.connect st0.conns.length st0.server.host st0.server.port then
    error_msg_and_die (Fatal.open_socket st0.server.host st0.server.port) st0
  else
    let st1 :=
      { st0 with sfp := env.reply st0.conns.length st0.server.host st0.server.port [],
                 conns := st0.conns ++ [Conn.mk st0.server.host st0.server.port []] }
    match ftpcmd none none st1 with
    | Except.error e => Except.error e
    | Except.ok r =>
      if r.1 != 220 then close_delete_and_die (Fatal.ftp_greeting (cstr (r.2.buf.drop 4))) r.2
      else Except.ok r.2

/-- Lines 333-345: the credentials are split at the first `:` and the login
is tried with `USER` and, after the reply 331, `PASS`.  The pointer
`target.user` is not NULL here (lines 322-323). -/
def ftp_login (st : State) : Res :=
  let up := split_user (st.target.user.getD [])
  let st0 := { st with target := { st.target with user := some up.1 } }
  match ftpcmd (some "USER ".toList) (some up.1) st0 with
  | Except.error e => Except.error e
  | Except.ok r =>
    if r.1 == 230 then Except.ok r.2
    else if r.1 == 331 then
      match ftpcmd (some "PASS ".toList) up.2 r.2 with
      | Except.error e => Except.error e
      | Except.ok r2 =>
        if r2.1 == 230 then Except.ok r2.2
        else close_delete_and_die (Fatal.ftp_login (cstr (r2.2.buf.drop 4))) r2.2
    else close_delete_and_die (Fatal.ftp_login (cstr (r.2.buf.drop 4))) r.2

/-- Lines 322-345: the FTP session up to the end of the login. -/
def ftp_open (env : Env) (st : State) : Res :=
  match ftp_connect env st with
  | Except.error e => Except.error e
  | Except.ok st1 => ftp_login st1

/-! ## `parse_url` on the memory of the URL buffer -/

/-- Memory of the buffer `url` after `parse_url(url, h)` has returned: the
assignments `*sp++ = 0`, `*up++ = 0` and `*cp++ = 0` of lines 449, 457 and
464 put a NUL over the first `/` behind the scheme, over the last `@` in
front of it and over the first `:` behind that `@`. -/
def parse_url_mem (m : List Char) : List Char :=
  let url := cstr m
  let off : Option Nat :=
    if url.take 7 == "http://".toList then some 7
    else if url.take 6 == "ftp://".toList then some 6
    else none
  match off with
  | none => m
  | some k =>
    let host0 := url.drop k
    let sp := strchr_split '/' host0
    let m1 := match sp with | some r => poke m (k + r.1.length) NUL | none => m
    let host1 := match sp with | some r => r.1 | none => host0
    let up := strrchr_split '@' host1
    let m2 := match up with | some r => poke m1 (k + r.1.length) NUL | none => m1
    let k2 := match up with | some r => k + r.1.length + 1 | none => k
    let host2 := match up with | some r => r.2 | none => host1
    let cp := strchr_split ':' host2
    match cp with | some r => poke m2 (k2 + r.1.length) NUL | none => m2

/-! ## Notions used to state the properties of the retrieval and of the errors -/

/-- The size `n` rounded up to whole blocks of `BUFSIZ` bytes (0 for a
negative `n`). -/
def whole_blocks (n : Int) : Nat := BUFSIZ * ((n.toNat + (BUFSIZ - 1)) / BUFSIZ)

/-- The errors that `wget_main` raises through `close_delete_and_die`. -/
def raised_with_cleanup : Fatal → Bool
  | Fatal.too_many_redirections => true
  | Fatal.no_response => true
  | Fatal.server_error _ _ => true
  | Fatal.transfer_encoding _ => true
  | Fatal.ftp_pasv _ => true
  | Fatal.ftp_greeting _ => true
  | Fatal.ftp_login _ => true
  | _ => false

/-- The output file has been removed, unless the output is the standard
output or a resume is in progress. -/
def cleaned_up (st : State) : Bool :=
  st.output == Sink.stdout || st.do_continue != 0 || st.outfile == none

/-- A step that ends the process with one of the errors of
`raised_with_cleanup` ends it in a state that is `cleaned_up`. -/
def clean_death (r : Res) : Bool :=
  match r with
  | Except.error e => !raised_with_cleanup e.1 || cleaned_up e.2
  | Except.ok _ => true

/-! ## Notions used to state the properties of `parse_url` -/

/-- Text of the scheme of an address, with its `://`. -/
def scheme_text (is_ftp : Bool) : CStr := if is_ftp then "ftp://".toList else "http://".toList

/-- The default port of a scheme: 21 for ftp, 80 for http. -/
def default_port (is_ftp : Bool) : Int := if is_ftp then 21 else 80

/-- The authority of an address whose text behind the scheme is `rest`: the
text in front of the first `/`. -/
def authority (rest : CStr) : CStr := rest.takeWhile (fun c => c != '/')

/-- The part `host[:port]` of an authority: the text behind its last `@`. -/
def host_port (auth : CStr) : CStr := (auth.reverse.takeWhile (fun c => c != '@')).reverse

/-- Text of the optional part `:port` of an address, for any port text. -/
def colon_text (pt : Option CStr) : CStr :=
  match pt with
  | none => []
  | some t => ':' :: t

/-- Text of the optional part `/path` of an address. -/
def slash_text (path : Option CStr) : CStr :=
  match path with
  | none => []
  | some p => '/' :: p

/-! ## The Base64 encoding of RFC 4648 -/

/-- The Base64 alphabet of RFC 4648: the character for the value `i` below
64, in the order `A`-`Z`, `a`-`z`, `0`-`9`, `+`, `/`. -/
def b64_char (i : Nat) : Char :=
  if i < 26 then Char.ofNat (65 + i)
  else if i < 52 then Char.ofNat (97 + (i - 26))
  else if i < 62 then Char.ofNat (48 + (i - 52))
  else if i = 62 then '+'
  else '/'

/-- The standard Base64 encoding of RFC 4648 of a string of bytes: every
group of three bytes gives four characters, a last group of one or two bytes
is padded with `=`. -/
def rfc4648 : List Char → List Char
  | [] => []
  | [a] => [b64_char (a.toNat / 4), b64_char (a.toNat % 4 * 16), '=', '=']
  | [a, b] =>
    [b64_char (a.toNat / 4), b64_char (a.toNat % 4 * 16 + b.toNat / 16),
     b64_char (b.toNat % 16 * 4), '=']
  | a :: b :: c :: r =>
    b64_char (a.toNat / 4) :: b64_char (a.toNat % 4 * 16 + b.toNat / 16)
      :: b64_char (b.toNat % 16 * 4 + c.toNat / 64) :: b64_char (c.toNat % 64) :: rfc4648 r

/-! ## The request as the specification composes it -/

/-- The request target of the request line: the absolute form
`scheme://host:port/path` with a proxy, the form `/path` without. -/
def request_target (target : host_info) (proxy : Bool) : List Char :=
  if proxy then
    (if target.is_ftp then "ftp".toList else "http".toList) ++ "://".toList ++ target.host
      ++ ":".toList ++ fmt_int target.port ++ "/".toList ++ target.path
  else "/".toList ++ target.path

/-- An authentication header: its name, `Basic`, and the value `v`. -/
def basic_header (name v : List Char) : List Char :=
  name ++ ": Basic ".toList ++ v ++ "\r\n".toList

/-- The request as the specification composes it from its parts. -/
def composed_request (target : host_info) (proxy : Bool) (auth pauth : List Char)
    (resume : Option Int) : List Char :=
  "GET ".toList ++ request_target target proxy ++ " HTTP/1.1\r\n".toList
    ++ "Host: ".toList ++ target.host ++ "\r\n".toList
    ++ "User-Agent: Wget\r\n".toList
    ++ auth ++ pauth
    ++ (match resume with
        | some offset => "Range: bytes=".toList ++ fmt_int offset ++ "-\r\n".toList
        | none => [])
    ++ "Connection: close\r\n\r\n".toList

/-! ## Notions used to state the properties of the FTP login -/

/-- A reply line of an FTP server: the code, a space, the text and the
newline (a `\r` in front of the newline belongs to the text). -/
def reply_line (code : Nat) (text : List Char) : List Char := dec code ++ ' ' :: text ++ ['\n']

/-- What `ftpcmd` writes to the control connection: `s1`, `s2` and a newline,
nothing when `s1` is NULL. -/
def command_text (s1 s2 : Option CStr) : List Char :=
  match s1 with
  | none => []
  | some c => c ++ s2.getD [] ++ "\n".toList

/-- The credentials of the FTP session: those of the URL, else
`anonymous:busybox@`. -/
def ftp_credentials (user : Option CStr) : CStr := user.getD "anonymous:busybox@".toList

/-! ## More servers and command lines -/

/-- A server that announces 5 bytes and sends 11. -/
def server_surplus : Env :=
  { connect := fun _ _ _ => true,
    reply := fun _ _ _ _ => "HTTP/1.1 200 OK\r\nContent-Length: 5\r\n\r\nhello world".toList }

/-- A server whose response has a header line without colon. -/
def server_bad_header : Env :=
  { connect := fun _ _ _ => true,
    reply := fun _ _ _ _ => "HTTP/1.1 200 OK\r\nContent Length 5\r\n\r\nhello".toList }

/-- A server that redirects to an address of another scheme. -/
def server_https : Env :=
  { connect := fun _ _ _ => true,
    reply := fun _ _ _ _ => "HTTP/1.1 302 Found\r\nLocation: https://host/file\r\n\r\n".toList }

/-- The command `wget http://user:pw@host/file` with the environment variable
`http_proxy` set to `http://@proxy:3128/`, whose user is the empty string. -/
def proxy_start : Start :=
  { target := { host := "host".toList, port := 80, path := "file".toList, is_ftp := false,
                user := some "user:pw".toList },
    proxy := some { host := "proxy".toList, port := 3128, path := [], is_ftp := false,
                    user := some [] },
    fname_out := "file".toList, do_continue := 0, old_file := none, stdout_size := 0, buf := [],
    quiet_flag := false }

/-- The command `wget ftp://host/file`, the file `file` not existing yet. -/
def ftp_start : Start :=
  { target := { host := "host".toList, port := 21, path := "file".toList, is_ftp := true,
                user := none },
    proxy := none, fname_out := "file".toList, do_continue := 0, old_file := none,
    stdout_size := 0, buf := [], quiet_flag := false }

/-- An FTP server that greets, answers `USER` with 331 and `PASS` with 230. -/
def server_ftp_login : Env :=
  { connect := fun _ _ _ => true,
    reply := fun _ _ _ _ =>
      "220 ready\r\n331 password required\r\n230 logged in\r\n200 ok\r\n".toList }

/-- A server that answers the first request with `302 Found` and
`Content-Length: 0`, and the second with `200 OK`, no `Content-Length` and
the body `hello`. -/
def server_stale_length : Env :=
  { connect := fun _ _ _ => true,
    reply := fun i _ _ _ =>
      if i < 1 then "HTTP/1.1 302 Found\r\nContent-Length: 0\r\nLocation: /next\r\n\r\n".toList
      else "HTTP/1.1 200 OK\r\n\r\nhello".toList }

/-! ## Notions used to state the properties of the byte counter -/

/-- The number of bytes the output stream received between the states `st0`
and `st`. -/
def delivered (st0 st : State) : Nat := (written st).length - (written st0).length

/-- A server that sends 600 bytes `a` without announcing their number. -/
def server_two_blocks : Env :=
  { connect := fun _ _ _ => true,
    reply := fun _ _ _ _ => "HTTP/1.0 200 OK\r\n\r\n".toList ++ List.replicate 600 'a' }

/-- A server that sends the body `abcde` as the two chunks `abc` and `de`. -/
def server_two_chunks : Env :=
  { connect := fun _ _ _ => true,
    reply := fun _ _ _ _ =>
      ("HTTP/1.1 200 OK\r\nTransfer-Encoding: chunked\r\n\r\n"
        ++ "3\r\nabc\r\n2\r\nde\r\n0\r\n\r\n").toList }

/-- The command `wget -q http://host/file`, the file `file` not existing yet. -/
def quiet_start : Start := { plain_start with quiet_flag := true }

/-! ## A header line that fills the buffer -/

/-- A header line of 512 bytes: the name `X-Pad`, a value of 503 bytes `a`,
and the line terminator `\r\n`, whose `\r` is the 511th byte of the line. -/
def padded_line : List Char := "X-Pad: ".toList ++ List.replicate 503 'a' ++ "\r\n".toList

/-- A server whose response has the header line `padded_line` in front of
`Content-Length: 5`. -/
def server_padded_header : Env :=
  { connect := fun _ _ _ => true,
    reply := fun _ _ _ _ =>
      "HTTP/1.1 200 OK\r\n".toList ++ padded_line ++ "Content-Length: 5\r\n\r\nhello".toList }

/-! ## The stores of `base64enc` -/

/-- The stores of the `while` loop of `base64enc`, in the order in which they
are made, up to the end of the loop or to the death by "buffer overflow":
each is the offset in `buf` with the byte stored there.  In an iteration the
pointer `s` starts at the offset `s`; the stores are `*(s++)` twice,
`*s = *(s+1) = '='` (the right one first), `*(s+2) = 0`, and then one
`*(s++)` for each further byte of the group. -/
def base64enc_stores (len : Int) : CStr → Nat → List (Nat × Char)
  | [], _ => []
  | [c0], s =>
    if (s : Int) ≥ len - 4 then []
    else
      [(s, al.getD ((c0.toNat >>> 2) &&& 0x3F) NUL),
       (s + 1, al.getD (((c0.toNat <<< 4) &&& 0x30) ||| ((NUL.toNat >>> 4) &&& 0x0F)) NUL),
       (s + 3, '='), (s + 2, '='), (s + 4, NUL)]
  | [c0, c1], s =>
    if (s : Int) ≥ len - 4 then []
    else
      [(s, al.getD ((c0.toNat >>> 2) &&& 0x3F) NUL),
       (s + 1, al.getD (((c0.toNat <<< 4) &&& 0x30) ||| ((c1.toNat >>> 4) &&& 0x0F)) NUL),
       (s + 3, '='), (s + 2, '='), (s + 4, NUL),
       (s + 2, al.getD (((c1.toNat <<< 2) &&& 0x3C) ||| ((NUL.toNat >>> 6) &&& 0x03)) NUL)]
  | c0 :: c1 :: c2 :: p, s =>
    if (s : Int) ≥ len - 4 then []
    else
      [(s, al.getD ((c0.toNat >>> 2) &&& 0x3F) NUL),
       (s + 1, al.getD (((c0.toNat <<< 4) &&& 0x30) ||| ((c1.toNat >>> 4) &&& 0x0F)) NUL),
       (s + 3, '='), (s + 2, '='), (s + 4, NUL),
       (s + 2, al.getD (((c1.toNat <<< 2) &&& 0x3C) ||| ((c2.toNat >>> 6) &&& 0x03)) NUL),
       (s + 3, al.getD (c2.toNat &&& 0x3F) NUL)] ++ base64enc_stores len p (s + 4)

/-- The memory `m` after the stores `ws` were made in their order. -/
def stored (m : List Char) (ws : List (Nat × Char)) : List Char :=
  ws.foldl (fun b w => poke b w.1 w.2) m

/-! ## Responses used to state what the retrieval delivers -/

/-- A server that answers the first request with `302 Found` and
`Transfer-Encoding: chunked`, and the second with `200 OK`,
`Content-Length: 5` and the body `hello`, which is not chunked. -/
def server_stale_chunked : Env :=
  { connect := fun _ _ _ => true,
    reply := fun i _ _ _ =>
      if i < 1 then
        "HTTP/1.1 302 Found\r\nTransfer-Encoding: chunked\r\nLocation: /next\r\n\r\n".toList
      else "HTTP/1.1 200 OK\r\nContent-Length: 5\r\n\r\nhello".toList }

/-- The status line `HTTP/1.1 200 OK` with its terminator. -/
def status_line_200 : List Char := "HTTP/1.1 200 OK\r\n".toList

/-- The header line `Content-Length: n`. -/
def content_length_line (n : Nat) : List Char :=
  "Content-Length: ".toList ++ dec n ++ "\r\n".toList

/-- The header lines that announce the size of the body: `Content-Length`
for a size, nothing without. -/
def size_header (size : Option Nat) : List Char :=
  match size with
  | none => []
  | some n => content_length_line n

/-- A response with the status line `HTTP/1.1 200 OK`, the header
`Content-Length` when a size is announced, the empty line and the body. -/
def reply_200 (size : Option Nat) (body : List Char) : List Char :=
  status_line_200 ++ (size_header size ++ '\r' :: '\n' :: body)

end Wget

namespace Mount

/-! ## busybox `mount` (mount.c): `parse_mount_options` (lines 89-109 and 167-209) -/

/-- The flag bit `MS_RDONLY` of `<sys/mount.h>`. -/
def MS_RDONLY : Nat := 1

/-- The flag bit `MS_NOSUID` of `<sys/mount.h>`. -/
def MS_NOSUID : Nat := 2

/-- The flag bit `MS_NODEV` of `<sys/mount.h>`. -/
def MS_NODEV : Nat := 4

/-- The flag bit `MS_NOEXEC` of `<sys/mount.h>`. -/
def MS_NOEXEC : Nat := 8

/-- The flag bit `MS_SYNCHRONOUS` of `<sys/mount.h>`. -/
def MS_SYNCHRONOUS : Nat := 16

/-- The flag bit `MS_REMOUNT` of `<sys/mount.h>`. -/
def MS_REMOUNT : Nat := 32

/-- The largest `unsigned long` (32 bit). -/
def ULONG_MAX : Nat := 4294967295

/-- C `~x` converted to `unsigned long`, for an `int` constant `x` that is
not negative. -/
def compl (x : Nat) : Nat := ULONG_MAX - x

/-- The C `struct mount_options` (lines 89-93). -/
structure struct_mount_options where
  name : Wget.CStr
  and : Nat
  or : Nat
  deriving DecidableEq, Repr

/-- The table `mount_options` (lines 95-109), without its end marker. -/
def mount_options : List struct_mount_options :=
  [ { name := "async".toList, and := compl MS_SYNCHRONOUS, or := 0 },
    { name := "defaults".toList, and := compl 0, or := 0 },
    { name := "dev".toList, and := compl MS_NODEV, or := 0 },
    { name := "exec".toList, and := compl MS_NOEXEC, or := 0 },
    { name := "nodev".toList, and := compl 0, or := MS_NODEV },
    { name := "noexec".toList, and := compl 0, or := MS_NOEXEC },
    { name := "nosuid".toList, and := compl 0, or := MS_NOSUID },
    { name := "remount".toList, and := compl 0, or := MS_REMOUNT },
    { name := "ro".toList, and := compl 0, or := MS_RDONLY },
    { name := "rw".toList, and := compl MS_RDONLY, or := 0 },
    { name := "suid".toList, and := compl MS_NOSUID, or := 0 },
    { name := "sync".toList, and := compl 0, or := MS_SYNCHRONOUS } ]

/-- What `parse_mount_options` works on: the word at `flags`, the string at
`strflags` (taken without the bound of its buffer), and the global
`use_loop`. -/
structure Parsed where
  flags : Nat
  strflags : Wget.CStr
  use_loop : Int
  deriving DecidableEq, Repr

/-- The loop of lines 178-187: the first entry of the table whose name is the
string at `options`, case ignored (`strcasecmp`). -/
def find_option (options : Wget.CStr) : Option struct_mount_options :=
  mount_options.find? (fun f => Wget.strcaseeq f.name options)

/-- Lines 172-201, the body of the `while` loop, for the option `opt` that
the string at `options` is once the comma is overwritten.  `loop_feature`
tells whether `BB_FEATURE_MOUNT_LOOP` is defined. -/
def parse_one (loop_feature : Bool) (opt : Wget.CStr) (st : Parsed) : Parsed :=
  let gotone := (find_option opt).isSome
  let st1 :=
    match find_option opt with
    | some f => { st with flags := (st.flags &&& f.and) ||| f.or }
    | none => st
  let loop := loop_feature && !gotone && Wget.strcaseeq "loop".toList opt
  let st2 := if loop then { st1 with use_loop := 1 } else st1
  let st3 :=
    if st2.strflags != [] && !(gotone || loop) then { st2 with strflags := st2.strflags ++ [','] }
    else st2
  if !(gotone || loop) then { st3 with strflags := st3.strflags ++ opt } else st3

/-- The `while (options)` loop of lines 171-208 on the string at `options`;
every pass but the last steps over a comma. -/
def parse_mount_options_loop (loop_feature : Bool) : Nat → Wget.CStr → Parsed → Parsed
  | 0, _, st => st
  | fuel + 1, options, st =>
    match Wget.strchr_split ',' options with
    | some r => parse_mount_options_loop loop_feature fuel r.2 (parse_one loop_feature r.1 st)
    | none => parse_one loop_feature options st

/-- C `parse_mount_options(options, flags, strflags)`; `options` is `none`
for NULL. -/
def parse_mount_options (loop_feature : Bool) (options : Option Wget.CStr) (st : Parsed) :
    Parsed :=
  match options with
  | none => st
  | some o => parse_mount_options_loop loop_feature (o.length + 1) o st

/-! ## Notions used to state the properties of `parse_mount_options` -/

/-- The options of a comma-separated option string, in their order. -/
def options_of : Wget.CStr → List Wget.CStr
  | [] => [[]]
  | c :: s =>
    if c == ',' then [] :: options_of s
    else (c :: (options_of s).headD []) :: (options_of s).tail

/-- The strings of a list with a comma between each two of them. -/
def comma_joined : List Wget.CStr → Wget.CStr
  | [] => []
  | [o] => o
  | o :: p :: os => o ++ ',' :: comma_joined (p :: os)

/-- The flag word after one option: an option whose name matches an entry of
the table, case ignored, replaces `flags` by `(flags & and) | or`; any other
option leaves it. -/
def flag_step (flags : Nat) (o : Wget.CStr) : Nat :=
  match find_option o with
  | some f => (flags &&& f.and) ||| f.or
  | none => flags

/-- Whether an option is recognised: its name matches an entry of the table
or, with the loop feature, is `loop`. -/
def recognised (loop_feature : Bool) (o : Wget.CStr) : Bool :=
  (find_option o).isSome || (loop_feature && Wget.strcaseeq "loop".toList o)

/-- The string flags after one option: a recognised option leaves them, any
other option is appended, behind a comma if the string flags are not empty. -/
def str_step (loop_feature : Bool) (s : Wget.CStr) (o : Wget.CStr) : Wget.CStr :=
  if recognised loop_feature o then s
  else if s != [] then s ++ ',' :: o
  else o

/-- The pairs of opposite options: the option that sets a flag bit, the
option that clears it, and the number of the bit. -/
def opposites : List (Wget.CStr × Wget.CStr × Nat) :=
  [ ("ro".toList, "rw".toList, 0), ("sync".toList, "async".toList, 4),
    ("nodev".toList, "dev".toList, 2), ("noexec".toList, "exec".toList, 3),
    ("nosuid".toList, "suid".toList, 1) ]

end Mount

namespace Wget

/-! ## General lemmas on lists -/

theorem takeWhile_append_stop (p : Char → Bool) (l r : List Char) (x : Char)
    (hl : ∀ c ∈ l, p c = true) (hx : p x = false) : (l ++ x :: r).takeWhile p = l := by
  induction l with
  | nil => simp [List.takeWhile, hx]
  | cons a l ih =>
    have ha : p a = true := hl a (by simp)
    simp [List.takeWhile, ha]
    exact ih (fun c hc => hl c (by simp [hc]))

theorem dropWhile_append_stop (p : Char → Bool) (l r : List Char) (x : Char)
    (hl : ∀ c ∈ l, p c = true) (hx : p x = false) : (l ++ x :: r).dropWhile p = x :: r := by
  induction l with
  | nil => simp [List.dropWhile, hx]
  | cons a l ih =>
    have ha : p a = true := hl a (by simp)
    simp [List.dropWhile, ha]
    exact ih (fun c hc => hl c (by simp [hc]))

theorem takeWhile_all (p : Char → Bool) (l : List Char) (hl : ∀ c ∈ l, p c = true) :
    l.takeWhile p = l := List.takeWhile_eq_self_iff.mpr hl

theorem dropWhile_all (p : Char → Bool) (l : List Char) (hl : ∀ c ∈ l, p c = true) :
    l.dropWhile p = [] := List.dropWhile_eq_nil_iff.mpr hl

/-! ## Numerals -/

theorem digitVal_digit_char : ∀ d, d < 16 → digitVal (digit_char d) = some d := by decide

theorem digit_char_props : ∀ d, d < 16 →
    isspace (digit_char d) = false ∧ digit_char d ≠ '-' ∧ digit_char d ≠ '+' ∧
    digit_char d ≠ 'x' ∧ digit_char d ≠ 'X' ∧ digit_char d ≠ '\n' ∧ digit_char d ≠ NUL ∧
    digit_char d ≠ ',' := by decide

theorem digits_be_succ (base fuel n : Nat) (acc : List Char) :
    digits_be base (fuel + 1) n acc =
      if n / base == 0 then digit_char (n % base) :: acc
      else digits_be base fuel (n / base) (digit_char (n % base) :: acc) := rfl

/-- The numeral of `n` in `base` (with enough fuel). -/
theorem digits_be_eq (base : Nat) (hb : 2 ≤ base) :
    ∀ n fuel acc, n < fuel →
      digits_be base fuel n acc = digits_be base (n + 1) n [] ++ acc := by
  intro n
  induction n using Nat.strong_induction_on with
  | _ n ih =>
    intro fuel acc hf
    obtain ⟨f, rfl⟩ : ∃ f, fuel = f + 1 := ⟨fuel - 1, by omega⟩
    by_cases h0 : n / base = 0
    · simp [digits_be, h0]
    · have hlt : n / base < n := by
        have hn : 0 < n := by
          rcases Nat.eq_zero_or_pos n with h | h
          · simp [h] at h0
          · exact h
        exact Nat.div_lt_self hn (by omega)
      simp only [digits_be, beq_iff_eq, h0, if_false]
      rw [ih (n / base) hlt f _ (by omega), ih (n / base) hlt n [digit_char (n % base)] hlt]
      simp

theorem digits_be_small (base n : Nat) (hb : 2 ≤ base) (h : n < base) :
    digits_be base (n + 1) n [] = [digit_char n] := by
  have h0 : n / base = 0 := Nat.div_eq_of_lt h
  simp [digits_be, h0, Nat.mod_eq_of_lt h]

theorem digits_be_step (base n : Nat) (hb : 2 ≤ base) (h : base ≤ n) :
    digits_be base (n + 1) n [] =
      digits_be base (n / base + 1) (n / base) [] ++ [digit_char (n % base)] := by
  have h0 : n / base ≠ 0 := by
    have : 0 < n / base := Nat.div_pos h (by omega)
    omega
  have hlt : n / base < n := Nat.div_lt_self (by omega) (by omega)
  rw [digits_be_succ]
  simp only [beq_iff_eq, h0, if_false]
  rw [digits_be_eq base hb (n / base) n _ hlt]

/-- Every byte of a numeral is a digit below the base. -/
theorem digits_be_mem (base : Nat) (hb : 2 ≤ base) :
    ∀ n c, c ∈ digits_be base (n + 1) n [] → ∃ d, d < base ∧ c = digit_char d := by
  intro n
  induction n using Nat.strong_induction_on with
  | _ n ih =>
    intro c hc
    by_cases h : n < base
    · rw [digits_be_small base n hb h] at hc
      exact ⟨n, h, by simpa using hc⟩
    · rw [digits_be_step base n hb (by omega)] at hc
      have hlt : n / base < n := Nat.div_lt_self (by omega) (by omega)
      rcases List.mem_append.mp hc with h1 | h1
      · exact ih _ hlt c h1
      · exact ⟨n % base, Nat.mod_lt _ (by omega), by simpa using h1⟩

theorem digits_be_ne_nil (base : Nat) (hb : 2 ≤ base) (n : Nat) :
    digits_be base (n + 1) n [] ≠ [] := by
  by_cases h : n < base
  · rw [digits_be_small base n hb h]; simp
  · rw [digits_be_step base n hb (by omega)]; simp

theorem digits_be_length (base : Nat) (hb : 2 ≤ base) :
    ∀ k n, n < base ^ (k + 1) → (digits_be base (n + 1) n []).length ≤ k + 1 := by
  intro k
  induction k with
  | zero =>
    intro n hn
    rw [digits_be_small base n hb (by simpa using hn)]; simp
  | succ k ih =>
    intro n hn
    by_cases h : n < base
    · rw [digits_be_small base n hb h]; simp
    · rw [digits_be_step base n hb (by omega)]
      have : n / base < base ^ (k + 1) := by
        apply Nat.div_lt_of_lt_mul
        rw [pow_succ] at hn
        rw [Nat.mul_comm]; exact hn
      have := ih (n / base) this
      simp; omega

/-- The digit loop of `strtol` reads a numeral back. -/
theorem strtol_digits_numeral (base : Nat) (hb : 2 ≤ base) (hb16 : base ≤ 16) :
    ∀ n a t, strtol_digits base (digits_be base (n + 1) n [] ++ t) a
      = strtol_digits base t (a * base ^ (digits_be base (n + 1) n []).length + n) := by
  intro n
  induction n using Nat.strong_induction_on with
  | _ n ih =>
    intro a t
    by_cases h : n < base
    · rw [digits_be_small base n hb h]
      simp [strtol_digits, digitVal_digit_char n (by omega), h]
    · rw [digits_be_step base n hb (by omega)]
      have hlt : n / base < n := Nat.div_lt_self (by omega) (by omega)
      have hm : n % base < base := Nat.mod_lt _ (by omega)
      rw [List.append_assoc, ih _ hlt]
      simp only [List.singleton_append, strtol_digits, digitVal_digit_char (n % base) (by omega), hm,
        if_true, List.length_append, List.length_singleton]
      congr 1
      rw [pow_succ]
      have := Nat.div_add_mod n base
      nlinarith [Nat.div_add_mod n base]

theorem strtol_digits_stop (base : Nat) (c : Char) (t : List Char) (a : Nat)
    (h : ∀ d, digitVal c = some d → ¬ d < base) : strtol_digits base (c :: t) a = a := by
  unfold strtol_digits
  cases hd : digitVal c with
  | none => rfl
  | some d => simp [h d hd]

theorem strtol_digits_nil (base a : Nat) : strtol_digits base [] a = a := rfl

theorem digitVal_not_isdigit (c : Char) (h : isdigit c = false) :
    ∀ d, digitVal c = some d → ¬ d < 10 := by
  intro d hd
  unfold digitVal at hd
  split_ifs at hd with h0 h1 h2
  · simp [h] at h0
  · simp only [Option.some.injEq] at hd; omega
  · simp only [Option.some.injEq] at hd; omega

/-- The function `strtol` on a string that starts with neither white space nor a
sign and has no `0x` in front. -/
theorem strtol_plain (base : Nat) (c : Char) (l : List Char)
    (hsp : isspace c = false) (hm : c ≠ '-') (hp : c ≠ '+')
    (hx : ∀ x r, l = x :: r → base = 16 → x ≠ 'x' ∧ x ≠ 'X') :
    strtol (c :: l) base = min ((strtol_digits base (c :: l) 0 : Nat) : Int) LONG_MAX := by
  unfold strtol
  have e1 : (c :: l).dropWhile isspace = c :: l := by simp [List.dropWhile, hsp]
  have e2 : (some c == some '-') = false := by simp [hm]
  have e2' : (some c == some '+') = false := by simp [hp]
  simp only [e1, List.head?_cons, e2, e2', Bool.or_self, Bool.false_eq_true, if_false]
  cases l with
  | nil => rfl
  | cons x r =>
    by_cases hb : base = 16
    · have := hx x r rfl hb
      simp [this.1, this.2]
    · simp [hb]

/-- How `strtol` reads a numeral that is followed by a text `t` at which the
digit loop stops. -/
theorem strtol_numeral (base n : Nat) (hb : 2 ≤ base) (hb16 : base ≤ 16) (t : List Char)
    (hstop : ∀ a, strtol_digits base t a = a)
    (hx : ∀ c, t.head? = some c → c ≠ 'x' ∧ c ≠ 'X') :
    strtol (digits_be base (n + 1) n [] ++ t) base = min (n : Int) LONG_MAX := by
  have hmem := digits_be_mem base hb n
  have hne := digits_be_ne_nil base hb n
  have hval := strtol_digits_numeral base hb hb16 n 0 t
  generalize digits_be base (n + 1) n [] = D at hmem hne hval
  cases D with
  | nil => exact absurd rfl hne
  | cons c cs =>
    obtain ⟨d, hd, rfl⟩ := hmem c (by simp)
    have hp := digit_char_props d (by omega)
    rw [List.cons_append, strtol_plain base _ _ hp.1 hp.2.1 hp.2.2.1]
    · rw [List.cons_append] at hval
      rw [hval, hstop]; simp
    · intro x r hct _
      cases cs with
      | nil =>
        simp at hct
        exact hx x (by simp [hct])
      | cons c2 cs2 =>
        simp at hct
        obtain ⟨d2, hd2, h2⟩ := hmem c2 (by simp)
        have := digit_char_props d2 (by omega)
        rw [← hct.1, h2]
        exact ⟨this.2.2.2.1, this.2.2.2.2.1⟩

theorem atoi_dec (n : Nat) (t : List Char) (hstop : ∀ a, strtol_digits 10 t a = a) :
    atoi (dec n ++ t) = min (n : Int) LONG_MAX := by
  have hmem := digits_be_mem 10 (by omega) n
  have hne := digits_be_ne_nil 10 (by omega) n
  have hval := strtol_digits_numeral 10 (by omega) (by omega) n 0 t
  unfold atoi dec
  generalize digits_be 10 (n + 1) n [] = D at hmem hne hval
  cases D with
  | nil => exact absurd rfl hne
  | cons c cs =>
    obtain ⟨d, hd, rfl⟩ := hmem c (by simp)
    have hp := digit_char_props d (by omega)
    rw [List.cons_append, strtol_plain 10 _ _ hp.1 hp.2.1 hp.2.2.1]
    · rw [List.cons_append] at hval
      rw [hval, hstop]; simp
    · intro x r _ h16
      omega

theorem strtol_hex_cr (n : Nat) (t : List Char) :
    strtol (hex n ++ '\r' :: t) 16 = min (n : Int) LONG_MAX := by
  unfold hex
  apply strtol_numeral 16 n (by omega) (by omega)
  · intro a
    exact strtol_digits_stop 16 '\r' t a (by decide)
  · intro c hc
    simp at hc
    subst hc
    decide

/-! ## Reading lines -/

theorem fgets_split_line (l rest : List Char) (hl : ∀ c ∈ l, c ≠ '\n') :
    ∀ k, l.length < k → fgets_split k (l ++ '\n' :: rest) = (l ++ ['\n'], rest) := by
  induction l with
  | nil =>
    intro k hk
    obtain ⟨k, rfl⟩ : ∃ j, k = j + 1 := ⟨k - 1, by simp at hk; omega⟩
    simp [fgets_split]
  | cons a l ih =>
    intro k hk
    obtain ⟨k, rfl⟩ : ∃ j, k = j + 1 := ⟨k - 1, by simp at hk; omega⟩
    have ha : a ≠ '\n' := hl a (by simp)
    have := ih (fun c hc => hl c (by simp [hc])) k (by simp at hk; omega)
    simp [fgets_split, ha, this]

theorem fgets_split_full (l rest : List Char) (hl : ∀ c ∈ l, c ≠ '\n') :
    ∀ k, k ≤ l.length → fgets_split k (l ++ rest) = (l.take k, l.drop k ++ rest) := by
  induction l with
  | nil =>
    intro k hk
    have : k = 0 := by simpa using hk
    subst this
    simp [fgets_split]
  | cons a l ih =>
    intro k hk
    cases k with
    | zero => simp [fgets_split]
    | succ k =>
      have ha : a ≠ '\n' := hl a (by simp)
      have := ih (fun c hc => hl c (by simp [hc])) k (by simp at hk; omega)
      simp [fgets_split, ha, this]

theorem fgets_line (buf l rest : List Char) (size : Nat) (hl : ∀ c ∈ l, c ≠ '\n')
    (hk : l.length + 2 ≤ size) :
    fgets buf size (l ++ '\n' :: rest) = (true, store buf (l ++ ['\n'] ++ [NUL]), rest) := by
  have h := fgets_split_line l rest hl (size - 1) (by omega)
  cases hl' : l ++ '\n' :: rest with
  | nil => simp at hl'
  | cons a t =>
    simp only [fgets]
    rw [← hl', h]

theorem cstr_append_nul (l t : List Char) (hl : ∀ c ∈ l, c ≠ NUL) : cstr (l ++ NUL :: t) = l := by
  unfold cstr
  apply takeWhile_append_stop
  · intro c hc; simpa using hl c hc
  · simp

theorem written_fwrite (st : State) (data : List Char) :
    written (fwrite st data) = written st ++ data := by
  unfold written fwrite
  cases h : st.output <;> simp [h]

/-! ## The retrieval loop on a chunked body -/

theorem to_size_t_small (n : Nat) (h : n ≤ 2147483647) : to_size_t (n : Int) = n := by
  unfold to_size_t
  have : ((n : Int) % 4294967296) = (n : Int) := Int.emod_eq_of_lt (by omega) (by omega)
  rw [this]; simp

theorem write_block_fields (st : State) (data : List Char) :
    (write_block st data).dfp = st.dfp ∧ (write_block st data).chunked = st.chunked ∧
    (write_block st data).got_clen = st.got_clen ∧ (write_block st data).output = st.output ∧
    (write_block st data).filesize = (if st.got_clen then st.filesize - st.n else st.filesize) ∧
    written (write_block st data) = written st ++ data := by
  unfold write_block progressmeter fwrite written
  cases ho : st.output <;> cases hg : st.got_clen <;> cases hq : st.quiet_flag <;>
    simp [ho, hg, hq]

theorem reset_statbytes_fields (st : State) :
    (reset_statbytes st).dfp = st.dfp ∧ (reset_statbytes st).chunked = st.chunked ∧
    (reset_statbytes st).got_clen = st.got_clen ∧ (reset_statbytes st).output = st.output ∧
    (reset_statbytes st).filesize = st.filesize ∧ written (reset_statbytes st) = written st := by
  unfold reset_statbytes progressmeter written
  cases hq : st.quiet_flag <;> simp [hq]

theorem read_body_succ (fuel : Nat) (st : State) :
    read_body (fuel + 1) st =
      if 0 < st.filesize || !st.got_clen then
        if 0 < (fread_buf st).n then
          read_body fuel (write_block (fread_buf st) (st.dfp.take (fread_count st)))
        else fread_buf st
      else st := rfl

/-- The inner loop reads a chunk of `data.length` bytes and nothing more. -/
theorem read_body_chunk : ∀ (fuel : Nat) (data rest : List Char) (st : State),
    st.chunked = true → st.got_clen = true → st.filesize = (data.length : Int) →
    data.length ≤ 2147483647 → st.dfp = data ++ rest → data.length < fuel →
    (read_body fuel st).dfp = rest ∧ (read_body fuel st).filesize = 0 ∧
    written (read_body fuel st) = written st ++ data ∧
    (read_body fuel st).chunked = true ∧ (read_body fuel st).got_clen = true ∧
    (read_body fuel st).output = st.output := by
  intro fuel
  induction fuel with
  | zero => intro data rest st _ _ _ _ _ h; omega
  | succ fuel ih =>
    intro data rest st hc hg hf hmax hd hfuel
    by_cases h0 : data.length = 0
    · have hnil : data = [] := List.length_eq_zero.mp h0
      subst hnil
      have hfs : st.filesize = 0 := by simpa using hf
      simp [read_body, hfs, hg, hc, hd]
    · have hpos : (0 : Int) < st.filesize := by rw [hf]; omega
      have hcnt : fread_count st = min data.length BUFSIZ := by
        unfold fread_count
        rw [hc, hf, to_size_t_small _ hmax]
        simp only [if_true]
        split <;> omega
      have hcpos : 0 < fread_count st := by rw [hcnt]; unfold BUFSIZ; omega
      have hcle : fread_count st ≤ data.length := by rw [hcnt]; omega
      have htake : st.dfp.take (fread_count st) = data.take (fread_count st) := by
        rw [hd, List.take_append_of_le_length hcle]
      have hdrop : st.dfp.drop (fread_count st) = data.drop (fread_count st) ++ rest := by
        rw [hd, List.drop_append_of_le_length hcle]
      have hlen : (data.take (fread_count st)).length = fread_count st := by
        rw [List.length_take]; omega
      have hn : (fread_buf st).n = (fread_count st : Int) := by
        simp only [fread_buf, htake, hlen]
      have hnpos : (0 : Int) < (fread_buf st).n := by rw [hn]; exact_mod_cast hcpos
      rw [read_body_succ]
      simp only [hpos, decide_True, Bool.true_or, if_true, hnpos]
      have hw := write_block_fields (fread_buf st) (st.dfp.take (fread_count st))
      have hfb : (fread_buf st).dfp = data.drop (fread_count st) ++ rest := by
        simp only [fread_buf, hdrop]
      have hfc : (fread_buf st).chunked = true := by simp only [fread_buf, hc]
      have hfg : (fread_buf st).got_clen = true := by simp only [fread_buf, hg]
      have hff : (fread_buf st).filesize = data.length := by simp only [fread_buf, hf]
      have hfo : (fread_buf st).output = st.output := by simp only [fread_buf]
      have hfw : written (fread_buf st) = written st := by
        unfold written fread_buf; rfl
      have := ih (data.drop (fread_count st)) rest
        (write_block (fread_buf st) (st.dfp.take (fread_count st)))
        (by rw [hw.2.1, hfc]) (by rw [hw.2.2.1, hfg])
        (by rw [hw.2.2.2.2.1, hfg, hff, hn]; simp; omega)
        (by simp; omega) (by rw [hw.1, hfb]) (by simp; omega)
      refine ⟨this.1, this.2.1, ?_, this.2.2.2.1, this.2.2.2.2.1, ?_⟩
      · rw [this.2.2.1, hw.2.2.2.2.2, hfw, htake, List.append_assoc, List.take_append_drop]
      · rw [this.2.2.2.2.2, hw.2.2.2.1, hfo]

theorem hex_no_newline (n : Nat) : ∀ c ∈ hex n, c ≠ '\n' := by
  intro c hc
  obtain ⟨d, hd, rfl⟩ := digits_be_mem 16 (by omega) n c hc
  exact (digit_char_props d hd).2.2.2.2.2.1

theorem hex_length (n : Nat) (h : n ≤ 2147483647) : (hex n).length ≤ 8 :=
  digits_be_length 16 (by omega) 7 n (by omega)

theorem fgets_dfp_line (st : State) (l rest : List Char) (hl : ∀ c ∈ l, c ≠ '\n')
    (hk : l.length + 2 ≤ BUFSIZ) (hd : st.dfp = l ++ '\n' :: rest) :
    (fgets_dfp st).dfp = rest ∧ (fgets_dfp st).buf = store st.buf (l ++ ['\n'] ++ [NUL]) ∧
    (fgets_dfp st).chunked = st.chunked ∧ (fgets_dfp st).got_clen = st.got_clen ∧
    (fgets_dfp st).output = st.output ∧ written (fgets_dfp st) = written st ∧
    (fgets_dfp st).filesize = st.filesize := by
  unfold fgets_dfp
  rw [hd, fgets_line st.buf l rest BUFSIZ hl hk]
  refine ⟨rfl, rfl, rfl, rfl, rfl, rfl, rfl⟩

/-- Lines 410-415 on the newline that ends a chunk and the following size line. -/
theorem next_chunk_line (st : State) (L : Nat) (r : List Char) (hc : st.chunked = true)
    (hL : L ≤ 2147483647) (hd : st.dfp = '\r' :: '\n' :: (hex L ++ '\r' :: '\n' :: r)) :
    (next_chunk st).dfp = r ∧ (next_chunk st).filesize = (L : Int) ∧
    (next_chunk st).chunked = (if L = 0 then false else true) ∧
    (next_chunk st).got_clen = st.got_clen ∧ written (next_chunk st) = written st ∧
    (next_chunk st).output = st.output := by
  have h1 := fgets_dfp_line st ['\r'] (hex L ++ '\r' :: '\n' :: r) (by decide) (by decide)
    (by rw [hd]; rfl)
  have h2 := fgets_dfp_line (fgets_dfp st) (hex L ++ ['\r']) r
    (by
      intro c hcm
      rcases List.mem_append.mp hcm with h | h
      · exact hex_no_newline L c h
      · simp at h; subst h; decide)
    (by have := hex_length L hL; simp [BUFSIZ]; omega)
    (by rw [h1.1]; simp)
  have hbuf : strtol (fgets_dfp (fgets_dfp st)).buf 16 = (L : Int) := by
    rw [h2.2.1]
    unfold store
    have : hex L ++ ['\r'] ++ ['\n'] ++ [NUL] ++
        List.drop (hex L ++ ['\r'] ++ ['\n'] ++ [NUL]).length (fgets_dfp st).buf
        = hex L ++ '\r' :: ('\n' :: NUL ::
          List.drop (hex L ++ ['\r'] ++ ['\n'] ++ [NUL]).length (fgets_dfp st).buf) := by
      simp
    rw [this, strtol_hex_cr]
    unfold LONG_MAX
    omega
  unfold next_chunk
  simp only [hc, if_true, hbuf]
  by_cases h0 : L = 0
  · subst h0
    simp only [Nat.cast_zero, beq_self_eq_true, if_true]
    refine ⟨h2.1, ?_, ?_, ?_, ?_, ?_⟩
    · trivial
    · trivial
    · show (fgets_dfp (fgets_dfp st)).got_clen = _
      rw [h2.2.2.2.1, h1.2.2.2.1]
    · show written { fgets_dfp (fgets_dfp st) with filesize := 0, chunked := false } = _
      have : written { fgets_dfp (fgets_dfp st) with filesize := 0, chunked := false }
          = written (fgets_dfp (fgets_dfp st)) := rfl
      rw [this, h2.2.2.2.2.2.1, h1.2.2.2.2.2.1]
    · show (fgets_dfp (fgets_dfp st)).output = _
      rw [h2.2.2.2.2.1, h1.2.2.2.2.1]
  · have hne : ((L : Int) == 0) = false := by
      simp; exact_mod_cast h0
    simp only [hne, h0, if_false, Bool.false_eq_true]
    refine ⟨h2.1, ?_, ?_, ?_, ?_, ?_⟩
    · trivial
    · show (fgets_dfp (fgets_dfp st)).chunked = true
      rw [h2.2.2.1, h1.2.2.1, hc]
    · show (fgets_dfp (fgets_dfp st)).got_clen = _
      rw [h2.2.2.2.1, h1.2.2.2.1]
    · have : written { fgets_dfp (fgets_dfp st) with filesize := (L : Int) }
          = written (fgets_dfp (fgets_dfp st)) := rfl
      rw [this, h2.2.2.2.2.2.1, h1.2.2.2.2.2.1]
    · show (fgets_dfp (fgets_dfp st)).output = _
      rw [h2.2.2.2.2.1, h1.2.2.2.2.1]

theorem chunk_frames_nil : chunk_frames [] = hex 0 ++ '\r' :: '\n' :: [] := by decide

theorem chunk_frames_cons (c : List Char) (cs : List (List Char)) :
    chunk_frames (c :: cs) = hex c.length ++ '\r' :: '\n' :: (c ++ '\r' :: '\n' :: chunk_frames cs) := by
  simp [chunk_frames, chunk_frame]

theorem retrieve_loop_succ (fuel : Nat) (st : State) :
    retrieve_loop (fuel + 1) st =
      if (next_chunk (read_body (st.dfp.length + 1) (reset_statbytes st))).chunked then
        retrieve_loop fuel (next_chunk (read_body (st.dfp.length + 1) (reset_statbytes st)))
      else some (next_chunk (read_body (st.dfp.length + 1) (reset_statbytes st))) := rfl

/-- The `do ... while (chunked)` loop started on the data of a chunk `c` that is
followed by the framed chunks `chunks` and the zero-size line. -/
theorem retrieve_loop_chunks : ∀ (chunks : List (List Char)) (c rest : List Char) (st : State)
    (fuel : Nat), (∀ x ∈ c :: chunks, x ≠ [] ∧ x.length ≤ 2147483647) →
    st.chunked = true → st.got_clen = true → st.filesize = (c.length : Int) →
    st.dfp = c ++ '\r' :: '\n' :: (chunk_frames chunks ++ rest) → chunks.length < fuel →
    ∃ st', retrieve_loop fuel st = some st' ∧ st'.dfp = rest ∧
      written st' = written st ++ c ++ chunks.flatten ∧ st'.chunked = false := by
  intro chunks
  induction chunks with
  | nil =>
    intro c rest st fuel hall hc hg hf hd hfuel
    obtain ⟨fuel, rfl⟩ : ∃ f, fuel = f + 1 := ⟨fuel - 1, by omega⟩
    have hr := reset_statbytes_fields st
    have hb := read_body_chunk (st.dfp.length + 1) c
      ('\r' :: '\n' :: (chunk_frames [] ++ rest)) (reset_statbytes st)
      (hr.2.1.trans hc) (hr.2.2.1.trans hg) (hr.2.2.2.2.1.trans hf) (hall c (by simp)).2
      (hr.1.trans hd) (by rw [hd]; simp; omega)
    have hn := next_chunk_line (read_body (st.dfp.length + 1) (reset_statbytes st)) 0 rest
      hb.2.2.2.1 (by omega) (by rw [hb.1, chunk_frames_nil]; simp)
    rw [retrieve_loop_succ]
    simp only [hn.2.2.1, if_true, Bool.false_eq_true, if_false]
    refine ⟨_, rfl, hn.1, ?_, hn.2.2.1⟩
    rw [hn.2.2.2.2.1, hb.2.2.1, hr.2.2.2.2.2]
    simp
  | cons c2 chunks ih =>
    intro c rest st fuel hall hc hg hf hd hfuel
    obtain ⟨fuel, rfl⟩ : ∃ f, fuel = f + 1 := ⟨fuel - 1, by simp at hfuel; omega⟩
    have hr := reset_statbytes_fields st
    have hb := read_body_chunk (st.dfp.length + 1) c
      ('\r' :: '\n' :: (chunk_frames (c2 :: chunks) ++ rest)) (reset_statbytes st)
      (hr.2.1.trans hc) (hr.2.2.1.trans hg) (hr.2.2.2.2.1.trans hf) (hall c (by simp)).2
      (hr.1.trans hd) (by rw [hd]; simp; omega)
    have h2 := hall c2 (by simp)
    have hn := next_chunk_line (read_body (st.dfp.length + 1) (reset_statbytes st))
      c2.length (c2 ++ '\r' :: '\n' :: (chunk_frames chunks ++ rest))
      hb.2.2.2.1 h2.2 (by rw [hb.1, chunk_frames_cons]; simp)
    have hlen : c2.length ≠ 0 := by
      intro h; exact h2.1 (List.length_eq_zero.mp h)
    rw [retrieve_loop_succ]
    simp only [hn.2.2.1, hlen, if_false, if_true]
    obtain ⟨st', h1, h3, h4, h5⟩ := ih c2 rest
      (next_chunk (read_body (st.dfp.length + 1) (reset_statbytes st))) fuel
      (fun x hx => hall x (by simp at hx ⊢; tauto))
      (by rw [hn.2.2.1]; simp [hlen]) (by rw [hn.2.2.2.1, hb.2.2.2.2.1]) hn.2.1 hn.1
      (by simp at hfuel; omega)
    refine ⟨st', h1, h3, ?_, h5⟩
    rw [h4, hn.2.2.2.2.1, hb.2.2.1, hr.2.2.2.2.2]
    simp

/-! ## String search -/

theorem strchr_split_append (c : Char) (l r : List Char) (hl : ∀ x ∈ l, x ≠ c) :
    strchr_split c (l ++ c :: r) = some (l, r) := by
  induction l with
  | nil => simp [strchr_split]
  | cons a l ih =>
    have ha : a ≠ c := hl a (by simp)
    simp [strchr_split, ha, ih (fun x hx => hl x (by simp [hx]))]

theorem strchr_split_none (c : Char) (l : List Char) (hl : ∀ x ∈ l, x ≠ c) :
    strchr_split c l = none := by
  induction l with
  | nil => rfl
  | cons a l ih =>
    have ha : a ≠ c := hl a (by simp)
    simp [strchr_split, ha, ih (fun x hx => hl x (by simp [hx]))]

theorem strrchr_split_none (c : Char) (l : List Char) (hl : ∀ x ∈ l, x ≠ c) :
    strrchr_split c l = none := by
  induction l with
  | nil => rfl
  | cons a l ih =>
    have ha : a ≠ c := hl a (by simp)
    simp [strrchr_split, ha, ih (fun x hx => hl x (by simp [hx]))]

theorem strrchr_split_append (c : Char) (l r : List Char) (hr : ∀ x ∈ r, x ≠ c) :
    strrchr_split c (l ++ c :: r) = some (l, r) := by
  induction l with
  | nil => simp [strrchr_split, strrchr_split_none c r hr]
  | cons a l ih => simp [strrchr_split, ih]

theorem dec_no_char (n : Nat) (c : Char) (hc : ∀ d, d < 10 → digit_char d ≠ c) :
    ∀ x ∈ dec n, x ≠ c := by
  intro x hx
  obtain ⟨d, hd, rfl⟩ := digits_be_mem 10 (by omega) n x hx
  exact hc d hd

/-! ## What the steps of the HTTP session leave unchanged -/

theorem gethdr_error (buf : List Char) (bufsiz : Nat) (fp : Stream) (e : Fatal)
    (h : gethdr buf bufsiz fp = Except.error e) : ∃ l, e = Fatal.bad_header_line l := by
  simp only [gethdr, gethdr_scan] at h
  split_ifs at h
  · exact ⟨_, (Except.error.inj h).symm⟩

theorem parse_url_error (url : CStr) (e : Fatal) (h : parse_url url = Except.error e) :
    e = Fatal.not_http_or_ftp url := by
  simp only [parse_url] at h
  split_ifs at h
  cases h
  rfl

theorem close_and_delete_outfile_fields (st : State) :
    (close_and_delete_outfile st).conns = st.conns ∧
    (close_and_delete_outfile st).try_ = st.try_ ∧
    (close_and_delete_outfile st).status = st.status := by
  unfold close_and_delete_outfile
  split <;> exact ⟨rfl, rfl, rfl⟩

theorem drain_headers_frame : ∀ (fuel : Nat) (st : State),
    (final_state (drain_headers fuel st)).conns = st.conns ∧
    (final_state (drain_headers fuel st)).try_ = st.try_ ∧
    fatal_of (drain_headers fuel st) ≠ some Fatal.too_many_redirections ∧
    (∀ st', drain_headers fuel st = Except.ok st' →
      st'.status = st.status ∧ st'.do_continue = st.do_continue ∧ st'.output = st.output ∧
      st'.outfile = st.outfile) := by
  intro fuel
  induction fuel with
  | zero =>
    intro st
    refine ⟨rfl, rfl, by simp [drain_headers, fatal_of], ?_⟩
    intro st' h
    cases h
    exact ⟨rfl, rfl, rfl, rfl⟩
  | succ fuel ih =>
    intro st
    unfold drain_headers
    cases hg : gethdr st.buf BUFSIZ st.sfp with
    | error e =>
      obtain ⟨l, rfl⟩ := gethdr_error _ _ _ _ hg
      refine ⟨rfl, rfl, by simp [error_msg_and_die, fatal_of], ?_⟩
      intro st' h
      cases h
    | ok r =>
      simp only
      by_cases hr : r.ret.isSome = true
      · simp only [hr, if_true]
        have := ih { st with buf := r.buf, sfp := r.fp, n := r.istrunc }
        exact this
      · simp only [hr, if_false, Bool.false_eq_true]
        refine ⟨rfl, rfl, by simp [fatal_of], ?_⟩
        intro st' h
        cases h
        exact ⟨rfl, rfl, rfl, rfl⟩

theorem read_response_succ (env : Env) (fuel : Nat) (st : State) :
    read_response env (fuel + 1) st =
      if !(fgets st.buf BUFSIZ st.sfp).1 then close_delete_and_die Fatal.no_response st
      else if atoi (status_tail (fgets st.buf BUFSIZ st.sfp).2.1) == 0
          || atoi (status_tail (fgets st.buf BUFSIZ st.sfp).2.1) == 100 then
        match drain_headers ((fgets st.buf BUFSIZ st.sfp).2.2.length + 1)
            { st with buf := (fgets st.buf BUFSIZ st.sfp).2.1, sfp := (fgets st.buf BUFSIZ st.sfp).2.2,
                      status := atoi (status_tail (fgets st.buf BUFSIZ st.sfp).2.1) } with
        | Except.error e => Except.error e
        | Except.ok st2 => read_response env fuel st2
      else if atoi (status_tail (fgets st.buf BUFSIZ st.sfp).2.1) == 200 then
        Except.ok { (if st.do_continue != 0 && st.output != Sink.stdout then
            freopen_w { st with buf := (fgets st.buf BUFSIZ st.sfp).2.1,
                                sfp := (fgets st.buf BUFSIZ st.sfp).2.2,
                                status := atoi (status_tail (fgets st.buf BUFSIZ st.sfp).2.1) }
          else { st with buf := (fgets st.buf BUFSIZ st.sfp).2.1,
                         sfp := (fgets st.buf BUFSIZ st.sfp).2.2,
                         status := atoi (status_tail (fgets st.buf BUFSIZ st.sfp).2.1) })
          with do_continue := 0 }
      else if atoi (status_tail (fgets st.buf BUFSIZ st.sfp).2.1) == 300
          || atoi (status_tail (fgets st.buf BUFSIZ st.sfp).2.1) == 301
          || atoi (status_tail (fgets st.buf BUFSIZ st.sfp).2.1) == 302
          || atoi (status_tail (fgets st.buf BUFSIZ st.sfp).2.1) == 303 then
        Except.ok { st with buf := (fgets st.buf BUFSIZ st.sfp).2.1,
                            sfp := (fgets st.buf BUFSIZ st.sfp).2.2,
                            status := atoi (status_tail (fgets st.buf BUFSIZ st.sfp).2.1) }
      else if atoi (status_tail (fgets st.buf BUFSIZ st.sfp).2.1) == 206 && st.do_continue != 0 then
        Except.ok { st with buf := (fgets st.buf BUFSIZ st.sfp).2.1,
                            sfp := (fgets st.buf BUFSIZ st.sfp).2.2,
                            status := atoi (status_tail (fgets st.buf BUFSIZ st.sfp).2.1) }
      else
        close_delete_and_die
          (Fatal.server_error
            (atoi ((chomp (fgets st.buf BUFSIZ st.sfp).2.1).drop
              ((fgets st.buf BUFSIZ st.sfp).2.1.length
                - (status_tail (fgets st.buf BUFSIZ st.sfp).2.1).length)))
            (cstr (chomp (fgets st.buf BUFSIZ st.sfp).2.1)))
          { st with buf := chomp (fgets st.buf BUFSIZ st.sfp).2.1,
                    sfp := (fgets st.buf BUFSIZ st.sfp).2.2,
                    status := atoi (status_tail (fgets st.buf BUFSIZ st.sfp).2.1) } := rfl

theorem read_response_frame (env : Env) : ∀ (fuel : Nat) (st : State),
    (final_state (read_response env fuel st)).conns = st.conns ∧
    (final_state (read_response env fuel st)).try_ = st.try_ ∧
    fatal_of (read_response env fuel st) ≠ some Fatal.too_many_redirections ∧
    (∀ st', read_response env fuel st = Except.ok st' →
      st'.output = st.output ∧
      ((st'.status = 200 ∧ st'.do_continue = 0 ∧
          (st.do_continue ≠ 0 → st.output = Sink.file → st'.outfile = some [])) ∨
       (st'.status ≠ 200 ∧ st'.do_continue = st.do_continue ∧ st'.outfile = st.outfile))) := by
  intro fuel
  induction fuel with
  | zero =>
    intro st
    have := close_and_delete_outfile_fields st
    refine ⟨this.1, this.2.1, by simp [read_response, close_delete_and_die, fatal_of], ?_⟩
    intro st' h
    cases h
  | succ fuel ih =>
    intro st
    rw [read_response_succ]
    generalize hb : (fgets st.buf BUFSIZ st.sfp).2.1 = b
    generalize hs : (fgets st.buf BUFSIZ st.sfp).2.2 = s
    generalize hc : atoi (status_tail b) = c
    split_ifs with h1 h2 h3 h4 h5 h6
    · have := close_and_delete_outfile_fields st
      refine ⟨this.1, this.2.1, by simp [close_delete_and_die, fatal_of], ?_⟩
      intro st' h
      cases h
    · have hd := drain_headers_frame (s.length + 1) { st with buf := b, sfp := s, status := c }
      cases hdr : drain_headers (s.length + 1) { st with buf := b, sfp := s, status := c } with
      | error e =>
        rw [hdr] at hd
        exact ⟨hd.1, hd.2.1, hd.2.2.1, by intro st' h; cases h⟩
      | ok st2 =>
        rw [hdr] at hd
        have h2' := hd.2.2.2 st2 rfl
        have := ih st2
        simp only [final_state] at hd
        refine ⟨by rw [this.1, hd.1], by rw [this.2.1, hd.2.1], this.2.2.1, ?_⟩
        intro st' h
        have := this.2.2.2 st' h
        rw [h2'.2.1, h2'.2.2.1, h2'.2.2.2] at this
        exact this
    · refine ⟨rfl, rfl, by simp [fatal_of], ?_⟩
      intro st' h
      cases h
      have hc200 : c = 200 := by simpa using h3
      exact ⟨rfl, Or.inl ⟨hc200, rfl, fun _ _ => rfl⟩⟩
    · refine ⟨rfl, rfl, by simp [fatal_of], ?_⟩
      intro st' h
      cases h
      have hc200 : c = 200 := by simpa using h3
      refine ⟨rfl, Or.inl ⟨hc200, rfl, ?_⟩⟩
      intro hdc hout
      exfalso
      apply h4
      simp [hdc, hout]
    · refine ⟨rfl, rfl, by simp [fatal_of], ?_⟩
      intro st' h
      cases h
      have hc200 : c ≠ 200 := by simpa using h3
      exact ⟨rfl, Or.inr ⟨hc200, rfl, rfl⟩⟩
    · refine ⟨rfl, rfl, by simp [fatal_of], ?_⟩
      intro st' h
      cases h
      have hc200 : c ≠ 200 := by simpa using h3
      exact ⟨rfl, Or.inr ⟨hc200, rfl, rfl⟩⟩
    · have := close_and_delete_outfile_fields { st with buf := chomp b, sfp := s, status := c }
      refine ⟨this.1, this.2.1, by simp [close_delete_and_die, fatal_of], ?_⟩
      intro st' h
      cases h

theorem handle_header_frame (name value : CStr) (st : State) :
    (final_state (handle_header name value st)).conns = st.conns ∧
    (final_state (handle_header name value st)).try_ = st.try_ ∧
    fatal_of (handle_header name value st) ≠ some Fatal.too_many_redirections ∧
    (∀ st', handle_header name value st = Except.ok st' →
      st'.status = st.status ∧ st'.do_continue = st.do_continue ∧ st'.output = st.output ∧
      st'.outfile = st.outfile ∧ st'.sfp = st.sfp) := by
  have hcd := close_and_delete_outfile_fields st
  by_cases h1 : strcaseeq name "content-length".toList = true <;>
  by_cases h2 : strcaseeq name "transfer-encoding".toList = true <;>
  by_cases h3 : strcaseeq value "chunked".toList = true <;>
  by_cases h4 : strcaseeq name "location".toList = true <;>
  by_cases h5 : (value.head? == some '/') = true <;>
  by_cases h6 : st.proxy = true <;>
  cases hp : parse_url value with
  | error e =>
    have := parse_url_error _ _ hp
    subst this
    simp only [handle_header, hp, h1, h2, h3, h4, h5, h6, close_delete_and_die, error_msg_and_die,
      if_true, if_false, Bool.not_true, Bool.false_eq_true, Bool.not_false]
    first
      | exact ⟨rfl, rfl, by simp [fatal_of], fun st' h => by cases h; exact ⟨rfl, rfl, rfl, rfl, rfl⟩⟩
      | exact ⟨rfl, rfl, by simp [fatal_of], fun st' h => by cases h⟩
      | exact ⟨hcd.1, hcd.2.1, by simp [fatal_of], fun st' h => by cases h⟩
  | ok hi =>
    simp only [handle_header, hp, h1, h2, h3, h4, h5, h6, close_delete_and_die, error_msg_and_die,
      if_true, if_false, Bool.not_true, Bool.false_eq_true, Bool.not_false]
    first
      | exact ⟨rfl, rfl, by simp [fatal_of], fun st' h => by cases h; exact ⟨rfl, rfl, rfl, rfl, rfl⟩⟩
      | exact ⟨rfl, rfl, by simp [fatal_of], fun st' h => by cases h⟩
      | exact ⟨hcd.1, hcd.2.1, by simp [fatal_of], fun st' h => by cases h⟩

theorem read_headers_frame : ∀ (fuel : Nat) (st : State),
    (final_state (read_headers fuel st)).conns = st.conns ∧
    (final_state (read_headers fuel st)).try_ = st.try_ ∧
    fatal_of (read_headers fuel st) ≠ some Fatal.too_many_redirections ∧
    (∀ st', read_headers fuel st = Except.ok st' →
      st'.status = st.status ∧ st'.do_continue = st.do_continue ∧ st'.output = st.output ∧
      st'.outfile = st.outfile) := by
  intro fuel
  induction fuel with
  | zero =>
    intro st
    refine ⟨rfl, rfl, by simp [read_headers, fatal_of], ?_⟩
    intro st' h
    cases h
    exact ⟨rfl, rfl, rfl, rfl⟩
  | succ fuel ih =>
    intro st
    unfold read_headers
    cases hg : gethdr st.buf BUFSIZ st.sfp with
    | error e =>
      obtain ⟨l, rfl⟩ := gethdr_error _ _ _ _ hg
      refine ⟨rfl, rfl, by simp [error_msg_and_die, fatal_of], ?_⟩
      intro st' h
      cases h
    | ok r =>
      simp only
      cases hr : r.ret with
      | none =>
        simp only
        refine ⟨rfl, rfl, by simp [fatal_of], ?_⟩
        intro st' h
        cases h
        exact ⟨rfl, rfl, rfl, rfl⟩
      | some value =>
        simp only
        have hh := handle_header_frame (cstr r.buf) value
          { st with buf := r.buf, sfp := r.fp, n := r.istrunc }
        cases hhh : handle_header (cstr r.buf) value
            { st with buf := r.buf, sfp := r.fp, n := r.istrunc } with
        | error e =>
          rw [hhh] at hh
          exact ⟨hh.1, hh.2.1, hh.2.2.1, fun st' h => by cases h⟩
        | ok st2 =>
          rw [hhh] at hh
          simp only
          have h2 := hh.2.2.2 st2 rfl
          have := ih st2
          simp only [final_state] at hh
          refine ⟨by rw [this.1, hh.1], by rw [this.2.1, hh.2.1], this.2.2.1, ?_⟩
          intro st' h
          have := this.2.2.2 st' h
          rw [h2.1, h2.2.1, h2.2.2.1, h2.2.2.2.1] at this
          exact this

theorem base64enc_loop_error (len : Int) : ∀ (n : Nat) (p : CStr) (buf : List Char) (s : Nat)
    (e : Fatal), p.length ≤ n → base64enc_loop len p buf s = Except.error e →
    e = Fatal.buffer_overflow := by
  intro n
  induction n using Nat.strong_induction_on with
  | _ n ih =>
    intro p buf s e hn h
    match p, h with
    | [], h => simp [base64enc_loop] at h
    | [c0], h =>
      simp only [base64enc_loop] at h
      split_ifs at h
      exact (Except.error.inj h).symm
    | [c0, c1], h =>
      simp only [base64enc_loop] at h
      split_ifs at h
      exact (Except.error.inj h).symm
    | c0 :: c1 :: c2 :: p, h =>
      simp only [base64enc_loop] at h
      split_ifs at h
      · exact (Except.error.inj h).symm
      · exact ih p.length (by simp at hn; omega) p _ _ e (le_refl _) h

theorem send_request_error (st : State) (e : Fatal) (h : (send_request st).2.2 = some e) :
    e = Fatal.buffer_overflow := by
  have hb : ∀ u b e', base64enc u b BUFSIZ = Except.error e' → e' = Fatal.buffer_overflow :=
    fun u b e' h => base64enc_loop_error _ u.length u b 0 e' (le_refl _) h
  unfold send_request at h
  cases hu : st.target.user with
  | none =>
    simp only [hu] at h
    cases hpu : (if st.proxy = true then st.server.user else none) with
    | none => simp [hpu] at h
    | some u =>
      simp only [hpu] at h
      cases hb2 : base64enc u st.buf BUFSIZ with
      | error e' =>
        simp [hb2] at h
        rw [← h]; exact hb _ _ _ hb2
      | ok b => simp [hb2] at h
  | some u1 =>
    simp only [hu] at h
    cases hb1 : base64enc u1 st.buf BUFSIZ with
    | error e' =>
      simp [hb1] at h
      rw [← h]; exact hb _ _ _ hb1
    | ok b1 =>
      simp only [hb1] at h
      cases hpu : (if st.proxy = true then st.server.user else none) with
      | none => simp [hpu] at h
      | some u =>
        simp only [hpu] at h
        cases hb2 : base64enc u b1 BUFSIZ with
        | error e' =>
          simp [hb2] at h
          rw [← h]; exact hb _ _ _ hb2
        | ok b => simp [hb2] at h

theorem read_reply_frame (env : Env) (st : State) :
    (final_state (read_reply env st)).conns = st.conns ∧
    (final_state (read_reply env st)).try_ = st.try_ ∧
    fatal_of (read_reply env st) ≠ some Fatal.too_many_redirections ∧
    (∀ st', read_reply env st = Except.ok st' →
      st'.output = st.output ∧
      ((st'.status = 200 ∧ st'.do_continue = 0 ∧
          (st.do_continue ≠ 0 → st.output = Sink.file → st'.outfile = some [])) ∨
       (st'.status ≠ 200 ∧ st'.do_continue = st.do_continue ∧ st'.outfile = st.outfile))) := by
  unfold read_reply
  have hr := read_response_frame env (st.sfp.length + 1) st
  cases hrr : read_response env (st.sfp.length + 1) st with
  | error e =>
    rw [hrr] at hr
    exact ⟨hr.1, hr.2.1, hr.2.2.1, fun st' h => by cases h⟩
  | ok st4 =>
    rw [hrr] at hr
    simp only [final_state] at hr
    simp only
    have h4 := hr.2.2.2 st4 rfl
    have hh := read_headers_frame (st4.sfp.length + 1) st4
    refine ⟨by rw [hh.1, hr.1], by rw [hh.2.1, hr.2.1], hh.2.2.1, ?_⟩
    intro st' h
    have h5 := hh.2.2.2 st' h
    refine ⟨by rw [h5.2.2.1, h4.1], ?_⟩
    rw [h5.1, h5.2.1, h5.2.2.2]
    exact h4.2

theorem http_exchange_frame (env : Env) (st : State) :
    (final_state (http_exchange env st)).try_ = st.try_ ∧
    fatal_of (http_exchange env st) ≠ some Fatal.too_many_redirections ∧
    (final_state (http_exchange env st)).conns.length ≤ st.conns.length + 1 ∧
    (∀ st', http_exchange env st = Except.ok st' →
      st'.conns.length = st.conns.length + 1 ∧ st'.output = st.output ∧
      ((st'.status = 200 ∧ st'.do_continue = 0 ∧
          (st.do_continue ≠ 0 → st.output = Sink.file → st'.outfile = some [])) ∨
       (st'.status ≠ 200 ∧ st'.do_continue = st.do_continue ∧ st'.outfile = st.outfile))) := by
  unfold http_exchange
  split_ifs with hconn
  · exact ⟨rfl, by simp [fatal_of, error_msg_and_die], by simp [final_state, error_msg_and_die],
      fun st' h => by cases h⟩
  · simp only
    cases hrq : (send_request st).2.2 with
    | some e =>
      have := send_request_error st e hrq
      subst this
      exact ⟨rfl, by simp [fatal_of, error_msg_and_die], by simp [final_state, error_msg_and_die],
        fun st' h => by cases h⟩
    | none =>
      simp only
      have hr := read_reply_frame env
        { st with buf := (send_request st).2.1,
                  conns := st.conns ++ [Conn.mk st.server.host st.server.port (send_request st).1],
                  sfp := env.reply st.conns.length st.server.host st.server.port (send_request st).1 }
      refine ⟨hr.2.1, hr.2.2.1, by rw [hr.1]; simp, ?_⟩
      intro st' h
      have h5 := hr.2.2.2 st' h
      have hc' := hr.1
      rw [h] at hc'
      simp only [final_state] at hc'
      exact ⟨by rw [hc']; simp, h5.1, h5.2⟩

theorem http_attempt_eq (env : Env) (st : State) :
    (st.try_ = 1 → http_attempt env st =
      close_delete_and_die Fatal.too_many_redirections { st with try_ := st.try_ - 1 }) ∧
    (st.try_ ≠ 1 → http_attempt env st = http_exchange env { st with try_ := st.try_ - 1 }) := by
  constructor
  · intro h
    unfold http_attempt
    simp [h]
  · intro h
    unfold http_attempt
    have : ¬ (st.try_ - 1 = 0) := by omega
    simp [this]

/-- The redirect loop: how far `try` and the number of connections can get. -/
theorem http_loop_bound (env : Env) : ∀ (fuel : Nat) (st : State),
    1 ≤ st.try_ → st.try_ ≤ (fuel : Int) →
    (fatal_of (http_loop env fuel st) = some Fatal.too_many_redirections →
      (final_state (http_loop env fuel st)).try_ = 0 ∧
      ((final_state (http_loop env fuel st)).conns.length : Int) = st.conns.length + st.try_ - 1) ∧
    (fatal_of (http_loop env fuel st) ≠ some Fatal.too_many_redirections →
      1 ≤ (final_state (http_loop env fuel st)).try_ ∧
      (final_state (http_loop env fuel st)).try_ < st.try_ ∧
      ((final_state (http_loop env fuel st)).conns.length : Int)
        + (final_state (http_loop env fuel st)).try_ ≤ st.conns.length + st.try_) := by
  intro fuel
  induction fuel with
  | zero => intro st h1 h2; simp at h2; omega
  | succ fuel ih =>
    intro st h1 h2
    unfold http_loop
    by_cases ht : st.try_ = 1
    · rw [(http_attempt_eq env st).1 ht]
      have := close_and_delete_outfile_fields { st with try_ := st.try_ - 1 }
      simp only [close_delete_and_die, final_state, fatal_of]
      refine ⟨fun _ => ⟨by rw [this.2.1]; simp [ht], by rw [this.1]; simp [ht]⟩, fun h => absurd rfl h⟩
    · rw [(http_attempt_eq env st).2 ht]
      have hx := http_exchange_frame env { st with try_ := st.try_ - 1 }
      cases hxr : http_exchange env { st with try_ := st.try_ - 1 } with
      | error e =>
        rw [hxr] at hx
        simp only [final_state, fatal_of] at hx ⊢
        refine ⟨fun h => absurd h hx.2.1, fun _ => ⟨by rw [hx.1]; omega, by rw [hx.1]; omega, ?_⟩⟩
        rw [hx.1]
        have := hx.2.2.1
        push_cast
        omega
      | ok st1 =>
        rw [hxr] at hx
        simp only [final_state, fatal_of] at hx
        have hc := (hx.2.2.2 st1 rfl).1
        simp only
        split_ifs with hs
        · have := ih st1 (by rw [hx.1]; omega) (by rw [hx.1]; push_cast at h2; omega)
          rw [hx.1, hc] at this
          refine ⟨fun h => ?_, fun h => ?_⟩
          · have := this.1 h
            refine ⟨this.1, ?_⟩
            rw [this.2]; push_cast; ring
          · have := this.2 h
            refine ⟨this.1, by omega, ?_⟩
            have := this.2.2
            push_cast at this
            omega
        · refine ⟨fun h => absurd h (by simp [fatal_of]), fun _ => ?_⟩
          simp only [final_state]
          refine ⟨by rw [hx.1]; omega, by rw [hx.1]; omega, ?_⟩
          rw [hx.1, hc]
          push_cast
          omega

/-- A server that answers 302 to each of the `k` requests the budget allows
makes the loop end with "too many redirections". -/
theorem http_loop_replies_302 (env : Env) : ∀ (k : Nat) (st : State) (fuel : Nat),
    replies_302 env k st = true → st.try_ = (k : Int) + 1 → k + 1 ≤ fuel →
    fatal_of (http_loop env fuel st) = some Fatal.too_many_redirections := by
  intro k
  induction k with
  | zero =>
    intro st fuel _ ht hf
    obtain ⟨fuel, rfl⟩ : ∃ f, fuel = f + 1 := ⟨fuel - 1, by omega⟩
    unfold http_loop
    rw [(http_attempt_eq env st).1 (by simpa using ht)]
    rfl
  | succ k ih =>
    intro st fuel hr ht hf
    obtain ⟨fuel, rfl⟩ : ∃ f, fuel = f + 1 := ⟨fuel - 1, by omega⟩
    unfold http_loop
    rw [(http_attempt_eq env st).2 (by push_cast at ht; omega)]
    unfold replies_302 at hr
    have hx := http_exchange_frame env { st with try_ := st.try_ - 1 }
    cases hxr : http_exchange env { st with try_ := st.try_ - 1 } with
    | error e => rw [hxr] at hr; simp at hr
    | ok st1 =>
      rw [hxr] at hr hx
      simp only [Bool.and_eq_true, beq_iff_eq] at hr
      simp only [final_state] at hx
      have hs : st1.status ≥ 300 := by rw [hr.1]; decide
      simp only [hs, if_true]
      exact ih st1 fuel hr.2 (by rw [hx.1]; push_cast at ht ⊢; omega) (by omega)

/-- A chain of `k` redirect responses and a response 200 is followed to its
end when `try` allows `k + 1` exchanges. -/
theorem http_loop_redirect_chain (env : Env) : ∀ (k : Nat) (st : State) (fuel : Nat),
    redirect_chain env k st = true → (k : Int) + 2 ≤ st.try_ → k + 1 ≤ fuel →
    ∃ st', http_loop env fuel st = Except.ok st' ∧ st'.status = 200 ∧
      st'.conns.length = st.conns.length + k + 1 ∧ st'.dfp = st'.sfp := by
  intro k
  induction k with
  | zero =>
    intro st fuel hr ht hf
    obtain ⟨fuel, rfl⟩ : ∃ f, fuel = f + 1 := ⟨fuel - 1, by omega⟩
    unfold http_loop
    rw [(http_attempt_eq env st).2 (by push_cast at ht; omega)]
    unfold redirect_chain at hr
    have hx := http_exchange_frame env { st with try_ := st.try_ - 1 }
    cases hxr : http_exchange env { st with try_ := st.try_ - 1 } with
    | error e => rw [hxr] at hr; simp at hr
    | ok st1 =>
      rw [hxr] at hr hx
      simp only [beq_iff_eq] at hr
      have hs : ¬ st1.status ≥ 300 := by rw [hr]; decide
      simp only [hs, if_false]
      exact ⟨_, rfl, hr, (hx.2.2.2 st1 rfl).1, rfl⟩
  | succ k ih =>
    intro st fuel hr ht hf
    obtain ⟨fuel, rfl⟩ : ∃ f, fuel = f + 1 := ⟨fuel - 1, by omega⟩
    unfold http_loop
    rw [(http_attempt_eq env st).2 (by push_cast at ht; omega)]
    unfold redirect_chain at hr
    have hx := http_exchange_frame env { st with try_ := st.try_ - 1 }
    cases hxr : http_exchange env { st with try_ := st.try_ - 1 } with
    | error e => rw [hxr] at hr; simp at hr
    | ok st1 =>
      rw [hxr] at hr hx
      simp only [Bool.and_eq_true, decide_eq_true_eq] at hr
      simp only [final_state] at hx
      have hs : st1.status ≥ 300 := hr.1.1
      simp only [hs, if_true]
      obtain ⟨st', h1, h2, h3, h4⟩ := ih st1 fuel hr.2
        (by rw [hx.1]; push_cast at ht ⊢; omega) (by omega)
      refine ⟨st', h1, h2, ?_, h4⟩
      rw [h3, (hx.2.2.2 st1 rfl).1]
      simp
      omega

/-! ## The status line -/

theorem strtol_digits_cut (base : Nat) (r : List Char) : ∀ (l : List Char) (acc : Nat),
    strtol_digits base (l ++ NUL :: r) acc = strtol_digits base (l ++ '\n' :: r) acc := by
  intro l
  induction l with
  | nil =>
    intro acc
    have h1 : digitVal NUL = none := by decide
    have h2 : digitVal '\n' = none := by decide
    simp [strtol_digits, h1, h2]
  | cons c l ih =>
    intro acc
    simp only [List.cons_append, strtol_digits]
    cases digitVal c with
    | none => rfl
    | some d =>
      simp only
      split_ifs
      · exact ih _
      · rfl

theorem strtol_ten (s : List Char) :
    strtol s 10 =
      if (s.dropWhile isspace).head? == some '-' then
        max (-((strtol_digits 10 (s.dropWhile isspace).tail 0 : Nat) : Int)) LONG_MIN
      else if (s.dropWhile isspace).head? == some '+' then
        min ((strtol_digits 10 (s.dropWhile isspace).tail 0 : Nat) : Int) LONG_MAX
      else min ((strtol_digits 10 (s.dropWhile isspace) 0 : Nat) : Int) LONG_MAX := by
  have e3 : ∀ l : List Char, (match l with
        | z :: x :: r => if (10 : Nat) == 16 && z == '0' && (x == 'x' || x == 'X') then r else l
        | _ => l) = l := by
    intro l
    split <;> simp
  unfold strtol
  simp only [e3]
  by_cases h1 : ((s.dropWhile isspace).head? == some '-') = true
  · simp [h1]
  · by_cases h2 : ((s.dropWhile isspace).head? == some '+') = true
    · simp [h1, h2]
    · simp [h1, h2]

/-- Cutting a newline that follows the first byte of a string that does not
start with white space does not change what `atoi` reads. -/
theorem atoi_cut (c : Char) (a r : List Char) (hc : isspace c = false) :
    atoi (c :: a ++ NUL :: r) = atoi (c :: a ++ '\n' :: r) := by
  unfold atoi
  rw [strtol_ten, strtol_ten]
  have e1 : ∀ t : List Char, (c :: t).dropWhile isspace = c :: t := by
    intro t; simp [List.dropWhile, hc]
  simp only [List.cons_append, e1, List.head?_cons, List.tail_cons]
  rw [strtol_digits_cut 10 r a 0]
  have := strtol_digits_cut 10 r (c :: a) 0
  simp only [List.cons_append] at this
  rw [this]

theorem take_drop_last (t d : List Char) (h : t.getLast? = some '\n') :
    t ++ d = t.dropLast ++ '\n' :: d ∧
    (t ++ d).take (t.length - 1) = t.dropLast ∧ (t ++ d).drop t.length = d := by
  have hlast : t.dropLast ++ ['\n'] = t := List.dropLast_append_getLast? '\n' (by simpa using h)
  have hlen : t.length = t.dropLast.length + 1 := by
    have := congrArg List.length hlast
    rw [List.length_append, List.length_singleton] at this
    omega
  refine ⟨?_, ?_, ?_⟩
  · conv_lhs => rw [← hlast]
    simp
  · rw [List.take_append_of_le_length (by omega)]
    rw [hlen, Nat.add_sub_cancel]
    conv_lhs => rw [← hlast]
    simp
  · simp

theorem chomp_form (buf : List Char) (h : (cstr buf).getLast? = some '\n') :
    ∃ x y, buf = x ++ '\n' :: y ∧ chomp buf = x ++ NUL :: y := by
  have hsplit : cstr buf ++ buf.dropWhile (fun c => c != NUL) = buf := by
    unfold cstr; exact List.takeWhile_append_dropWhile _ _
  have ht := take_drop_last (cstr buf) (buf.dropWhile (fun c => c != NUL)) h
  refine ⟨(cstr buf).dropLast, buf.dropWhile (fun c => c != NUL), ?_, ?_⟩
  · rw [← ht.1, hsplit]
  · unfold chomp
    have hb : ((cstr buf).getLast? == some '\n') = true := by simp [h]
    simp only [hb, if_true]
    have e1 : buf.take ((cstr buf).length - 1) = (cstr buf).dropLast := by
      rw [← ht.2.1, hsplit]
    have e2 : buf.drop (cstr buf).length = buf.dropWhile (fun c => c != NUL) := by
      have := ht.2.2
      rw [hsplit] at this
      exact this
    rw [e1, e2]

theorem drop_dropWhile (p : Char → Bool) (l : List Char) :
    l.drop (l.length - (l.dropWhile p).length) = l.dropWhile p := by
  have hsplit := List.takeWhile_append_dropWhile p l
  have hlen : l.length = (l.takeWhile p).length + (l.dropWhile p).length := by
    have := congrArg List.length hsplit
    rw [List.length_append] at this
    omega
  have e : l.length - (l.dropWhile p).length = (l.takeWhile p).length := by omega
  rw [e]
  calc l.drop (l.takeWhile p).length
      = (l.takeWhile p ++ l.dropWhile p).drop (l.takeWhile p).length := by rw [hsplit]
    _ = l.dropWhile p := List.drop_left _ _

theorem status_tail_suffix (buf : List Char) :
    buf.drop (buf.length - (status_tail buf).length) = status_tail buf := by
  unfold status_tail
  have ha := drop_dropWhile (fun c => c != NUL && !isspace c) buf
  have hb := drop_dropWhile isspace (buf.dropWhile (fun c => c != NUL && !isspace c))
  have l1 : (buf.dropWhile (fun c => c != NUL && !isspace c)).length ≤ buf.length := by
    have := congrArg List.length (List.takeWhile_append_dropWhile (fun c => c != NUL && !isspace c) buf)
    rw [List.length_append] at this
    omega
  have l2 : ((buf.dropWhile (fun c => c != NUL && !isspace c)).dropWhile isspace).length
      ≤ (buf.dropWhile (fun c => c != NUL && !isspace c)).length := by
    have := congrArg List.length (List.takeWhile_append_dropWhile isspace
      (buf.dropWhile (fun c => c != NUL && !isspace c)))
    rw [List.length_append] at this
    omega
  generalize buf.dropWhile (fun c => c != NUL && !isspace c) = r1 at ha hb l1 l2
  generalize r1.dropWhile isspace = s at hb l2
  have e : buf.length - s.length = (buf.length - r1.length) + (r1.length - s.length) := by
    omega
  rw [e, ← List.drop_drop, ha, hb]

theorem status_tail_head (buf : List Char) (c : Char) (t : List Char)
    (h : status_tail buf = c :: t) : isspace c = false := by
  unfold status_tail at h
  have := List.head_dropWhile_not isspace
    ((buf.dropWhile (fun c => c != NUL && !isspace c))) (by rw [h]; simp)
  simp only [h, List.head_cons] at this
  simpa using this

/-- The number `atoi(s)` printed after `chomp(buf)` is the status of line 261. -/
theorem atoi_chomp (buf : List Char) :
    atoi ((chomp buf).drop (buf.length - (status_tail buf).length)) = atoi (status_tail buf) := by
  by_cases h : (cstr buf).getLast? = some '\n'
  · obtain ⟨x, y, hb, hc⟩ := chomp_form buf h
    have hs := status_tail_suffix buf
    generalize buf.length - (status_tail buf).length = k at hs ⊢
    rw [hc]
    have hs' : (x ++ '\n' :: y).drop k = status_tail buf := by rw [← hb]; exact hs
    by_cases hk : k ≤ x.length
    · rw [List.drop_append_of_le_length hk] at hs' ⊢
      rw [← hs']
      cases hxa : x.drop k with
      | nil =>
        rw [hxa] at hs'
        have := status_tail_head buf '\n' y (by rw [← hs']; simp)
        simp [isspace] at this
      | cons c a =>
        rw [hxa] at hs'
        have := status_tail_head buf c (a ++ '\n' :: y) (by rw [← hs']; simp)
        exact atoi_cut c a y this
    · have e1 : ∀ z : Char, (x ++ z :: y).drop k = y.drop (k - x.length - 1) := by
        intro z
        rw [List.drop_append_eq_append_drop]
        have : x.drop k = [] := List.drop_eq_nil_of_le (by omega)
        rw [this, List.nil_append]
        obtain ⟨j, hj⟩ : ∃ j, k - x.length = j + 1 := ⟨k - x.length - 1, by omega⟩
        rw [hj]; simp
      rw [e1, ← hs', e1]
  · have : chomp buf = buf := by
      unfold chomp
      have hb : ((cstr buf).getLast? == some '\n') = false := by simp [h]
      simp [hb]
    rw [this, status_tail_suffix]

/-! ## Chunked decoding (claim C1) -/

/-- Chunked decoding of a body with at least one chunk: for every non-empty
list of non-empty chunks whose sizes fit a `long`, the retrieval loop writes
exactly the concatenation of the chunk data and stops after the zero-size
line, leaving the final `\r\n` and everything after it unread. -/
theorem retrieve_chunked_decodes (chunks : List (List Char)) (rest : List Char) (st : State)
    (hne : chunks ≠ []) (hall : ∀ x ∈ chunks, x ≠ [] ∧ x.length ≤ 2147483647)
    (hc : st.chunked = true) (hg : st.got_clen = true)
    (hd : st.dfp = chunked_body chunks ++ rest) :
    ∃ st', retrieve chunks.length st = some st' ∧ st'.dfp = '\r' :: '\n' :: rest ∧
      written st' = written st ++ chunks.flatten ∧ st'.chunked = false := by
  cases chunks with
  | nil => exact absurd rfl hne
  | cons c cs =>
    have hcl := hall c (by simp)
    have hd' : st.dfp = (hex c.length ++ ['\r']) ++ '\n' ::
        (c ++ '\r' :: '\n' :: (chunk_frames cs ++ '\r' :: '\n' :: rest)) := by
      rw [hd, chunked_body, chunk_frames_cons]; simp
    have h1 := fgets_dfp_line st (hex c.length ++ ['\r']) _
      (by
        intro x hx
        rcases List.mem_append.mp hx with h | h
        · exact hex_no_newline _ x h
        · simp at h; subst h; decide)
      (by have := hex_length c.length hcl.2; simp [BUFSIZ]; omega) hd'
    have hbuf : strtol (fgets_dfp st).buf 16 = (c.length : Int) := by
      rw [h1.2.1]
      unfold store
      have : hex c.length ++ ['\r'] ++ ['\n'] ++ [NUL] ++
          List.drop (hex c.length ++ ['\r'] ++ ['\n'] ++ [NUL]).length st.buf
          = hex c.length ++ '\r' :: ('\n' :: NUL ::
            List.drop (hex c.length ++ ['\r'] ++ ['\n'] ++ [NUL]).length st.buf) := by
        simp
      rw [this, strtol_hex_cr]
      unfold LONG_MAX
      omega
    unfold retrieve
    simp only [hc, if_true, hbuf]
    obtain ⟨st', e1, e2, e3, e4⟩ := retrieve_loop_chunks cs c ('\r' :: '\n' :: rest)
      { fgets_dfp st with filesize := (c.length : Int) } (c :: cs).length hall
      (by show (fgets_dfp st).chunked = true; rw [h1.2.2.1, hc])
      (by show (fgets_dfp st).got_clen = true; rw [h1.2.2.2.1, hg])
      rfl
      (by show (fgets_dfp st).dfp = _; rw [h1.1])
      (by simp)
    refine ⟨st', e1, e2, ?_, e4⟩
    rw [e3]
    have : written { fgets_dfp st with filesize := (c.length : Int) } = written (fgets_dfp st) := rfl
    rw [this, h1.2.2.2.2.2.1]
    simp

/-- The example of the specification: the chunks `Wiki` and `pedia` decode
to the 9 bytes `Wikipedia`, and the final `\r\n` stays unread. -/
theorem retrieve_wikipedia :
    chunked_body ["Wiki".toList, "pedia".toList] = "4\r\nWiki\r\n5\r\npedia\r\n0\r\n\r\n".toList ∧
    (retrieve 2 (chunked_start (chunked_body ["Wiki".toList, "pedia".toList]))).map
      (fun s => (written s, s.dfp, s.chunked)) = some ("Wikipedia".toList, "\r\n".toList, false) := by
  decide

/-- C1, at the body without chunks, `0\r\n\r\n`: the first size line is not
tested for zero, so the loop reads the `\r\n` after the zero-size line and
then a further line (here it meets end-of-file); when a chunk frame follows
on the stream, its data is delivered as part of the body. -/
theorem retrieve_no_chunks_reads_on :
    chunked_body [] = "0\r\n\r\n".toList ∧
    (retrieve 1 (chunked_start (chunked_body []))).map (fun s => (written s, s.dfp))
      = some ([], []) ∧
    (retrieve 2 (chunked_start (chunked_body [] ++ "3\r\nabc\r\n0\r\n\r\n".toList))).map
      (fun s => (written s, s.dfp)) = some ("abc".toList, "\r\n".toList) := by
  decide

theorem retrieve_chunked_decodes_witness :
    ∃ st', retrieve 2 (chunked_start (chunked_body ["Wiki".toList, "pedia".toList] ++ "tail".toList))
        = some st' ∧ st'.dfp = '\r' :: '\n' :: "tail".toList ∧
      written st' = written (chunked_start (chunked_body ["Wiki".toList, "pedia".toList] ++ "tail".toList))
        ++ ["Wiki".toList, "pedia".toList].flatten ∧ st'.chunked = false :=
  retrieve_chunked_decodes ["Wiki".toList, "pedia".toList] "tail".toList
    (chunked_start (chunked_body ["Wiki".toList, "pedia".toList] ++ "tail".toList))
    (by decide) (by decide) rfl rfl rfl

/-! ## `parse_url` on the text of an address (claim C2) -/

theorem parse_url_http (rest : List Char) :
    parse_url ("http://".toList ++ rest) =
      Except.ok {
        host := match strchr_split ':' (match strrchr_split '@' (match strchr_split '/' rest with
            | some r => r.1 | none => rest) with
            | some r => r.2 | none => (match strchr_split '/' rest with | some r => r.1 | none => rest)) with
          | some r => r.1
          | none => (match strrchr_split '@' (match strchr_split '/' rest with
            | some r => r.1 | none => rest) with
            | some r => r.2 | none => (match strchr_split '/' rest with | some r => r.1 | none => rest)),
        port := match strchr_split ':' (match strrchr_split '@' (match strchr_split '/' rest with
            | some r => r.1 | none => rest) with
            | some r => r.2 | none => (match strchr_split '/' rest with | some r => r.1 | none => rest)) with
          | some r => atoi r.2
          | none => 80,
        path := match strchr_split '/' rest with | some r => r.2 | none => [],
        is_ftp := false,
        user := (strrchr_split '@' (match strchr_split '/' rest with
            | some r => r.1 | none => rest)).map (fun r => r.1) } := by
  have e1 : (("http://".toList ++ rest).take 7 == "http://".toList) = true := rfl
  have e2 : ("http://".toList ++ rest).drop 7 = rest := rfl
  unfold parse_url
  simp only [e1, if_true, e2]

theorem parse_url_ftp (rest : List Char) :
    parse_url ("ftp://".toList ++ rest) =
      Except.ok {
        host := match strchr_split ':' (match strrchr_split '@' (match strchr_split '/' rest with
            | some r => r.1 | none => rest) with
            | some r => r.2 | none => (match strchr_split '/' rest with | some r => r.1 | none => rest)) with
          | some r => r.1
          | none => (match strrchr_split '@' (match strchr_split '/' rest with
            | some r => r.1 | none => rest) with
            | some r => r.2 | none => (match strchr_split '/' rest with | some r => r.1 | none => rest)),
        port := match strchr_split ':' (match strrchr_split '@' (match strchr_split '/' rest with
            | some r => r.1 | none => rest) with
            | some r => r.2 | none => (match strchr_split '/' rest with | some r => r.1 | none => rest)) with
          | some r => atoi r.2
          | none => 21,
        path := match strchr_split '/' rest with | some r => r.2 | none => [],
        is_ftp := true,
        user := (strrchr_split '@' (match strchr_split '/' rest with
            | some r => r.1 | none => rest)).map (fun r => r.1) } := by
  have e0 : (("ftp://".toList ++ rest).take 7 == "http://".toList) = false := rfl
  have e1 : (("ftp://".toList ++ rest).take 6 == "ftp://".toList) = true := rfl
  have e2 : ("ftp://".toList ++ rest).drop 6 = rest := rfl
  unfold parse_url
  simp only [e0, e1, if_true, e2, Bool.false_eq_true, if_false]

theorem atoi_dec_port (p : Nat) (hp : p ≤ 2147483647) : atoi (dec p) = (p : Int) := by
  have := atoi_dec p [] (fun a => rfl)
  rw [List.append_nil] at this
  rw [this]
  unfold LONG_MAX
  omega

theorem port_part_no_char (port : Option Nat) (c : Char) (h1 : c ≠ ':')
    (h2 : ∀ d, d < 10 → digit_char d ≠ c) : ∀ x ∈ port_part port, x ≠ c := by
  intro x hx
  cases port with
  | none => simp [port_part] at hx
  | some p =>
    simp [port_part] at hx
    rcases hx with h | h
    · subst h; exact fun e => h1 e.symm
    · exact dec_no_char p c h2 x h

/-- The authority `[cred@]host[:port]` splits at its last `@` and the first
`:` after it. -/
theorem authority_splits (cred : Option (CStr × Option CStr)) (host : CStr) (port : Option Nat)
    (hh : ∀ x ∈ host, x ≠ '/' ∧ x ≠ '@' ∧ x ≠ ':') :
    strrchr_split '@' (cred_part cred ++ (host ++ port_part port))
      = cred.map (fun c => (cred_text c, host ++ port_part port))
    ∧ strchr_split ':' (host ++ port_part port) = port.map (fun p => (host, dec p)) := by
  have hhp : ∀ x ∈ host ++ port_part port, x ≠ '@' := by
    intro x hx
    rcases List.mem_append.mp hx with h | h
    · exact (hh x h).2.1
    · exact port_part_no_char port '@' (by decide) (by decide) x h
  constructor
  · cases cred with
    | none => simpa [cred_part] using strrchr_split_none '@' _ hhp
    | some c =>
      have := strrchr_split_append '@' (cred_text c) _ hhp
      simpa [cred_part] using this
  · cases port with
    | none => simpa [port_part] using strchr_split_none ':' host (fun x hx => (hh x hx).2.2)
    | some p =>
      simpa [port_part] using strchr_split_append ':' host (dec p) (fun x hx => (hh x hx).2.2)

theorem authority_no_slash (cred : Option (CStr × Option CStr)) (host : CStr) (port : Option Nat)
    (hh : ∀ x ∈ host, x ≠ '/' ∧ x ≠ '@' ∧ x ≠ ':')
    (hc : ∀ c, cred = some c → (∀ x ∈ c.1, x ≠ '/' ∧ x ≠ '@' ∧ x ≠ ':') ∧
      (∀ q, c.2 = some q → ∀ x ∈ q, x ≠ '/' ∧ x ≠ '@')) :
    ∀ x ∈ cred_part cred ++ (host ++ port_part port), x ≠ '/' := by
  intro x hx
  rcases List.mem_append.mp hx with h | h
  · cases cred with
    | none => simp [cred_part] at h
    | some c =>
      have hcc := hc c rfl
      simp only [cred_part, cred_text, List.mem_append, List.mem_singleton] at h
      rcases h with (h | h) | h
      · exact (hcc.1 x h).1
      · cases hq : c.2 with
        | none => simp [hq] at h
        | some q =>
          simp [hq] at h
          rcases h with h | h
          · subst h; decide
          · exact (hcc.2 q hq x h).1
      · subst h; decide
  · rcases List.mem_append.mp h with h | h
    · exact (hh x h).1
    · exact port_part_no_char port '/' (by decide) (by decide) x h

/-- C2, amended: every address `scheme://[user[:password]@]host[:port]/path`
with scheme http or ftp, a host free of `/`, `@` and `:`, a decimal port of
at most 2147483647, a user free of `/`, `@` and `:` and a password free of
`/` and `@` is parsed by `parse_url` to exactly its scheme tag, host, port
(the given one, else 80 for http and 21 for ftp) and path without the
leading slash, and the credential split of the FTP session recovers the user
and the password. -/
theorem parse_url_recovers (is_ftp : Bool) (cred : Option (CStr × Option CStr)) (host : CStr)
    (port : Option Nat) (path : CStr)
    (hh : ∀ x ∈ host, x ≠ '/' ∧ x ≠ '@' ∧ x ≠ ':')
    (hp : ∀ p, port = some p → p ≤ 2147483647)
    (hc : ∀ c, cred = some c → (∀ x ∈ c.1, x ≠ '/' ∧ x ≠ '@' ∧ x ≠ ':') ∧
      (∀ q, c.2 = some q → ∀ x ∈ q, x ≠ '/' ∧ x ≠ '@')) :
    parse_url (url_text is_ftp cred host port path) =
      Except.ok { host := host, port := port_of is_ftp port, path := path, is_ftp := is_ftp,
                  user := cred.map cred_text }
    ∧ ∀ c, cred = some c → split_user (cred_text c) = c := by
  constructor
  · have hs := authority_splits cred host port hh
    have hns := authority_no_slash cred host port hh hc
    have h1 := strchr_split_append '/' _ path hns
    unfold url_text
    cases is_ftp
    · simp only [Bool.false_eq_true, if_false]
      rw [parse_url_http, h1]
      simp only [hs.1]
      cases cred <;> cases hport : port <;>
        simp [hport, cred_part, port_part, port_of,
          strchr_split_none ':' host (fun x hx => (hh x hx).2.2),
          strchr_split_append ':' host _ (fun x hx => (hh x hx).2.2)] <;>
        exact atoi_dec_port _ (hp _ hport)
    · simp only [if_true]
      rw [parse_url_ftp, h1]
      simp only [hs.1]
      cases cred <;> cases hport : port <;>
        simp [hport, cred_part, port_part, port_of,
          strchr_split_none ':' host (fun x hx => (hh x hx).2.2),
          strchr_split_append ':' host _ (fun x hx => (hh x hx).2.2)] <;>
        exact atoi_dec_port _ (hp _ hport)
  · intro c hcc
    have := hc c hcc
    obtain ⟨u, pw⟩ := c
    unfold split_user cred_text
    cases pw with
    | none =>
      simp [strchr_split_none ':' u (fun x hx => (this.1 x hx).2.2)]
    | some q =>
      simp [strchr_split_append ':' u q (fun x hx => (this.1 x hx).2.2)]

/-- C2 as stated fails: the user `a:b` and the password `c` contain neither
`/` nor `@`, but from `ftp://a:b:c@host/path` the credential split gives the
user `a` and the password `b:c`. -/
theorem parse_url_colon_in_user :
    (∀ x ∈ "a:b".toList, x ≠ '/' ∧ x ≠ '@') ∧ (∀ x ∈ "c".toList, x ≠ '/' ∧ x ≠ '@') ∧
    url_text true (some ("a:b".toList, some "c".toList)) "host".toList none "path".toList
      = "ftp://a:b:c@host/path".toList ∧
    parse_url "ftp://a:b:c@host/path".toList =
      Except.ok { host := "host".toList, port := 21, path := "path".toList, is_ftp := true,
                  user := some "a:b:c".toList } ∧
    split_user "a:b:c".toList = ("a".toList, some "b:c".toList) ∧
    split_user "a:b:c".toList ≠ ("a:b".toList, some "c".toList) := by
  refine ⟨by decide, by decide, by decide, rfl, rfl, by decide⟩

theorem parse_url_recovers_witness :
    parse_url "ftp://user:pw@host/path".toList =
      Except.ok { host := "host".toList, port := 21, path := "path".toList, is_ftp := true,
                  user := some "user:pw".toList } ∧
    split_user "user:pw".toList = ("user".toList, some "pw".toList) :=
  ⟨(parse_url_recovers true (some ("user".toList, some "pw".toList)) "host".toList none
      "path".toList (by decide) (by intro p h; cases h)
      (by intro c h; cases h; exact ⟨by decide, by intro q hq; cases hq; decide⟩)).1,
   (parse_url_recovers true (some ("user".toList, some "pw".toList)) "host".toList none
      "path".toList (by decide) (by intro p h; cases h)
      (by intro c h; cases h; exact ⟨by decide, by intro q hq; cases hq; decide⟩)).2 _ rfl⟩

/-! ## The redirect loop (claims C3 and C4) -/

theorem start_state_try (a : Start) : (start_state a).try_ = 5 ∧ (start_state a).conns = [] := by
  unfold start_state
  exact ⟨rfl, rfl⟩

/-- C3: whatever the server answers, the body of the redirect loop is entered
at most 5 times (`try` ends between 0 and 4) and at most 4 connections are
opened; the fatal "too many redirections" is raised exactly in the 5th pass
(`try` is then 0); and against a server that answers 302 to every request the
session ends with that error in the 5th pass, after 4 connections. -/
theorem redirect_loop_bound (env : Env) (a : Start) :
    (final_state (http_session env a)).conns.length ≤ 4 ∧
    0 ≤ (final_state (http_session env a)).try_ ∧
    (final_state (http_session env a)).try_ ≤ 4 ∧
    (fatal_of (http_session env a) = some Fatal.too_many_redirections ↔
      (final_state (http_session env a)).try_ = 0) ∧
    (replies_302 env 4 (start_state a) = true →
      fatal_of (http_session env a) = some Fatal.too_many_redirections ∧
      (final_state (http_session env a)).try_ = 0 ∧
      (final_state (http_session env a)).conns.length = 4) := by
  have hs := start_state_try a
  have hb := http_loop_bound env 5 (start_state a) (by rw [hs.1]; decide) (by rw [hs.1]; decide)
  rw [hs.1, hs.2] at hb
  unfold http_session
  have key : fatal_of (http_loop env 5 (start_state a)) = some Fatal.too_many_redirections →
      (final_state (http_loop env 5 (start_state a))).try_ = 0 ∧
      (final_state (http_loop env 5 (start_state a))).conns.length = 4 := by
    intro h
    have := hb.1 h
    refine ⟨this.1, ?_⟩
    have := this.2
    simp at this
    exact_mod_cast this
  by_cases h : fatal_of (http_loop env 5 (start_state a)) = some Fatal.too_many_redirections
  · have hk := key h
    refine ⟨by omega, by omega, by omega, ⟨fun _ => hk.1, fun _ => h⟩, fun _ => ⟨h, hk⟩⟩
  · have := hb.2 h
    simp at this
    refine ⟨by omega, by omega, by omega, ⟨fun h' => absurd h' h, fun h' => by omega⟩, ?_⟩
    intro hr
    exact absurd (http_loop_replies_302 env 4 (start_state a) 5 hr (by rw [hs.1]; rfl) (by omega)) h

theorem redirect_loop_bound_witness :
    replies_302 server_302 4 (start_state plain_start) = true ∧
    fatal_of (http_session server_302 plain_start) = some Fatal.too_many_redirections ∧
    (final_state (http_session server_302 plain_start)).try_ = 0 ∧
    (final_state (http_session server_302 plain_start)).conns.length = 4 :=
  ⟨by decide, (redirect_loop_bound server_302 plain_start).2.2.2.2 (by decide)⟩

/-- C4 as stated fails: a server that answers four requests with 302 and the
fifth with 200 forms a chain of 4 redirects followed by a 200, yet the session
dies with "too many redirections" after 4 connections. -/
theorem four_redirects_then_200_dies :
    redirect_chain (server_chain 4) 4 (start_state plain_start) = true ∧
    fatal_of (http_session (server_chain 4) plain_start) = some Fatal.too_many_redirections ∧
    (final_state (http_session (server_chain 4) plain_start)).conns.length = 4 := by
  decide

/-- C4, amended: the session has a budget of 4 connection attempts; the fatal
"too many redirections" is raised only when 4 connections were used and a 5th
pass starts; so for every chain of at most 3 redirect responses (300-303)
followed by a 200 response the session does not die and goes on to retrieve
the body from the connection of the 200 response. -/
theorem redirect_budget (env : Env) (a : Start) :
    (fatal_of (http_session env a) = some Fatal.too_many_redirections →
      (final_state (http_session env a)).conns.length = 4) ∧
    (∀ k, k ≤ 3 → redirect_chain env k (start_state a) = true →
      ∃ st, http_session env a = Except.ok st ∧ st.status = 200 ∧
        st.conns.length = k + 1 ∧ st.dfp = st.sfp) := by
  have hs := start_state_try a
  constructor
  · intro h
    have hb := http_loop_bound env 5 (start_state a) (by rw [hs.1]; decide) (by rw [hs.1]; decide)
    rw [hs.1, hs.2] at hb
    have := (hb.1 h).2
    simp at this
    unfold http_session
    exact_mod_cast this
  · intro k hk hc
    obtain ⟨st, h1, h2, h3, h4⟩ := http_loop_redirect_chain env k (start_state a) 5 hc
      (by rw [hs.1]; push_cast; omega) (by omega)
    refine ⟨st, h1, h2, ?_, h4⟩
    rw [h3, hs.2]
    simp

theorem redirect_budget_witness :
    ∃ st, http_session (server_chain 3) plain_start = Except.ok st ∧ st.status = 200 ∧
      st.conns.length = 3 + 1 ∧ st.dfp = st.sfp :=
  (redirect_budget (server_chain 3) plain_start).2 3 (by decide) (by decide)

/-! ## Status classification (claim C5) -/

/-- C5: with `c` the number `atoi` reads in the status line after the first
token and the white space behind it, `wget_main` does exactly one of: for `c`
0 or 100 it drains the headers of that response and reads another status line
from the same connection; for 200 it succeeds (clearing the resume flag, and
reopening the file when resuming); for 300 to 303 it goes on as a redirect;
for 206 it goes on if and only if a resume is in progress; for every other
`c`, and for 206 when not resuming, it dies reporting `c` and the text of the
status line.  No request is sent and no connection opened meanwhile. -/
theorem status_classification (env : Env) (fuel : Nat) (st : State) (hline : st.sfp ≠ []) :
    (atoi (status_tail (fgets st.buf BUFSIZ st.sfp).2.1) = 0 ∨
      atoi (status_tail (fgets st.buf BUFSIZ st.sfp).2.1) = 100 →
      read_response env (fuel + 1) st =
        match drain_headers ((fgets st.buf BUFSIZ st.sfp).2.2.length + 1)
            { st with buf := (fgets st.buf BUFSIZ st.sfp).2.1, sfp := (fgets st.buf BUFSIZ st.sfp).2.2,
                      status := atoi (status_tail (fgets st.buf BUFSIZ st.sfp).2.1) } with
        | Except.error e => Except.error e
        | Except.ok st2 => read_response env fuel st2) ∧
    (atoi (status_tail (fgets st.buf BUFSIZ st.sfp).2.1) = 200 →
      read_response env (fuel + 1) st =
        Except.ok { st with buf := (fgets st.buf BUFSIZ st.sfp).2.1,
                            sfp := (fgets st.buf BUFSIZ st.sfp).2.2,
                            status := 200, do_continue := 0,
                            outfile := if st.do_continue ≠ 0 ∧ st.output ≠ Sink.stdout then some []
                              else st.outfile }) ∧
    (atoi (status_tail (fgets st.buf BUFSIZ st.sfp).2.1) = 300 ∨
      atoi (status_tail (fgets st.buf BUFSIZ st.sfp).2.1) = 301 ∨
      atoi (status_tail (fgets st.buf BUFSIZ st.sfp).2.1) = 302 ∨
      atoi (status_tail (fgets st.buf BUFSIZ st.sfp).2.1) = 303 →
      read_response env (fuel + 1) st =
        Except.ok { st with buf := (fgets st.buf BUFSIZ st.sfp).2.1,
                            sfp := (fgets st.buf BUFSIZ st.sfp).2.2,
                            status := atoi (status_tail (fgets st.buf BUFSIZ st.sfp).2.1) }) ∧
    (atoi (status_tail (fgets st.buf BUFSIZ st.sfp).2.1) = 206 → st.do_continue ≠ 0 →
      read_response env (fuel + 1) st =
        Except.ok { st with buf := (fgets st.buf BUFSIZ st.sfp).2.1,
                            sfp := (fgets st.buf BUFSIZ st.sfp).2.2, status := 206 }) ∧
    ((atoi (status_tail (fgets st.buf BUFSIZ st.sfp).2.1) = 206 ∧ st.do_continue = 0) ∨
      (atoi (status_tail (fgets st.buf BUFSIZ st.sfp).2.1) ≠ 0 ∧
       atoi (status_tail (fgets st.buf BUFSIZ st.sfp).2.1) ≠ 100 ∧
       atoi (status_tail (fgets st.buf BUFSIZ st.sfp).2.1) ≠ 200 ∧
       atoi (status_tail (fgets st.buf BUFSIZ st.sfp).2.1) ≠ 206 ∧
       atoi (status_tail (fgets st.buf BUFSIZ st.sfp).2.1) ≠ 300 ∧
       atoi (status_tail (fgets st.buf BUFSIZ st.sfp).2.1) ≠ 301 ∧
       atoi (status_tail (fgets st.buf BUFSIZ st.sfp).2.1) ≠ 302 ∧
       atoi (status_tail (fgets st.buf BUFSIZ st.sfp).2.1) ≠ 303) →
      read_response env (fuel + 1) st =
        close_delete_and_die
          (Fatal.server_error (atoi (status_tail (fgets st.buf BUFSIZ st.sfp).2.1))
            (cstr (chomp (fgets st.buf BUFSIZ st.sfp).2.1)))
          { st with buf := chomp (fgets st.buf BUFSIZ st.sfp).2.1,
                    sfp := (fgets st.buf BUFSIZ st.sfp).2.2,
                    status := atoi (status_tail (fgets st.buf BUFSIZ st.sfp).2.1) }) ∧
    (final_state (read_response env (fuel + 1) st)).conns = st.conns := by
  have hf : (fgets st.buf BUFSIZ st.sfp).1 = true := by
    unfold fgets
    cases hs : st.sfp with
    | nil => exact absurd hs hline
    | cons a t => rfl
  have hfr := (read_response_frame env (fuel + 1) st).1
  rw [read_response_succ] at hfr ⊢
  rw [atoi_chomp] at hfr ⊢
  generalize (fgets st.buf BUFSIZ st.sfp).2.1 = b at hfr ⊢
  generalize (fgets st.buf BUFSIZ st.sfp).2.2 = s at hfr ⊢
  generalize atoi (status_tail b) = c at hfr ⊢
  simp only [hf, Bool.not_true, Bool.false_eq_true, if_false] at hfr ⊢
  refine ⟨?_, ?_, ?_, ?_, ?_, hfr⟩
  · intro h
    have : (c == 0 || c == 100) = true := by
      rcases h with h | h <;> simp [h]
    simp only [this, if_true]
  · intro h
    subst h
    simp only [show ((200 : Int) == 0 || (200 : Int) == 100) = false from by decide,
      Bool.false_eq_true, if_false, beq_self_eq_true, if_true]
    by_cases hd : st.do_continue ≠ 0 ∧ st.output ≠ Sink.stdout
    · have : (st.do_continue != 0 && st.output != Sink.stdout) = true := by
        simp [hd.1, hd.2]
      simp only [this, if_true, hd, and_self, not_false_eq_true, ne_eq]
      rfl
    · have : (st.do_continue != 0 && st.output != Sink.stdout) = false := by
        simp only [ne_eq, not_and_or, not_not] at hd
        rcases hd with h | h <;> simp [h]
      simp only [this, Bool.false_eq_true, if_false, hd]
  · intro h
    have h1 : (c == 0 || c == 100) = false := by
      rcases h with h | h | h | h <;> subst h <;> decide
    have h2 : (c == 200) = false := by
      rcases h with h | h | h | h <;> subst h <;> decide
    have h3 : (c == 300 || c == 301 || c == 302 || c == 303) = true := by
      rcases h with h | h | h | h <;> subst h <;> decide
    simp only [h1, h2, h3, Bool.false_eq_true, if_false, if_true]
  · intro h hd
    subst h
    have hd' : (st.do_continue != 0) = true := by simp [hd]
    simp only [show ((206 : Int) == 0 || (206 : Int) == 100) = false from by decide,
      show ((206 : Int) == 200) = false from by decide,
      show ((206 : Int) == 300 || (206 : Int) == 301 || (206 : Int) == 302 || (206 : Int) == 303)
        = false from by decide,
      Bool.false_eq_true, if_false, beq_self_eq_true, hd', Bool.and_self, if_true]
  · intro h
    have h1 : (c == 0 || c == 100) = false := by
      rcases h with ⟨h, _⟩ | h
      · subst h; decide
      · simp [h.1, h.2.1]
    have h2 : (c == 200) = false := by
      rcases h with ⟨h, _⟩ | h
      · subst h; decide
      · simp [h.2.2.1]
    have h3 : (c == 300 || c == 301 || c == 302 || c == 303) = false := by
      rcases h with ⟨h, _⟩ | h
      · subst h; decide
      · simp [h.2.2.2.2.1, h.2.2.2.2.2.1, h.2.2.2.2.2.2.1, h.2.2.2.2.2.2.2]
    have h4 : (c == 206 && st.do_continue != 0) = false := by
      rcases h with ⟨_, h⟩ | h
      · simp [h]
      · simp [h.2.2.2.1]
    simp only [h1, h2, h3, h4, Bool.false_eq_true, if_false]

theorem status_classification_witness :
    read_response server_302 (0 + 1) (awaiting "HTTP/1.1 206 Partial Content\r\n\r\n".toList) =
      close_delete_and_die
        (Fatal.server_error 206 "HTTP/1.1 206 Partial Content\r".toList)
        { awaiting "HTTP/1.1 206 Partial Content\r\n\r\n".toList with
            buf := chomp (fgets (awaiting "HTTP/1.1 206 Partial Content\r\n\r\n".toList).buf BUFSIZ
              "HTTP/1.1 206 Partial Content\r\n\r\n".toList).2.1,
            sfp := "\r\n".toList, status := 206 } :=
  (status_classification server_302 0 (awaiting "HTTP/1.1 206 Partial Content\r\n\r\n".toList)
    (by decide)).2.2.2.2.1 (Or.inl ⟨by decide, by decide⟩)

/-! ## The retrieval loop does not depend on what the output file holds -/

theorem fwrite_with_older (c data : List Char) (st : State) (ho : st.output = Sink.file) :
    fwrite (with_older c st) data = with_older c (fwrite st data) := by
  unfold fwrite with_older
  simp [ho]

theorem write_block_with_older (c data : List Char) (st : State) (ho : st.output = Sink.file) :
    write_block (with_older c st) data = with_older c (write_block st data) := by
  unfold write_block
  rw [fwrite_with_older c data st ho]
  unfold with_older progressmeter
  cases hg : (fwrite st data).got_clen <;> cases hq : (fwrite st data).quiet_flag <;>
    simp [hg, hq]

theorem fread_buf_with_older (c : List Char) (st : State) :
    fread_buf (with_older c st) = with_older c (fread_buf st) := rfl

theorem write_block_output (st : State) (data : List Char) :
    (write_block st data).output = st.output := (write_block_fields st data).2.2.2.1

theorem read_body_with_older (c : List Char) : ∀ (fuel : Nat) (st : State),
    st.output = Sink.file →
    read_body fuel (with_older c st) = with_older c (read_body fuel st) ∧
    (read_body fuel st).output = Sink.file := by
  intro fuel
  induction fuel with
  | zero =>
    intro st ho
    simp only [read_body]
    have h1 : (with_older c st).filesize = st.filesize := rfl
    have h2 : (with_older c st).got_clen = st.got_clen := rfl
    rw [h1, h2]
    split_ifs
    · exact ⟨rfl, ho⟩
    · exact ⟨rfl, ho⟩
  | succ fuel ih =>
    intro st ho
    rw [read_body_succ, read_body_succ]
    have h1 : (with_older c st).filesize = st.filesize := rfl
    have h2 : (with_older c st).got_clen = st.got_clen := rfl
    have h3 : (fread_buf (with_older c st)).n = (fread_buf st).n := rfl
    have h4 : (with_older c st).dfp = st.dfp := rfl
    have h5 : fread_count (with_older c st) = fread_count st := rfl
    rw [h1, h2, h3, h4, h5]
    split_ifs
    · rw [fread_buf_with_older, write_block_with_older c _ _ (by exact ho)]
      exact ih _ (by rw [write_block_output]; exact ho)
    · exact ⟨rfl, ho⟩
    · exact ⟨rfl, ho⟩

theorem next_chunk_with_older (c : List Char) (st : State) :
    next_chunk (with_older c st) = with_older c (next_chunk st) ∧
    (next_chunk st).output = st.output := by
  unfold next_chunk
  have h1 : (with_older c st).chunked = st.chunked := rfl
  rw [h1]
  split_ifs with hc
  · have e : fgets_dfp (fgets_dfp (with_older c st)) = with_older c (fgets_dfp (fgets_dfp st)) := rfl
    simp only [e]
    have e2 : (with_older c (fgets_dfp (fgets_dfp st))).buf = (fgets_dfp (fgets_dfp st)).buf := rfl
    rw [e2]
    split_ifs
    · exact ⟨rfl, rfl⟩
    · exact ⟨rfl, rfl⟩
  · exact ⟨rfl, rfl⟩

theorem retrieve_loop_with_older (c : List Char) : ∀ (fuel : Nat) (st : State),
    st.output = Sink.file →
    retrieve_loop fuel (with_older c st) = (retrieve_loop fuel st).map (with_older c) := by
  intro fuel
  induction fuel with
  | zero => intro st _; rfl
  | succ fuel ih =>
    intro st ho
    rw [retrieve_loop_succ, retrieve_loop_succ]
    have h1 : (with_older c st).dfp = st.dfp := rfl
    have h2 : reset_statbytes (with_older c st) = with_older c (reset_statbytes st) := by
      unfold reset_statbytes with_older progressmeter
      cases hq : st.quiet_flag <;> simp [hq]
    rw [h1, h2]
    have hb := read_body_with_older c (st.dfp.length + 1) (reset_statbytes st)
      ((reset_statbytes_fields st).2.2.2.1.trans ho)
    rw [hb.1]
    have hn := next_chunk_with_older c (read_body (st.dfp.length + 1) (reset_statbytes st))
    rw [hn.1]
    have h3 : (with_older c (next_chunk (read_body (st.dfp.length + 1)
        (reset_statbytes st)))).chunked
        = (next_chunk (read_body (st.dfp.length + 1) (reset_statbytes st))).chunked := rfl
    rw [h3]
    split_ifs
    · exact ih _ (by rw [hn.2]; exact hb.2)
    · rfl

theorem retrieve_with_older (c : List Char) (fuel : Nat) (st : State) (ho : st.output = Sink.file) :
    retrieve fuel (with_older c st) = (retrieve fuel st).map (with_older c) := by
  unfold retrieve
  have h1 : (with_older c st).chunked = st.chunked := rfl
  rw [h1]
  split_ifs
  · exact retrieve_loop_with_older c fuel { fgets_dfp st with filesize := strtol (fgets_dfp st).buf 16 } ho
  · exact retrieve_loop_with_older c fuel st ho

theorem retrieve_loop_output : ∀ (fuel : Nat) (st st' : State),
    st.output = Sink.file → retrieve_loop fuel st = some st' → st'.output = Sink.file := by
  intro fuel
  induction fuel with
  | zero => intro st st' _ h; cases h
  | succ fuel ih =>
    intro st st' ho h
    rw [retrieve_loop_succ] at h
    have hb := read_body_with_older [] (st.dfp.length + 1) (reset_statbytes st)
      ((reset_statbytes_fields st).2.2.2.1.trans ho)
    have hn := next_chunk_with_older [] (read_body (st.dfp.length + 1) (reset_statbytes st))
    split_ifs at h
    · exact ih _ st' (by rw [hn.2]; exact hb.2) h
    · cases h
      rw [hn.2]; exact hb.2

theorem retrieve_output (fuel : Nat) (st st' : State) (ho : st.output = Sink.file)
    (h : retrieve fuel st = some st') : st'.output = Sink.file := by
  unfold retrieve at h
  split_ifs at h
  · exact retrieve_loop_output fuel
      { fgets_dfp st with filesize := strtol (fgets_dfp st).buf 16 } st' ho h
  · exact retrieve_loop_output fuel st st' ho h

/-! ## Resume refused by the HTTP server (claim C6) -/

/-- A session that resumes into a file and ends with status 200 has cleared
the resume flag and truncated the file. -/
theorem http_loop_resume_200 (env : Env) : ∀ (fuel : Nat) (st0 : State),
    st0.do_continue ≠ 0 → st0.output = Sink.file → 1 ≤ st0.try_ → st0.try_ ≤ (fuel : Int) →
    ∀ st, http_loop env fuel st0 = Except.ok st → st.status = 200 →
      st.do_continue = 0 ∧ st.output = Sink.file ∧ st.outfile = some [] := by
  intro fuel
  induction fuel with
  | zero => intro st0 _ _ h1 h2; simp at h2; omega
  | succ fuel ih =>
    intro st0 hd ho h1 h2 st hst h200
    unfold http_loop at hst
    by_cases ht : st0.try_ = 1
    · rw [(http_attempt_eq env st0).1 ht] at hst
      simp [close_delete_and_die] at hst
    · rw [(http_attempt_eq env st0).2 ht] at hst
      have hx := http_exchange_frame env { st0 with try_ := st0.try_ - 1 }
      cases hxr : http_exchange env { st0 with try_ := st0.try_ - 1 } with
      | error e => rw [hxr] at hst; simp at hst
      | ok st1 =>
        rw [hxr] at hst hx
        simp only [final_state] at hx
        have h5 := hx.2.2.2 st1 rfl
        simp only at hst
        split_ifs at hst with hs
        · rcases h5.2.2 with h | h
          · rw [h.1] at hs; exact absurd hs (by decide)
          · exact ih st1 (by rw [h.2.1]; exact hd) (by rw [h5.2.1]; exact ho)
              (by rw [hx.1]; show 1 ≤ st0.try_ - 1; omega)
              (by rw [hx.1]; show st0.try_ - 1 ≤ (fuel : Int); push_cast at h2; omega) st hst h200
        · have hst' := Except.ok.inj hst
          subst hst'
          rcases h5.2.2 with h | h
          · exact ⟨h.2.1, by show st1.output = _; rw [h5.2.1]; exact ho, h.2.2 hd ho⟩
          · exact absurd h200 h.1

/-- For every server: a session started in resume mode (`-c`, an output file
that holds `old`, not empty, so that `Range: bytes=<size of old>-` is sent)
whose final status is 200 has cleared the resume flag and reopened the file
truncated; the retrieval then only appends, so that afterwards the file
holds exactly the bytes written by the retrieval loop, from byte 0 and with
nothing of `old` kept.  Which bytes the loop writes depends on the headers
of every response of the session, not only of the last one. -/
theorem resume_refused_truncates (env : Env) (a : Start) (old : List Char) (st : State)
    (hc : a.do_continue ≠ 0) (hf : a.fname_out ≠ "-".toList) (hold : a.old_file = some old)
    (hne : old ≠ []) (hok : http_session env a = Except.ok st) (h200 : st.status = 200) :
    (start_state a).do_continue ≠ 0 ∧
    range_lines (start_state a) =
      "Range: bytes=".toList ++ fmt_int (old.length : Int) ++ "-\r\n".toList
        ++ "Connection: close\r\n\r\n".toList ∧
    st.do_continue = 0 ∧ st.output = Sink.file ∧ st.outfile = some [] ∧
    ∀ fuel st', retrieve fuel st = some st' →
      ∃ body, st'.outfile = some body ∧ written st' = body ∧
        ∀ c, retrieve fuel { st with outfile := some c } = some { st' with outfile := some (c ++ body) } := by
  have hf' : a.fname_out ≠ ['-'] := hf
  have hout : (start_state a).output = Sink.file := by
    simp [start_state, hf']
  have hlen : (0 : Int) < (old.length : Int) := by
    have : old.length ≠ 0 := fun h => hne (List.length_eq_zero.mp h)
    omega
  have hlen' : ¬ ((old.length : Int) ≤ 0) := by omega
  have hdc : (start_state a).do_continue = a.do_continue := by
    simp [start_state, hf', hc, hold, hlen, hlen']
  have hbr : (start_state a).beg_range = (old.length : Int) := by
    simp [start_state, hf', hc, hold, hlen, hlen']
  have hs := start_state_try a
  have h := http_loop_resume_200 env 5 (start_state a) (by rw [hdc]; exact hc) hout
    (by rw [hs.1]; decide) (by rw [hs.1]; decide) st hok h200
  refine ⟨by rw [hdc]; exact hc, ?_, h.1, h.2.1, h.2.2, ?_⟩
  · unfold range_lines
    rw [hdc, hbr]
    simp [hc]
  · intro fuel st' hr
    have hp := fun c => retrieve_with_older c fuel st h.2.1
    have hself : ∀ c, with_older c st = { st with outfile := some c } := by
      intro c
      unfold with_older
      rw [h.2.2]
      simp
    have h0 := hp []
    rw [hself [], hr] at h0
    have hst : ({ st with outfile := some [] } : State) = st := by
      rw [← h.2.2]
    rw [hst, hr] at h0
    have hbody : st'.outfile = some (st'.outfile.getD []) := by
      have := congrArg (Option.map State.outfile) h0
      simp [with_older] at this
      rw [← this]
    have hout' : st'.output = Sink.file := retrieve_output fuel st st' h.2.1 hr
    refine ⟨st'.outfile.getD [], hbody, ?_, ?_⟩
    · unfold written
      rw [hout']
    · intro c
      have := hp c
      rw [hself c, hr] at this
      rw [this]
      rfl

theorem resume_refused_truncates_witness :
    (final_state (http_session (server_chain 0) resume_start)).do_continue = 0 ∧
    (final_state (http_session (server_chain 0) resume_start)).outfile = some [] ∧
    (retrieve 1 (final_state (http_session (server_chain 0) resume_start))).map
      (fun s => s.outfile) = some (some "hello".toList) :=
  ⟨(resume_refused_truncates (server_chain 0) resume_start "old".toList
      (final_state (http_session (server_chain 0) resume_start))
      (by decide) (by decide) rfl (by decide) (by rfl) (by decide)).2.2.1,
   (resume_refused_truncates (server_chain 0) resume_start "old".toList
      (final_state (http_session (server_chain 0) resume_start))
      (by decide) (by decide) rfl (by decide) (by rfl) (by decide)).2.2.2.2.1,
   by decide⟩

/-- C6 (failing input): `wget -c http://host/file` with a file `file` that
holds `old`, against a server that answers the first request with
`302 Found`, `Content-Length: 0` and `Location: /next`, and the second with
`200 OK` and the body `hello`.  Both requests carry `Range: bytes=3-`, the
final status is 200, the resume flag is cleared and the file is reopened
truncated; but the retrieval writes nothing, so the file ends empty and does
not hold the response body `hello`. -/
theorem resume_refused_loses_body :
    (start_state resume_start).do_continue = 1 ∧
    (start_state resume_start).outfile = some "old".toList ∧
    fatal_of (http_session server_stale_length resume_start) = none ∧
    (final_state (http_session server_stale_length resume_start)).conns.map (fun k => k.sent)
      = [("GET /file HTTP/1.1\r\nHost: host\r\nUser-Agent: Wget\r\n"
            ++ "Range: bytes=3-\r\nConnection: close\r\n\r\n").toList,
         ("GET /next HTTP/1.1\r\nHost: host\r\nUser-Agent: Wget\r\n"
            ++ "Range: bytes=3-\r\nConnection: close\r\n\r\n").toList] ∧
    (final_state (http_session server_stale_length resume_start)).status = 200 ∧
    (final_state (http_session server_stale_length resume_start)).do_continue = 0 ∧
    (final_state (http_session server_stale_length resume_start)).outfile = some [] ∧
    (final_state (http_session server_stale_length resume_start)).dfp = "hello".toList ∧
    (retrieve 1 (final_state (http_session server_stale_length resume_start))).map
      (fun s => s.outfile) = some (some []) := by
  decide

/-! ## Scanning lemmas for `gethdr` -/

theorem takeWhile_append_of_stop (p : Char → Bool) (l t : List Char) (x : Char) (hx : p x = false) :
    (l ++ x :: t).takeWhile p = l.takeWhile p := by
  induction l with
  | nil => simp [List.takeWhile, hx]
  | cons a l ih =>
    by_cases ha : p a = true
    · simp [List.takeWhile, ha, ih]
    · simp [List.takeWhile, ha]

theorem dropWhile_append_of_stop (p : Char → Bool) (l t : List Char) (x : Char) (hx : p x = false) :
    (l ++ x :: t).dropWhile p = l.dropWhile p ++ x :: t := by
  induction l with
  | nil => simp [List.dropWhile, hx]
  | cons a l ih =>
    by_cases ha : p a = true
    · simp [List.dropWhile, ha, ih]
    · simp [List.dropWhile, ha]

theorem upper_cases (c : Char) (h : isupper c = true) :
    tolower c ≠ NUL ∧ is_name_char (tolower c) = true := by
  have hc : Char.ofNat c.toNat = c := Char.ofNat_toNat c
  unfold isupper at h
  simp only [Bool.and_eq_true, decide_eq_true_eq] at h
  obtain ⟨h1, h2⟩ := h
  generalize c.toNat = n at hc h1 h2
  subst hc
  interval_cases n <;> decide

theorem tolower_name_char (c : Char) (h : is_name_char c = true) :
    tolower c ≠ NUL ∧ is_name_char (tolower c) = true := by
  by_cases hu : isupper c = true
  · exact upper_cases c hu
  · have : tolower c = c := by simp [tolower, hu]
    rw [this]
    refine ⟨?_, h⟩
    intro hn
    subst hn
    exact absurd h (by decide)

theorem name_char_ne (c : Char) (h : is_name_char c = true) :
    c ≠ '\r' ∧ c ≠ '\n' ∧ c ≠ ':' ∧ c ≠ NUL := by
  refine ⟨?_, ?_, ?_, ?_⟩ <;> (intro hn; subst hn; exact absurd h (by decide))

theorem cstr_lower_name (name t : List Char) (h : ∀ c ∈ name, is_name_char c = true) :
    cstr (name.map tolower ++ NUL :: t) = name.map tolower := by
  apply cstr_append_nul
  intro c hc
  obtain ⟨a, ha, rfl⟩ := List.mem_map.mp hc
  exact (tolower_name_char a (h a ha)).1

/-! ## `gethdr` on a line with a colon after the name -/

theorem gethdr_colon (buf : List Char) (bufsiz : Nat) (fp fp' : Stream) (name w : List Char)
    (hfg : fgets buf bufsiz fp = (true, store buf (name ++ ':' :: w ++ [NUL]), fp'))
    (hname : ∀ c ∈ name, is_name_char c = true) :
    ∃ b, cstr b = name.map tolower ∧
      gethdr buf bufsiz fp = Except.ok
        { ret := some ((w.dropWhile is_blank).takeWhile is_value_char), buf := b,
          fp := if ((w.dropWhile is_blank).dropWhile is_value_char).headD NUL != NUL then fp'
            else skip_line fp',
          istrunc := if ((w.dropWhile is_blank).dropWhile is_value_char).headD NUL != NUL then 0
            else 1 } := by
  obtain ⟨tl, hmem⟩ : ∃ tl, store buf (name ++ ':' :: w ++ [NUL]) = name ++ ':' :: (w ++ NUL :: tl) :=
    ⟨buf.drop (name ++ ':' :: w ++ [NUL]).length, by simp [store]⟩
  rw [hmem] at hfg
  have hcolon : is_name_char ':' = false := by decide
  have hnul_blank : is_blank NUL = false := by decide
  have hnul_val : is_value_char NUL = false := by decide
  have h1 : ((name ++ ':' :: (w ++ NUL :: tl)).dropWhile (fun c => c == '\r')).headD NUL ≠ '\n' := by
    cases name with
    | nil => simp [List.dropWhile]
    | cons c cs =>
      have hc := name_char_ne c (hname c (by simp))
      have hcr : (c == '\r') = false := by simp [hc.1]
      simp [List.dropWhile, hcr, hc.2.1]
  have h2 : (name ++ ':' :: (w ++ NUL :: tl)).takeWhile is_name_char = name :=
    takeWhile_append_stop _ _ _ _ hname hcolon
  have h3 : (name ++ ':' :: (w ++ NUL :: tl)).dropWhile is_name_char = ':' :: (w ++ NUL :: tl) :=
    dropWhile_append_stop _ _ _ _ hname hcolon
  have h4 : (w ++ NUL :: tl).takeWhile is_blank = w.takeWhile is_blank :=
    takeWhile_append_of_stop _ _ _ _ hnul_blank
  have h5 : (w ++ NUL :: tl).dropWhile is_blank = w.dropWhile is_blank ++ NUL :: tl :=
    dropWhile_append_of_stop _ _ _ _ hnul_blank
  have h6 : (w.dropWhile is_blank ++ NUL :: tl).takeWhile is_value_char
      = (w.dropWhile is_blank).takeWhile is_value_char :=
    takeWhile_append_of_stop _ _ _ _ hnul_val
  have h7 : (w.dropWhile is_blank ++ NUL :: tl).dropWhile is_value_char
      = (w.dropWhile is_blank).dropWhile is_value_char ++ NUL :: tl :=
    dropWhile_append_of_stop _ _ _ _ hnul_val
  have h8 : (((w.dropWhile is_blank).dropWhile is_value_char) ++ NUL :: tl).headD NUL
      = ((w.dropWhile is_blank).dropWhile is_value_char).headD NUL := by
    cases (w.dropWhile is_blank).dropWhile is_value_char <;> rfl
  have h1' : (((name ++ ':' :: (w ++ NUL :: tl)).dropWhile (fun c => c == '\r')).headD NUL == '\n')
      = false := by simpa using h1
  simp only [gethdr, gethdr_scan, hfg, Bool.not_true, Bool.false_eq_true, if_false, h1', h2, h3, List.headD_cons,
    List.tail_cons, h4, h5, h6, h7, h8, bne_self_eq_false]
  have hassoc : ∀ x y z : List Char, name.map tolower ++ NUL :: x ++ y ++ z
      = name.map tolower ++ NUL :: (x ++ y ++ z) := by
    intro x y z; simp
  cases hstop : (((w.dropWhile is_blank).dropWhile is_value_char).headD NUL != NUL) with
  | true =>
    simp only [if_true]
    refine ⟨_, ?_, rfl⟩
    rw [hassoc]
    exact cstr_lower_name name _ hname
  | false =>
    simp only [Bool.false_eq_true, if_false]
    refine ⟨_, ?_, rfl⟩
    rw [hassoc]
    exact cstr_lower_name name _ hname

/-! ## Header parsing (claims C7 and C8) -/

/-- C7: for every header line `Name:` + value text `v` + `\r\n`, with `Name` a
non-empty run of alphanumerics and hyphens, `v` free of CR, LF and NUL and
the line at most `bufsiz - 2` bytes long (510 bytes for the 512-byte buffer),
`gethdr` leaves the lower-cased name in `buf`, returns `v` without its
leading spaces and tabs and without the terminator, sets the truncation flag
to 0, and has read exactly the line. -/
theorem gethdr_well_formed (buf : List Char) (bufsiz : Nat) (name v rest : List Char)
    (hne : name ≠ []) (hname : ∀ c ∈ name, isalnum c = true ∨ c = '-')
    (hv : ∀ c ∈ v, c ≠ '\r' ∧ c ≠ '\n' ∧ c ≠ NUL)
    (hlen : (name ++ ':' :: v ++ ['\r', '\n']).length + 2 ≤ bufsiz) :
    ∃ b, gethdr buf bufsiz (name ++ ':' :: v ++ '\r' :: '\n' :: rest)
        = Except.ok { ret := some (v.dropWhile is_blank), buf := b, fp := rest, istrunc := 0 } ∧
      cstr b = name.map tolower := by
  have hname' : ∀ c ∈ name, is_name_char c = true := by
    intro c hc
    rcases hname c hc with h | h
    · simp [is_name_char, h]
    · subst h; decide
  have hline : ∀ c ∈ name ++ ':' :: v ++ ['\r'], c ≠ '\n' := by
    intro c hc
    simp only [List.mem_append, List.mem_cons, List.mem_singleton, List.not_mem_nil, or_false] at hc
    rcases hc with (h | h | h) | h
    · exact (name_char_ne c (hname' c h)).2.1
    · subst h; decide
    · exact (hv c h).2.1
    · subst h; decide
  have hfg := fgets_line buf (name ++ ':' :: v ++ ['\r']) rest bufsiz hline
    (by simp at hlen ⊢; omega)
  have e1 : name ++ ':' :: v ++ ['\r'] ++ '\n' :: rest = name ++ ':' :: v ++ '\r' :: '\n' :: rest := by
    simp
  have e2 : name ++ ':' :: v ++ ['\r'] ++ ['\n'] ++ [NUL] = name ++ ':' :: (v ++ ['\r', '\n']) ++ [NUL] := by
    simp
  rw [e1, e2] at hfg
  obtain ⟨b, hb, hg⟩ := gethdr_colon buf bufsiz _ rest name (v ++ ['\r', '\n']) hfg hname'
  have hcr_blank : is_blank '\r' = false := by decide
  have hcr_val : is_value_char '\r' = false := by decide
  have hval : ∀ c ∈ v.dropWhile is_blank, is_value_char c = true := by
    intro c hc
    have hcv : c ∈ v := (List.dropWhile_sublist _).subset hc
    have := hv c hcv
    simp [is_value_char, this.1, this.2.1, this.2.2]
  have h5 : (v ++ ['\r', '\n']).dropWhile is_blank = v.dropWhile is_blank ++ ['\r', '\n'] :=
    dropWhile_append_of_stop _ _ _ _ hcr_blank
  have h6 : (v.dropWhile is_blank ++ ['\r', '\n']).takeWhile is_value_char = v.dropWhile is_blank :=
    takeWhile_append_stop _ _ _ _ hval hcr_val
  have h7 : (v.dropWhile is_blank ++ ['\r', '\n']).dropWhile is_value_char = ['\r', '\n'] :=
    dropWhile_append_stop _ _ _ _ hval hcr_val
  rw [h5, h6, h7] at hg
  refine ⟨b, ?_, hb⟩
  rw [hg]
  rfl

theorem gethdr_well_formed_witness :
    ∃ b, gethdr [] 512 "Content-Length: 12345\r\nrest".toList
        = Except.ok { ret := some "12345".toList, buf := b, fp := "rest".toList, istrunc := 0 } ∧
      cstr b = "content-length".toList :=
  gethdr_well_formed [] 512 "Content-Length".toList " 12345".toList "rest".toList
    (by decide) (by decide) (by decide) (by decide)

/-- C8 as stated fails: a line whose name alone fills the 511 bytes that fit
the buffer has no CR or LF among its first `bufsiz - 1` bytes, but `gethdr`
finds no colon in the buffer and dies with "bad header line". -/
theorem gethdr_long_name_dies :
    (∀ c ∈ (List.replicate 511 'a' ++ ":v\r\n".toList).take (512 - 1), c ≠ '\r' ∧ c ≠ '\n') ∧
    gethdr [] 512 (List.replicate 511 'a' ++ ":v\r\n".toList ++ "Next: x\r\n".toList)
      = Except.error (Fatal.bad_header_line (List.replicate 511 'a')) := by
  constructor
  · decide
  · rfl

/-- C8, amended: for every header line (name, `:`, text `w`, `\n`) whose name
and colon lie within the first `bufsiz - 1` bytes and in which no CR, LF or
NUL occurs among the first `bufsiz - 1` bytes, `gethdr` returns the
lower-cased name together with the part of the value that lies within those
bytes, sets the truncation flag to 1, and has discarded the rest of the
physical line up to and including its `\n`. -/
theorem gethdr_truncated (buf : List Char) (bufsiz : Nat) (name w rest : List Char)
    (hname : ∀ c ∈ name, isalnum c = true ∨ c = '-')
    (hw : ∀ c ∈ w, c ≠ '\n')
    (hfit : name.length + 2 ≤ bufsiz)
    (hlong : bufsiz - 1 ≤ (name ++ ':' :: w).length)
    (hclean : ∀ c ∈ (name ++ ':' :: w).take (bufsiz - 1), c ≠ '\r' ∧ c ≠ '\n' ∧ c ≠ NUL) :
    ∃ b, gethdr buf bufsiz (name ++ ':' :: w ++ '\n' :: rest)
        = Except.ok { ret := some ((w.take (bufsiz - 2 - name.length)).dropWhile is_blank),
                      buf := b, fp := rest, istrunc := 1 } ∧
      cstr b = name.map tolower := by
  have hname' : ∀ c ∈ name, is_name_char c = true := by
    intro c hc
    rcases hname c hc with h | h
    · simp [is_name_char, h]
    · subst h; decide
  have hline : ∀ c ∈ name ++ ':' :: w, c ≠ '\n' := by
    intro c hc
    simp only [List.mem_append, List.mem_cons] at hc
    rcases hc with h | h | h
    · exact (name_char_ne c (hname' c h)).2.1
    · subst h; decide
    · exact hw c h
  have hsplit := fgets_split_full (name ++ ':' :: w) ('\n' :: rest) hline (bufsiz - 1) hlong
  have htake : (name ++ ':' :: w).take (bufsiz - 1) = name ++ ':' :: w.take (bufsiz - 2 - name.length) := by
    rw [List.take_append_eq_append_take]
    have h1 : name.take (bufsiz - 1) = name := List.take_of_length_le (by omega)
    have h2 : bufsiz - 1 - name.length = (bufsiz - 2 - name.length) + 1 := by omega
    rw [h1, h2, List.take_succ_cons]
  rw [htake] at hsplit hclean
  have hfg : fgets buf bufsiz (name ++ ':' :: w ++ '\n' :: rest)
      = (true, store buf (name ++ ':' :: w.take (bufsiz - 2 - name.length) ++ [NUL]),
         (name ++ ':' :: w).drop (bufsiz - 1) ++ '\n' :: rest) := by
    cases hfp : name ++ ':' :: w ++ '\n' :: rest with
    | nil => simp at hfp
    | cons a t =>
      simp only [fgets]
      rw [← hfp, hsplit]
  obtain ⟨b, hb, hg⟩ := gethdr_colon buf bufsiz _ _ name (w.take (bufsiz - 2 - name.length)) hfg hname'
  have hval : ∀ c ∈ (w.take (bufsiz - 2 - name.length)).dropWhile is_blank, is_value_char c = true := by
    intro c hc
    have hcv : c ∈ w.take (bufsiz - 2 - name.length) := (List.dropWhile_sublist _).subset hc
    have := hclean c (by simp [hcv])
    simp [is_value_char, this.1, this.2.1, this.2.2]
  rw [takeWhile_all _ _ hval, dropWhile_all _ _ hval] at hg
  have hskip : skip_line ((name ++ ':' :: w).drop (bufsiz - 1) ++ '\n' :: rest) = rest := by
    unfold skip_line
    rw [dropWhile_append_stop (fun c => c != '\n') _ rest '\n' _ (by simp)]
    · rfl
    · intro c hc
      have := hline c (List.mem_of_mem_drop hc)
      simp [this]
  refine ⟨b, ?_, hb⟩
  rw [hg, hskip]
  rfl

theorem gethdr_truncated_witness :
    ∃ b, gethdr [] 8 "Con: 12345\r\nrest".toList
        = Except.ok { ret := some "12".toList, buf := b, fp := "rest".toList, istrunc := 1 } ∧
      cstr b = "con".toList :=
  gethdr_truncated [] 8 "Con".toList " 12345\r".toList "rest".toList
    (by decide) (by decide) (by decide) (by decide) (by decide)

/-! ## Header line classification (claim C9) -/

theorem fgets_split_newline_last : ∀ (k : Nat) (fp a t : List Char),
    (fgets_split k fp).1 = a ++ '\n' :: t → t = [] := by
  intro k
  induction k with
  | zero =>
    intro fp a t h
    simp [fgets_split] at h
  | succ k ih =>
    intro fp a t h
    cases fp with
    | nil => simp [fgets_split] at h
    | cons c fp =>
      by_cases hc : c = '\n'
      · subst hc
        simp only [fgets_split, beq_self_eq_true, if_true] at h
        cases a with
        | nil => simpa using h.symm
        | cons x a =>
          simp at h
      · have hc' : (c == '\n') = false := by simp [hc]
        simp only [fgets_split, hc', Bool.false_eq_true, if_false] at h
        cases a with
        | nil =>
          simp at h
          exact absurd h.1 hc
        | cons x a =>
          simp only [List.cons_append, List.cons.injEq] at h
          exact ih fp a t h.2

theorem headD_dropWhile_store (p : Char → Bool) (hp : p NUL = false) (buf l : List Char) :
    ((store buf (l ++ [NUL])).dropWhile p).headD NUL = (l.dropWhile p).headD NUL := by
  have : store buf (l ++ [NUL]) = l ++ NUL :: buf.drop (l ++ [NUL]).length := by simp [store]
  rw [this, dropWhile_append_of_stop p _ _ _ hp]
  cases l.dropWhile p <;> rfl

/-- A line read by `fgets` is made of carriage returns followed by a newline
exactly when the scan of lines 511-513 ends on a newline. -/
theorem blank_line_iff (k : Nat) (fp : List Char) :
    ((fgets_split k fp).1.dropWhile (fun c => c == '\r')).headD NUL = '\n' ↔
      ∃ j, (fgets_split k fp).1 = List.replicate j '\r' ++ ['\n'] := by
  constructor
  · intro h
    have hsplit := List.takeWhile_append_dropWhile (fun c => c == '\r') (fgets_split k fp).1
    cases hd : (fgets_split k fp).1.dropWhile (fun c => c == '\r') with
    | nil => rw [hd] at h; exact absurd h (by decide)
    | cons x t =>
      rw [hd] at h hsplit
      simp only [List.headD_cons] at h
      subst h
      have ht := fgets_split_newline_last k fp _ t hsplit.symm
      subst ht
      refine ⟨((fgets_split k fp).1.takeWhile (fun c => c == '\r')).length, ?_⟩
      have hrep : (fgets_split k fp).1.takeWhile (fun c => c == '\r')
          = List.replicate ((fgets_split k fp).1.takeWhile (fun c => c == '\r')).length '\r' := by
        rw [List.eq_replicate_iff]
        refine ⟨rfl, ?_⟩
        intro c hc
        have := List.mem_takeWhile_imp hc
        simpa using this
      rw [← hrep, hsplit]
  · rintro ⟨j, hj⟩
    rw [hj, dropWhile_append_stop (fun c => c == '\r') _ [] '\n' _ (by decide)]
    · rfl
    · intro c hc
      have := List.eq_of_mem_replicate hc
      simp [this]

theorem gethdr_scan_cases (b : List Char) (fp : Stream) :
    ((b.dropWhile (fun c => c == '\r')).headD NUL = '\n' →
      ∃ r, gethdr_scan b fp = Except.ok r ∧ r.ret = none) ∧
    ((b.dropWhile (fun c => c == '\r')).headD NUL ≠ '\n' →
      (b.dropWhile is_name_char).headD NUL ≠ ':' →
      ∃ txt, gethdr_scan b fp = Except.error (Fatal.bad_header_line txt)) ∧
    ((b.dropWhile (fun c => c == '\r')).headD NUL ≠ '\n' →
      (b.dropWhile is_name_char).headD NUL = ':' →
      ∃ r v, gethdr_scan b fp = Except.ok r ∧ r.ret = some v) := by
  refine ⟨?_, ?_, ?_⟩
  · intro h
    have h' : (((b.dropWhile (fun c => c == '\r')).headD NUL) == '\n') = true := by
      rw [h]; rfl
    simp only [gethdr_scan, h', if_true]
    exact ⟨_, rfl, rfl⟩
  · intro h1 h2
    have h1' : (((b.dropWhile (fun c => c == '\r')).headD NUL) == '\n') = false := by
      simpa using h1
    have h2' : (((b.dropWhile is_name_char).headD NUL) != ':') = true := by
      simpa using h2
    simp only [gethdr_scan, h1', h2', if_true, Bool.false_eq_true, if_false]
    exact ⟨_, rfl⟩
  · intro h1 h2
    have h1' : (((b.dropWhile (fun c => c == '\r')).headD NUL) == '\n') = false := by
      simpa using h1
    have h2' : (((b.dropWhile is_name_char).headD NUL) != ':') = false := by
      simpa using h2
    simp only [gethdr_scan, h1', h2', Bool.false_eq_true, if_false]
    split_ifs
    · exact ⟨_, _, rfl, rfl⟩
    · exact ⟨_, _, rfl, rfl⟩

theorem gethdr_cases (buf : List Char) (bufsiz : Nat) (a : Char) (t : List Char) :
    (((fgets_split (bufsiz - 1) (a :: t)).1.dropWhile (fun c => c == '\r')).headD NUL = '\n' →
      ∃ r, gethdr buf bufsiz (a :: t) = Except.ok r ∧ r.ret = none) ∧
    (((fgets_split (bufsiz - 1) (a :: t)).1.dropWhile (fun c => c == '\r')).headD NUL ≠ '\n' →
      ((fgets_split (bufsiz - 1) (a :: t)).1.dropWhile is_name_char).headD NUL ≠ ':' →
      ∃ txt, gethdr buf bufsiz (a :: t) = Except.error (Fatal.bad_header_line txt)) ∧
    (((fgets_split (bufsiz - 1) (a :: t)).1.dropWhile (fun c => c == '\r')).headD NUL ≠ '\n' →
      ((fgets_split (bufsiz - 1) (a :: t)).1.dropWhile is_name_char).headD NUL = ':' →
      ∃ r v, gethdr buf bufsiz (a :: t) = Except.ok r ∧ r.ret = some v) := by
  have hA := headD_dropWhile_store (fun c => c == '\r') (by decide) buf
    (fgets_split (bufsiz - 1) (a :: t)).1
  have hB := headD_dropWhile_store is_name_char (by decide) buf
    (fgets_split (bufsiz - 1) (a :: t)).1
  rw [← hA, ← hB]
  have hg : gethdr buf bufsiz (a :: t)
      = gethdr_scan (store buf ((fgets_split (bufsiz - 1) (a :: t)).1 ++ [NUL]))
          (fgets_split (bufsiz - 1) (a :: t)).2 := by
    simp only [gethdr, fgets, Bool.not_true, Bool.false_eq_true, if_false]
  rw [hg]
  exact gethdr_scan_cases _ _

/-- C9, amended: `gethdr` returns "end of headers" (NULL) if and only if the
stream is at end-of-file or the line read consists of zero or more `\r`
followed by `\n`; otherwise it dies with "bad header line" if and only if
the byte right after the leading run of alphanumerics and hyphens is not `:`;
otherwise it returns a value. -/
theorem gethdr_classification (buf : List Char) (bufsiz : Nat) (fp : Stream) :
    ((∃ r, gethdr buf bufsiz fp = Except.ok r ∧ r.ret = none) ↔
      (fp = [] ∨ ∃ j, (fgets_split (bufsiz - 1) fp).1 = List.replicate j '\r' ++ ['\n'])) ∧
    ((∃ t, gethdr buf bufsiz fp = Except.error (Fatal.bad_header_line t)) ↔
      (¬ (fp = [] ∨ ∃ j, (fgets_split (bufsiz - 1) fp).1 = List.replicate j '\r' ++ ['\n']) ∧
        ((fgets_split (bufsiz - 1) fp).1.dropWhile is_name_char).headD NUL ≠ ':')) ∧
    ((∃ r v, gethdr buf bufsiz fp = Except.ok r ∧ r.ret = some v) ↔
      (¬ (fp = [] ∨ ∃ j, (fgets_split (bufsiz - 1) fp).1 = List.replicate j '\r' ++ ['\n']) ∧
        ((fgets_split (bufsiz - 1) fp).1.dropWhile is_name_char).headD NUL = ':')) ∧
    (∀ e, gethdr buf bufsiz fp = Except.error e → ∃ t, e = Fatal.bad_header_line t) := by
  refine ⟨?_, ?_, ?_, fun e h => gethdr_error buf bufsiz fp e h⟩
  all_goals
    cases fp with
    | nil => simp [gethdr, fgets]
    | cons a t =>
      have hc := gethdr_cases buf bufsiz a t
      have hbl := blank_line_iff (bufsiz - 1) (a :: t)
      simp only [List.cons_ne_nil, false_or]
      rw [← hbl]
      simp only [ne_eq] at hc ⊢
      generalize (((fgets_split (bufsiz - 1) (a :: t)).1.dropWhile (fun c => c == '\r')).headD NUL
        = '\n') = A at hc ⊢
      generalize (((fgets_split (bufsiz - 1) (a :: t)).1.dropWhile is_name_char).headD NUL = ':')
        = B at hc ⊢
      by_cases h1 : A
      · obtain ⟨r, hr, hr2⟩ := hc.1 h1
        simp [h1, hr, hr2]
      · by_cases h2 : B
        · obtain ⟨r, v, hr, hr2⟩ := hc.2.2 h1 h2
          simp [h1, h2, hr, hr2]
        · obtain ⟨txt, hr⟩ := hc.2.1 h1 h2
          simp [h1, h2, hr]

/-- C9 as stated fails: the line `\r\r\n` does not consist solely of the line
terminator (`\r\n` or `\n`), and its byte after the (empty) run of
alphanumerics and hyphens is not `:`, yet `gethdr` returns "end of headers"
and not "bad header line". -/
theorem gethdr_cr_cr_lf_ends_headers :
    (fgets_split (512 - 1) "\r\r\nX: y\r\n".toList).1 = "\r\r\n".toList ∧
    "\r\r\n".toList ≠ "\r\n".toList ∧ "\r\r\n".toList ≠ "\n".toList ∧
    ("\r\r\n".toList.dropWhile is_name_char).headD NUL ≠ ':' ∧
    gethdr [] 512 "\r\r\nX: y\r\n".toList
      = Except.ok { ret := none, buf := "\r\r\n".toList ++ [NUL], fp := "X: y\r\n".toList,
                    istrunc := 0 } := by
  refine ⟨by decide, by decide, by decide, by decide, rfl⟩

/-! ## The PASV reply (claim C10) -/

theorem to_int_small (x : Int) (h0 : 0 ≤ x) (h1 : x ≤ 2147483647) : to_int x = x := by
  unfold to_int
  have : (x + 2147483648) % 4294967296 = x + 2147483648 :=
    Int.emod_eq_of_lt (by omega) (by omega)
  rw [this]; omega

theorem strtol_digits_stop_nondigit (t : List Char) (a : Nat)
    (h : ∀ c, t.head? = some c → isdigit c = false) : strtol_digits 10 t a = a := by
  cases t with
  | nil => rfl
  | cons c t => exact strtol_digits_stop 10 c t a (digitVal_not_isdigit c (h c rfl))

theorem atoi_dec_small (n : Nat) (t : List Char) (hn : n ≤ 2147483647)
    (h : ∀ c, t.head? = some c → isdigit c = false) : atoi (dec n ++ t) = (n : Int) := by
  rw [atoi_dec n t (fun a => strtol_digits_stop_nondigit t a h)]
  unfold LONG_MAX
  omega

/-- The two `strrchr` and `atoi` calls of lines 363-367 on a reply that ends
in `,h,l` and a text without comma. -/
theorem pasv_port_fields (pre suf tl : List Char) (h l : Nat) (hh : h ≤ 255) (hl : l ≤ 255)
    (hpre : ∀ c ∈ pre, c ≠ NUL) (hsuf : ∀ c ∈ suf, c ≠ NUL ∧ c ≠ ',')
    (hstop : ∀ c, suf.head? = some c → isdigit c = false) :
    pasv_port (pre ++ ',' :: dec h ++ ',' :: dec l ++ suf ++ NUL :: tl) = some ((h * 256 + l : Nat) : Int) := by
  have hdec_nul : ∀ n, ∀ c ∈ dec n, c ≠ NUL := fun n => dec_no_char n NUL (by decide)
  have hdec_comma : ∀ n, ∀ c ∈ dec n, c ≠ ',' := fun n => dec_no_char n ',' (by decide)
  have hc : cstr (pre ++ ',' :: dec h ++ ',' :: dec l ++ suf ++ NUL :: tl)
      = (pre ++ ',' :: dec h) ++ ',' :: (dec l ++ suf) := by
    have : pre ++ ',' :: dec h ++ ',' :: dec l ++ suf ++ NUL :: tl
        = ((pre ++ ',' :: dec h) ++ ',' :: (dec l ++ suf)) ++ NUL :: tl := by simp
    rw [this]
    apply cstr_append_nul
    intro c hcm
    simp only [List.mem_append, List.mem_cons] at hcm
    rcases hcm with (h1 | h1 | h1) | h1 | h1 | h1
    · exact hpre c h1
    · subst h1; decide
    · exact hdec_nul h c h1
    · subst h1; decide
    · exact hdec_nul l c h1
    · exact (hsuf c h1).1
  have h1 : strrchr_split ',' ((pre ++ ',' :: dec h) ++ ',' :: (dec l ++ suf))
      = some (pre ++ ',' :: dec h, dec l ++ suf) := by
    apply strrchr_split_append
    intro c hcm
    rcases List.mem_append.mp hcm with h1 | h1
    · exact hdec_comma l c h1
    · exact (hsuf c h1).2
  have h2 : strrchr_split ',' (pre ++ ',' :: dec h) = some (pre, dec h) :=
    strrchr_split_append ',' pre (dec h) (hdec_comma h)
  have a1 : atoi (dec l ++ suf) = (l : Int) := atoi_dec_small l suf (by omega) hstop
  have a2 : atoi (dec h) = (h : Int) := by
    have := atoi_dec_small h [] (by omega) (by simp)
    simpa using this
  unfold pasv_port
  rw [hc, h1]
  simp only [h2, a1, a2]
  rw [to_int_small ((h : Int) * 256) (by omega) (by omega),
    to_int_small ((l : Int) + (h : Int) * 256) (by omega) (by omega)]
  congr 1
  push_cast
  ring

theorem ftp_reply_succ (fuel : Nat) (buf : List Char) (fp : Stream) :
    ftp_reply (fuel + 1) buf fp =
      if !(fgets buf 510 fp).1 then Except.error Fatal.ftp_fgets
      else if !isdigit ((fgets buf 510 fp).2.1.getD 0 NUL) || (fgets buf 510 fp).2.1.getD 3 NUL != ' '
        then ftp_reply fuel (fgets buf 510 fp).2.1 (fgets buf 510 fp).2.2
      else Except.ok (fgets buf 510 fp).2 := rfl

/-- C10: for every reply line `227 ...,h,l<text>` whose last two
comma-separated fields are the decimal numbers `h` and `l`, each at most 255
and `l` followed by a text that has no comma and does not start with a digit,
the data port computed at lines 361-367 is `h * 256 + l`. -/
theorem pasv_data_port (st : State) (pre suf rest : List Char) (h l : Nat)
    (hh : h ≤ 255) (hl : l ≤ 255)
    (hpre : ∀ c ∈ pre, c ≠ NUL ∧ c ≠ '\n')
    (hsuf : ∀ c ∈ suf, c ≠ NUL ∧ c ≠ ',' ∧ c ≠ '\n')
    (hstop : ∀ c, suf.head? = some c → isdigit c = false)
    (hlen : ("227 ".toList ++ pre ++ ',' :: dec h ++ ',' :: dec l ++ suf).length + 2 ≤ 510)
    (hsfp : st.sfp = "227 ".toList ++ pre ++ ',' :: dec h ++ ',' :: dec l ++ suf ++ '\n' :: rest) :
    ∃ st', ftp_pasv st = Except.ok (some ((h * 256 + l : Nat) : Int), st') ∧ st'.sfp = rest := by
  have hdec_nl : ∀ n, ∀ c ∈ dec n, c ≠ '\n' := fun n => dec_no_char n '\n' (by decide)
  have hline : ∀ c ∈ "227 ".toList ++ pre ++ ',' :: dec h ++ ',' :: dec l ++ suf, c ≠ '\n' := by
    intro c hcm
    simp only [List.mem_append, List.mem_cons] at hcm
    rcases hcm with (((h1 | h1) | h1 | h1) | h1 | h1) | h1
    · exact (show ∀ c ∈ "227 ".toList, c ≠ '\n' from by decide) c h1
    · exact (hpre c h1).2
    · subst h1; decide
    · exact hdec_nl h c h1
    · subst h1; decide
    · exact hdec_nl l c h1
    · exact (hsuf c h1).2.2
  have hfg := fgets_line st.buf _ rest 510 hline hlen
  rw [← hsfp] at hfg
  obtain ⟨tl, hb⟩ : ∃ tl, store st.buf ("227 ".toList ++ pre ++ ',' :: dec h ++ ',' :: dec l ++ suf
      ++ ['\n'] ++ [NUL]) = ("227 ".toList ++ pre) ++ ',' :: dec h ++ ',' :: dec l ++ (suf ++ ['\n'])
        ++ NUL :: tl :=
    ⟨st.buf.drop ("227 ".toList ++ pre ++ ',' :: dec h ++ ',' :: dec l ++ suf
      ++ ['\n'] ++ [NUL]).length, by simp [store]⟩
  rw [hb] at hfg
  have hb4 : ∃ tl', ("227 ".toList ++ pre) ++ ',' :: dec h ++ ',' :: dec l ++ (suf ++ ['\n'])
      ++ NUL :: tl = '2' :: '2' :: '7' :: ' ' :: tl' :=
    ⟨pre ++ ',' :: dec h ++ ',' :: dec l ++ (suf ++ ['\n']) ++ NUL :: tl, by simp⟩
  obtain ⟨tl', hb4⟩ := hb4
  have hatoi : atoi (("227 ".toList ++ pre) ++ ',' :: dec h ++ ',' :: dec l ++ (suf ++ ['\n'])
      ++ NUL :: tl) = 227 := by
    rw [hb4]
    have : ('2' :: '2' :: '7' :: ' ' :: tl') = dec 227 ++ ' ' :: tl' := by
      have : dec 227 = ['2', '2', '7'] := by decide
      rw [this]; rfl
    rw [this, atoi_dec_small 227 _ (by omega) (by intro c hc; simp at hc; subst hc; decide)]
    rfl
  have hport := pasv_port_fields ("227 ".toList ++ pre) (suf ++ ['\n']) tl h l hh hl
    (by
      intro c hcm
      rcases List.mem_append.mp hcm with h1 | h1
      · exact (show ∀ c ∈ "227 ".toList, c ≠ NUL from by decide) c h1
      · exact (hpre c h1).1)
    (by
      intro c hcm
      rcases List.mem_append.mp hcm with h1 | h1
      · exact ⟨(hsuf c h1).1, (hsuf c h1).2.1⟩
      · simp at h1; subst h1; decide)
    (by
      intro c hc
      cases suf with
      | nil => simp at hc; subst hc; decide
      | cons x xs => exact hstop c (by simpa using hc))
  have hreply : ftp_reply (st.sfp.length + 1) st.buf st.sfp
      = Except.ok (("227 ".toList ++ pre) ++ ',' :: dec h ++ ',' :: dec l ++ (suf ++ ['\n'])
          ++ NUL :: tl, rest) := by
    rw [ftp_reply_succ, hfg]
    simp only [Bool.not_true, Bool.false_eq_true, if_false]
    rw [hb4]
    have e0 : isdigit (('2' :: '2' :: '7' :: ' ' :: tl').getD 0 NUL) = true := rfl
    have e3 : (('2' :: '2' :: '7' :: ' ' :: tl').getD 3 NUL != ' ') = false := by
      simp [List.getD]
    simp only [e0, e3, Bool.not_true, Bool.or_self, Bool.false_eq_true, if_false]
  unfold ftp_pasv ftpcmd
  simp only [hreply, hatoi, bne_self_eq_false, Bool.false_eq_true, if_false, hport]
  exact ⟨_, rfl, rfl⟩

theorem pasv_data_port_witness :
    ∃ st', ftp_pasv (awaiting_pasv "227 Entering Passive Mode (10,0,0,1,200,10)\r\n".toList)
        = Except.ok (some 51210, st') ∧ st'.sfp = [] :=
  pasv_data_port (awaiting_pasv "227 Entering Passive Mode (10,0,0,1,200,10)\r\n".toList)
    "Entering Passive Mode (10,0,0,1".toList ")\r".toList [] 200 10
    (by decide) (by decide) (by decide) (by decide) (by decide) (by decide) (by decide)

/-! ## The retrieval loop on a body without chunks (claims C11, C12) -/

theorem whole_blocks_step (f : Int) (h : 0 < f) :
    whole_blocks f = BUFSIZ + whole_blocks (f - (BUFSIZ : Nat)) := by
  unfold whole_blocks BUFSIZ
  have : (f - ((512 : Nat) : Int)).toNat = f.toNat - 512 := by omega
  rw [this]
  omega

theorem whole_blocks_nonpos (f : Int) (h : ¬ 0 < f) : whole_blocks f = 0 := by
  unfold whole_blocks BUFSIZ
  have : f.toNat = 0 := by omega
  rw [this]

theorem whole_blocks_ge (f : Int) (h : 0 < f) : BUFSIZ ≤ whole_blocks f := by
  rw [whole_blocks_step f h]; omega

theorem whole_blocks_cover (n : Nat) : n ≤ whole_blocks (n : Int) := by
  unfold whole_blocks BUFSIZ
  have : ((n : Int)).toNat = n := by omega
  rw [this]
  omega

theorem fread_buf_plain (st : State) (hc : st.chunked = false) :
    (fread_buf st).n = ((st.dfp.take BUFSIZ).length : Int) ∧
    (fread_buf st).dfp = st.dfp.drop BUFSIZ ∧
    (fread_buf st).chunked = false ∧ (fread_buf st).got_clen = st.got_clen ∧
    (fread_buf st).filesize = st.filesize ∧ (fread_buf st).output = st.output ∧
    written (fread_buf st) = written st ∧ fread_count st = BUFSIZ := by
  have hcnt : fread_count st = BUFSIZ := by unfold fread_count; simp [hc]
  unfold fread_buf written
  rw [hcnt]
  simp [hc]

/-- The inner loop on a body of known size: it takes whole blocks from the
stream until `filesize` bytes are covered or the stream ends. -/
theorem read_body_sized : ∀ (fuel : Nat) (st : State),
    st.chunked = false → st.got_clen = true → st.dfp.length ≤ fuel →
    written (read_body fuel st) = written st ++ st.dfp.take (whole_blocks st.filesize) ∧
    (read_body fuel st).dfp = st.dfp.drop (whole_blocks st.filesize) ∧
    (read_body fuel st).chunked = false := by
  intro fuel
  induction fuel with
  | zero =>
    intro st hc hg hl
    have hnil : st.dfp = [] := List.length_eq_zero.mp (by omega)
    have hf := fread_buf_plain st hc
    simp only [read_body]
    split_ifs
    · rw [hf.2.2.2.2.2.2.1, hf.2.1, hf.2.2.1, hnil]; simp
    · rw [hnil]; simp [hc]
  | succ fuel ih =>
    intro st hc hg hl
    have hf := fread_buf_plain st hc
    rw [read_body_succ]
    by_cases hpos : 0 < st.filesize
    · simp only [hpos, decide_True, Bool.true_or, if_true]
      by_cases hn : 0 < (fread_buf st).n
      · simp only [hn, if_true]
        have hw := write_block_fields (fread_buf st) (st.dfp.take (fread_count st))
        rw [hf.2.2.2.2.2.2.2] at hw
        rw [hf.2.2.2.2.2.2.2]
        have hlen : (st.dfp.take BUFSIZ).length = min BUFSIZ st.dfp.length := List.length_take _ _
        have hrec := ih (write_block (fread_buf st) (st.dfp.take BUFSIZ))
          (by rw [hw.2.1, hf.2.2.1]) (by rw [hw.2.2.1, hf.2.2.2.1, hg])
          (by
            rw [hw.1, hf.2.1, List.length_drop]
            rw [hf.1, hlen] at hn
            unfold BUFSIZ at hn ⊢
            omega)
        rw [hw.1, hf.2.1, hw.2.2.2.2.1, hf.2.2.2.1, hg, hw.2.2.2.2.2, hf.2.2.2.2.2.2.1,
          hf.2.2.2.2.1, hf.1] at hrec
        simp only [if_true] at hrec
        refine ⟨?_, ?_, hrec.2.2⟩
        · rw [hrec.1, List.append_assoc]
          congr 1
          by_cases hfull : BUFSIZ ≤ st.dfp.length
          · have hl2 : (st.dfp.take BUFSIZ).length = BUFSIZ := by rw [hlen]; omega
            rw [hl2, whole_blocks_step st.filesize hpos, List.take_add]
          · have hl2 : (st.dfp.take BUFSIZ) = st.dfp := List.take_of_length_le (by omega)
            have hd2 : st.dfp.drop BUFSIZ = [] := List.drop_of_length_le (by omega)
            have := whole_blocks_ge st.filesize hpos
            have h3 : st.dfp.length ≤ whole_blocks st.filesize := by omega
            rw [hl2, hd2, List.take_of_length_le h3]
            simp
        · rw [hrec.2.1]
          by_cases hfull : BUFSIZ ≤ st.dfp.length
          · have hl2 : (st.dfp.take BUFSIZ).length = BUFSIZ := by rw [hlen]; omega
            rw [hl2, whole_blocks_step st.filesize hpos, List.drop_drop]
          · have hd2 : st.dfp.drop BUFSIZ = [] := List.drop_of_length_le (by omega)
            have := whole_blocks_ge st.filesize hpos
            have h3 : st.dfp.length ≤ whole_blocks st.filesize := by omega
            rw [hd2, List.drop_of_length_le h3]
            simp
      · simp only [hn, if_false]
        have hlen : (st.dfp.take BUFSIZ).length = min BUFSIZ st.dfp.length := List.length_take _ _
        have hnil : st.dfp = [] := by
          rw [hf.1, hlen] at hn
          unfold BUFSIZ at hn
          exact List.length_eq_zero.mp (by omega)
        rw [hf.2.2.2.2.2.2.1, hf.2.1, hf.2.2.1, hnil]
        simp
    · simp only [hpos, decide_False, hg, Bool.not_true, Bool.or_self, if_false]
      rw [whole_blocks_nonpos st.filesize hpos]
      simp [hc]

/-- The inner loop on a body of unknown size reads the stream to its end. -/
theorem read_body_unsized : ∀ (fuel : Nat) (st : State),
    st.chunked = false → st.got_clen = false → st.dfp.length ≤ fuel →
    written (read_body fuel st) = written st ++ st.dfp ∧
    (read_body fuel st).dfp = [] ∧ (read_body fuel st).chunked = false := by
  intro fuel
  induction fuel with
  | zero =>
    intro st hc hg hl
    have hnil : st.dfp = [] := List.length_eq_zero.mp (by omega)
    have hf := fread_buf_plain st hc
    simp only [read_body, hg, Bool.not_false, Bool.or_true, if_true]
    rw [hf.2.2.2.2.2.2.1, hf.2.1, hf.2.2.1, hnil]; simp
  | succ fuel ih =>
    intro st hc hg hl
    have hf := fread_buf_plain st hc
    rw [read_body_succ]
    simp only [hg, Bool.not_false, Bool.or_true, if_true]
    have hlen : (st.dfp.take BUFSIZ).length = min BUFSIZ st.dfp.length := List.length_take _ _
    by_cases hn : 0 < (fread_buf st).n
    · simp only [hn, if_true]
      have hw := write_block_fields (fread_buf st) (st.dfp.take (fread_count st))
      rw [hf.2.2.2.2.2.2.2] at hw
      rw [hf.2.2.2.2.2.2.2]
      have hrec := ih (write_block (fread_buf st) (st.dfp.take BUFSIZ))
        (by rw [hw.2.1, hf.2.2.1]) (by rw [hw.2.2.1, hf.2.2.2.1, hg])
        (by
          rw [hw.1, hf.2.1, List.length_drop]
          rw [hf.1, hlen] at hn
          unfold BUFSIZ at hn ⊢
          omega)
      rw [hw.1, hf.2.1, hw.2.2.2.2.2, hf.2.2.2.2.2.2.1] at hrec
      refine ⟨?_, hrec.2.1, hrec.2.2⟩
      rw [hrec.1, List.append_assoc, List.take_append_drop]
    · simp only [hn, if_false]
      have hnil : st.dfp = [] := by
        rw [hf.1, hlen] at hn
        unfold BUFSIZ at hn
        exact List.length_eq_zero.mp (by omega)
      rw [hf.2.2.2.2.2.2.1, hf.2.1, hf.2.2.1, hnil]
      simp

theorem retrieve_plain (fuel : Nat) (st : State) (hc : st.chunked = false)
    (h : (read_body (st.dfp.length + 1) (reset_statbytes st)).chunked = false) :
    retrieve (fuel + 1) st = some (read_body (st.dfp.length + 1) (reset_statbytes st)) := by
  unfold retrieve
  simp only [hc, Bool.false_eq_true, if_false]
  rw [retrieve_loop_succ]
  have hn : next_chunk (read_body (st.dfp.length + 1) (reset_statbytes st))
      = read_body (st.dfp.length + 1) (reset_statbytes st) := by
    unfold next_chunk; simp [h]
  rw [hn, h]
  simp

/-- The retrieval loop on a body of known size that is not chunked: the
bytes written are the first `whole_blocks filesize` bytes of the stream (all
of it when it is shorter), and those bytes are consumed. -/
theorem retrieve_sized (fuel : Nat) (st : State) (hc : st.chunked = false)
    (hg : st.got_clen = true) :
    ∃ st', retrieve (fuel + 1) st = some st' ∧
      written st' = written st ++ st.dfp.take (whole_blocks st.filesize) ∧
      st'.dfp = st.dfp.drop (whole_blocks st.filesize) := by
  have hr := reset_statbytes_fields st
  have h := read_body_sized (st.dfp.length + 1) (reset_statbytes st) (hr.2.1.trans hc)
    (hr.2.2.1.trans hg) (by rw [hr.1]; omega)
  rw [hr.1, hr.2.2.2.2.1, hr.2.2.2.2.2] at h
  exact ⟨_, retrieve_plain fuel st hc h.2.2, h.1, h.2.1⟩

/-- C11 (failing input): the response announces `Content-Length: 5` and is
not chunked, the stream holds the 11 bytes `hello world`; the retrieval loop
reads and writes all 11 bytes. -/
theorem known_size_exceeded :
    (final_state (http_session server_surplus plain_start)).got_clen = true ∧
    (final_state (http_session server_surplus plain_start)).filesize = 5 ∧
    (final_state (http_session server_surplus plain_start)).chunked = false ∧
    (final_state (http_session server_surplus plain_start)).dfp = "hello world".toList ∧
    written (final_state (http_session server_surplus plain_start)) = [] ∧
    (retrieve 1 (final_state (http_session server_surplus plain_start))).map written
      = some "hello world".toList ∧
    (retrieve 1 (final_state (http_session server_surplus plain_start))).map (fun s => s.dfp)
      = some [] := by
  decide

/-- The retrieval loop entered with `chunked` at 0 writes, in order and
unchanged, the whole data stream when `got_clen` is 0, and also when
`got_clen` is 1 and the stream holds exactly `filesize` bytes; the stream is
then at its end.  The three variables are those the header loop left, for
this response or for an earlier one. -/
theorem retrieve_verbatim (fuel : Nat) (st : State) (hc : st.chunked = false)
    (hs : st.got_clen = false ∨ (st.got_clen = true ∧ st.filesize = (st.dfp.length : Int))) :
    ∃ st', retrieve (fuel + 1) st = some st' ∧ written st' = written st ++ st.dfp ∧
      st'.dfp = [] := by
  have hr := reset_statbytes_fields st
  rcases hs with hg | ⟨hg, hf⟩
  · have h := read_body_unsized (st.dfp.length + 1) (reset_statbytes st) (hr.2.1.trans hc)
      (hr.2.2.1.trans hg) (by rw [hr.1]; omega)
    rw [hr.1, hr.2.2.2.2.2] at h
    exact ⟨_, retrieve_plain fuel st hc h.2.2, h.1, h.2.1⟩
  · have h := read_body_sized (st.dfp.length + 1) (reset_statbytes st) (hr.2.1.trans hc)
      (hr.2.2.1.trans hg) (by rw [hr.1]; omega)
    rw [hr.1, hr.2.2.2.2.1, hr.2.2.2.2.2] at h
    have hcov : st.dfp.length ≤ whole_blocks st.filesize := by
      rw [hf]; exact whole_blocks_cover _
    refine ⟨_, retrieve_plain fuel st hc h.2.2, ?_, ?_⟩
    · rw [h.1]
      show written st ++ st.dfp.take (whole_blocks st.filesize) = written st ++ st.dfp
      rw [List.take_of_length_le hcov]
    · rw [h.2.1]
      show st.dfp.drop (whole_blocks st.filesize) = []
      exact List.drop_of_length_le hcov

theorem retrieve_verbatim_witness :
    ∃ st', retrieve 1 (final_state (http_session (server_chain 0) plain_start)) = some st' ∧
      written st' = written (final_state (http_session (server_chain 0) plain_start))
        ++ (final_state (http_session (server_chain 0) plain_start)).dfp ∧
      st'.dfp = [] :=
  retrieve_verbatim 0 (final_state (http_session (server_chain 0) plain_start)) (by decide)
    (Or.inr ⟨by decide, by decide⟩)

/-- The size the retrieval loop takes as known is the one the header loop
recorded, also for the response of an earlier redirect: `got_clen` and
`filesize` are not reset in the loop of lines 213-313.  After a redirect
with `Content-Length: 0`, a response without `Content-Length` is retrieved
with the known size 0, and nothing is written. -/
theorem size_left_by_redirect :
    (final_state (http_session server_stale_length plain_start)).status = 200 ∧
    (final_state (http_session server_stale_length plain_start)).got_clen = true ∧
    (final_state (http_session server_stale_length plain_start)).filesize = 0 ∧
    (final_state (http_session server_stale_length plain_start)).dfp = "hello".toList ∧
    (retrieve 1 (final_state (http_session server_stale_length plain_start))).map written
      = some [] := by
  decide

/-- C12 (failing inputs): `chunked`, `got_clen` and `filesize` are not reset
between the passes of the loop of lines 213-313, so the retrieval loop takes
the framing and the size from the headers of an earlier redirect.  After a
`302` with `Transfer-Encoding: chunked`, a response `200` that is not
chunked, announces 5 bytes and holds the 5 bytes `hello` is retrieved with
`chunked` at 1: `hello` is read as a chunk-size line and nothing is written.
After a `302` with `Content-Length: 0`, a response `200` of unknown size
with the body `hello` is retrieved with the known size 0: nothing is read
and nothing is written. -/
theorem stale_headers_lose_body :
    fatal_of (http_session server_stale_chunked plain_start) = none ∧
    (final_state (http_session server_stale_chunked plain_start)).status = 200 ∧
    (final_state (http_session server_stale_chunked plain_start)).chunked = true ∧
    (final_state (http_session server_stale_chunked plain_start)).filesize = 5 ∧
    (final_state (http_session server_stale_chunked plain_start)).dfp = "hello".toList ∧
    (retrieve 1 (final_state (http_session server_stale_chunked plain_start))).map
      (fun s => (written s, s.dfp)) = some ([], []) ∧
    fatal_of (http_session server_stale_length plain_start) = none ∧
    (final_state (http_session server_stale_length plain_start)).status = 200 ∧
    (final_state (http_session server_stale_length plain_start)).chunked = false ∧
    (final_state (http_session server_stale_length plain_start)).got_clen = true ∧
    (final_state (http_session server_stale_length plain_start)).filesize = 0 ∧
    (final_state (http_session server_stale_length plain_start)).dfp = "hello".toList ∧
    (retrieve 1 (final_state (http_session server_stale_length plain_start))).map
      (fun s => (written s, s.dfp)) = some ([], "hello".toList) := by
  decide

/-! ## Removal of the output file when the process dies (claim C13) -/

theorem cleaned_up_close (st : State) : cleaned_up (close_and_delete_outfile st) = true := by
  unfold close_and_delete_outfile cleaned_up
  by_cases h1 : st.output = Sink.stdout <;> by_cases h2 : st.do_continue = 0 <;> simp [h1, h2]

theorem clean_death_die (e : Fatal) (st : State) : clean_death (close_delete_and_die e st) = true := by
  simp [clean_death, close_delete_and_die, cleaned_up_close]

theorem drain_headers_clean : ∀ (fuel : Nat) (st : State),
    clean_death (drain_headers fuel st) = true := by
  intro fuel
  induction fuel with
  | zero => intro st; rfl
  | succ fuel ih =>
    intro st
    unfold drain_headers
    cases hg : gethdr st.buf BUFSIZ st.sfp with
    | error e =>
      obtain ⟨l, rfl⟩ := gethdr_error _ _ _ _ hg
      rfl
    | ok r =>
      simp only
      split_ifs
      · exact ih _
      · rfl

theorem read_response_clean (env : Env) : ∀ (fuel : Nat) (st : State),
    clean_death (read_response env fuel st) = true := by
  intro fuel
  induction fuel with
  | zero => intro st; exact clean_death_die _ _
  | succ fuel ih =>
    intro st
    rw [read_response_succ]
    generalize hb : (fgets st.buf BUFSIZ st.sfp).2.1 = b
    generalize hs : (fgets st.buf BUFSIZ st.sfp).2.2 = s
    generalize hc : atoi (status_tail b) = c
    split_ifs with h1 h2 h3 h4 h5 h6
    · exact clean_death_die _ _
    · have hd := drain_headers_clean (s.length + 1) { st with buf := b, sfp := s, status := c }
      cases hdr : drain_headers (s.length + 1) { st with buf := b, sfp := s, status := c } with
      | error e => rw [hdr] at hd; exact hd
      | ok st2 => exact ih st2
    · rfl
    · rfl
    · rfl
    · rfl
    · exact clean_death_die _ _

theorem handle_header_clean (name value : CStr) (st : State) :
    clean_death (handle_header name value st) = true := by
  have hcd := clean_death_die (Fatal.transfer_encoding value) st
  by_cases h1 : strcaseeq name "content-length".toList = true <;>
  by_cases h2 : strcaseeq name "transfer-encoding".toList = true <;>
  by_cases h3 : strcaseeq value "chunked".toList = true <;>
  by_cases h4 : strcaseeq name "location".toList = true <;>
  by_cases h5 : (value.head? == some '/') = true <;>
  by_cases h6 : st.proxy = true <;>
  cases hp : parse_url value with
  | error e =>
    have := parse_url_error _ _ hp
    subst this
    simp only [handle_header, hp, h1, h2, h3, h4, h5, h6, error_msg_and_die,
      if_true, if_false, Bool.not_true, Bool.false_eq_true, Bool.not_false]
    first
      | rfl
      | exact hcd
  | ok hi =>
    simp only [handle_header, hp, h1, h2, h3, h4, h5, h6, error_msg_and_die,
      if_true, if_false, Bool.not_true, Bool.false_eq_true, Bool.not_false]
    first
      | rfl
      | exact hcd

theorem read_headers_clean : ∀ (fuel : Nat) (st : State),
    clean_death (read_headers fuel st) = true := by
  intro fuel
  induction fuel with
  | zero => intro st; rfl
  | succ fuel ih =>
    intro st
    unfold read_headers
    cases hg : gethdr st.buf BUFSIZ st.sfp with
    | error e =>
      obtain ⟨l, rfl⟩ := gethdr_error _ _ _ _ hg
      rfl
    | ok r =>
      simp only
      cases hr : r.ret with
      | none => rfl
      | some value =>
        simp only
        have hh := handle_header_clean (cstr r.buf) value
          { st with buf := r.buf, sfp := r.fp, n := r.istrunc }
        cases hhh : handle_header (cstr r.buf) value
            { st with buf := r.buf, sfp := r.fp, n := r.istrunc } with
        | error e => rw [hhh] at hh; exact hh
        | ok st2 => exact ih st2

theorem read_reply_clean (env : Env) (st : State) : clean_death (read_reply env st) = true := by
  unfold read_reply
  have h := read_response_clean env (st.sfp.length + 1) st
  cases hr : read_response env (st.sfp.length + 1) st with
  | error e => rw [hr] at h; exact h
  | ok st1 => exact read_headers_clean _ _

theorem http_exchange_clean (env : Env) (st : State) :
    clean_death (http_exchange env st) = true := by
  unfold http_exchange
  split_ifs
  · rfl
  · simp only
    cases hq : (send_request st).2.2 with
    | some e =>
      have := send_request_error st e hq
      subst this
      rfl
    | none => exact read_reply_clean env _

theorem http_attempt_clean (env : Env) (st : State) :
    clean_death (http_attempt env st) = true := by
  unfold http_attempt
  simp only
  split_ifs
  · exact clean_death_die _ _
  · exact http_exchange_clean env _

theorem http_loop_clean (env : Env) : ∀ (fuel : Nat) (st : State),
    clean_death (http_loop env fuel st) = true := by
  intro fuel
  induction fuel with
  | zero => intro st; rfl
  | succ fuel ih =>
    intro st
    unfold http_loop
    have h := http_attempt_clean env st
    cases hr : http_attempt env st with
    | error e => rw [hr] at h; exact h
    | ok st1 =>
      simp only
      split_ifs
      · exact ih st1
      · rfl

/-- Where the code raises the error through `close_delete_and_die` ("too
many redirections", "no response from server", "server returned error",
"server wants to do ... transfer encoding"), the HTTP session ends with the
output file removed, unless the output is the standard output or a resume is
in progress. -/
theorem http_session_cleanup (env : Env) (a : Start) (e : Fatal) (st : State)
    (h : http_session env a = Except.error (e, st))
    (he : raised_with_cleanup e = true) (ho : st.output = Sink.file)
    (hc : st.do_continue = 0) : st.outfile = none := by
  have := http_loop_clean env 5 (start_state a)
  unfold http_session at h
  rw [h] at this
  simp [clean_death, he, cleaned_up, ho, hc] at this
  exact this

/-- C13 (failing inputs): a header line without colon and a redirect to an
address that is neither http nor ftp end the process with the output file
still there (created empty by `wget_main`), although no resume is in
progress. -/
theorem error_without_cleanup :
    fatal_of (http_session server_bad_header plain_start)
      = some (Fatal.bad_header_line "content Length 5\r\n".toList) ∧
    (final_state (http_session server_bad_header plain_start)).output = Sink.file ∧
    (final_state (http_session server_bad_header plain_start)).do_continue = 0 ∧
    (final_state (http_session server_bad_header plain_start)).outfile = some [] ∧
    fatal_of (http_session server_https plain_start)
      = some (Fatal.not_http_or_ftp "https://host/file".toList) ∧
    (final_state (http_session server_https plain_start)).output = Sink.file ∧
    (final_state (http_session server_https plain_start)).do_continue = 0 ∧
    (final_state (http_session server_https plain_start)).outfile = some [] := by
  decide

/-! ## `parse_url`: the three cuts (claims C14, C15, C16) -/

theorem strchr_split_some (c : Char) : ∀ (s : CStr) (r : CStr × CStr),
    strchr_split c s = some r → s = r.1 ++ c :: r.2 ∧ ∀ x ∈ r.1, x ≠ c := by
  intro s
  induction s with
  | nil => intro r h; simp [strchr_split] at h
  | cons a s ih =>
    intro r h
    unfold strchr_split at h
    by_cases ha : a = c
    · subst ha
      simp at h
      subst h
      simp
    · have hac : (a == c) = false := by simpa using ha
      rw [hac] at h
      simp only [Bool.false_eq_true, if_false] at h
      cases hs : strchr_split c s with
      | none => rw [hs] at h; simp at h
      | some r' =>
        rw [hs] at h
        simp at h
        subst h
        have := ih r' hs
        refine ⟨by simp; exact this.1, ?_⟩
        intro x hx
        simp at hx
        rcases hx with hx | hx
        · subst hx; exact ha
        · exact this.2 x hx

theorem strchr_split_eq_none (c : Char) : ∀ (s : CStr),
    strchr_split c s = none → ∀ x ∈ s, x ≠ c := by
  intro s
  induction s with
  | nil => intro _ x hx; simp at hx
  | cons a s ih =>
    intro h x hx
    unfold strchr_split at h
    by_cases ha : a = c
    · subst ha; simp at h
    · have hac : (a == c) = false := by simpa using ha
      rw [hac] at h
      simp only [Bool.false_eq_true, if_false] at h
      cases hs : strchr_split c s with
      | none =>
        simp at hx
        rcases hx with hx | hx
        · subst hx; exact ha
        · exact ih hs x hx
      | some r' => rw [hs] at h; simp at h

theorem strrchr_split_some (c : Char) : ∀ (s : CStr) (r : CStr × CStr),
    strrchr_split c s = some r → s = r.1 ++ c :: r.2 ∧ ∀ x ∈ r.2, x ≠ c := by
  intro s
  induction s with
  | nil => intro r h; simp [strrchr_split] at h
  | cons a s ih =>
    intro r h
    unfold strrchr_split at h
    cases hs : strrchr_split c s with
    | some r' =>
      rw [hs] at h
      simp at h
      subst h
      have := ih r' hs
      exact ⟨by simp; exact this.1, this.2⟩
    | none =>
      rw [hs] at h
      simp only at h
      by_cases ha : a = c
      · subst ha
        simp at h
        subst h
        refine ⟨by simp, ?_⟩
        intro x hx hxa
        subst hxa
        have : strrchr_split x s ≠ none := by
          obtain ⟨l, r, rfl⟩ := List.append_of_mem hx
          clear hs ih hx
          induction l with
          | nil =>
            simp only [List.nil_append, strrchr_split]
            cases strrchr_split x r <;> simp
          | cons b l ihl =>
            simp only [List.cons_append, strrchr_split]
            cases hq : strrchr_split x (l ++ x :: r) with
            | none => exact absurd hq ihl
            | some q => simp
        exact this hs
      · have hac : (a == c) = false := by simpa using ha
        rw [hac] at h
        simp at h

theorem strrchr_split_eq_none (c : Char) (s : CStr) (h : strrchr_split c s = none) :
    ∀ x ∈ s, x ≠ c := by
  intro x hx hxc
  subst hxc
  obtain ⟨l, r, rfl⟩ := List.append_of_mem hx
  clear hx
  induction l with
  | nil =>
    simp only [List.nil_append, strrchr_split] at h
    cases hq : strrchr_split x r with
    | none => rw [hq] at h; simp at h
    | some q => rw [hq] at h; simp at h
  | cons b l ihl =>
    rw [List.cons_append] at h
    unfold strrchr_split at h
    cases hq : strrchr_split x (l ++ x :: r) with
    | none => exact ihl hq
    | some q => rw [hq] at h; simp at h

theorem strchr_split_fst (c : Char) (s : CStr) :
    ((strchr_split c s).map (fun r => r.1)).getD s = s.takeWhile (fun x => x != c) := by
  cases h : strchr_split c s with
  | none =>
    exact (takeWhile_all _ s (fun x hx => by simpa using strchr_split_eq_none c s h x hx)).symm
  | some r =>
    have := strchr_split_some c s r h
    simp only [Option.map, Option.getD]
    rw [this.1]
    exact (takeWhile_append_stop _ r.1 r.2 c (fun x hx => by simpa using this.2 x hx) (by simp)).symm

theorem strrchr_split_snd (c : Char) (s : CStr) :
    ((strrchr_split c s).map (fun r => r.2)).getD s
      = (s.reverse.takeWhile (fun x => x != c)).reverse := by
  cases h : strrchr_split c s with
  | none =>
    simp only [Option.map, Option.getD]
    rw [takeWhile_all _ s.reverse (fun x hx => by
      simpa using strrchr_split_eq_none c s h x (List.mem_reverse.mp hx))]
    simp
  | some r =>
    have := strrchr_split_some c s r h
    simp only [Option.map, Option.getD]
    rw [this.1]
    have e : (r.1 ++ c :: r.2).reverse = r.2.reverse ++ c :: r.1.reverse := by simp
    rw [e, takeWhile_append_stop _ r.2.reverse r.1.reverse c
      (fun x hx => by simpa using this.2 x (List.mem_reverse.mp hx)) (by simp)]
    simp

/-- The fields `parse_url` computes from the text `rest` behind the scheme:
the first cut leaves the authority, the second its part `host[:port]`. -/
theorem parse_url_of_splits (f : Bool) (rest : CStr) :
    parse_url (scheme_text f ++ rest) =
      Except.ok {
        host := ((strchr_split ':' (host_port (authority rest))).map (fun r => r.1)).getD
          (host_port (authority rest)),
        port := ((strchr_split ':' (host_port (authority rest))).map (fun r => atoi r.2)).getD
          (default_port f),
        path := ((strchr_split '/' rest).map (fun r => r.2)).getD [],
        is_ftp := f,
        user := (strrchr_split '@' (authority rest)).map (fun r => r.1) } := by
  have a1 : ((strchr_split '/' rest).map (fun r => r.1)).getD rest = authority rest :=
    strchr_split_fst '/' rest
  have a2 : ((strrchr_split '@' (authority rest)).map (fun r => r.2)).getD (authority rest)
      = host_port (authority rest) := strrchr_split_snd '@' (authority rest)
  rw [← a2, ← a1]
  cases f
  · simp only [scheme_text, default_port, Bool.false_eq_true, if_false]
    rw [parse_url_http]
    cases h1 : strchr_split '/' rest <;> simp only [Option.map, Option.getD] <;>
      cases h2 : strrchr_split '@' _ <;> simp only [Option.map, Option.getD] <;>
      cases h3 : strchr_split ':' _ <;> rfl
  · simp only [scheme_text, default_port, if_true]
    rw [parse_url_ftp]
    cases h1 : strchr_split '/' rest <;> simp only [Option.map, Option.getD] <;>
      cases h2 : strrchr_split '@' _ <;> simp only [Option.map, Option.getD] <;>
      cases h3 : strchr_split ':' _ <;> rfl

theorem parse_url_cases (url : CStr) :
    (("http://".toList <+: url) ∧ url = scheme_text false ++ url.drop 7) ∨
    (¬ ("http://".toList <+: url) ∧ ("ftp://".toList <+: url) ∧ url = scheme_text true ++ url.drop 6) ∨
    (¬ ("http://".toList <+: url) ∧ ¬ ("ftp://".toList <+: url) ∧
      parse_url url = Except.error (Fatal.not_http_or_ftp url)) := by
  have p1 : ("http://".toList <+: url) ↔ url.take 7 = "http://".toList := by
    rw [List.prefix_iff_eq_take]
    exact ⟨fun h => h.symm, fun h => h.symm⟩
  have p2 : ("ftp://".toList <+: url) ↔ url.take 6 = "ftp://".toList := by
    rw [List.prefix_iff_eq_take]
    exact ⟨fun h => h.symm, fun h => h.symm⟩
  by_cases h1 : url.take 7 = "http://".toList
  · left
    refine ⟨p1.mpr h1, ?_⟩
    have := List.take_append_drop 7 url
    rw [h1] at this
    exact this.symm
  · by_cases h2 : url.take 6 = "ftp://".toList
    · right; left
      refine ⟨fun h => h1 (p1.mp h), p2.mpr h2, ?_⟩
      have := List.take_append_drop 6 url
      rw [h2] at this
      exact this.symm
    · right; right
      refine ⟨fun h => h1 (p1.mp h), fun h => h2 (p2.mp h), ?_⟩
      unfold parse_url
      have e1 : (url.take 7 == "http://".toList) = false := by simpa using h1
      have e2 : (url.take 6 == "ftp://".toList) = false := by simpa using h2
      simp only [e1, e2, Bool.false_eq_true, if_false]

/-- On a text with a scheme, `parse_url` succeeds; the tag is that of the
scheme, and the port is the default one when the part `host[:port]` of the
authority has no `:`. -/
theorem parse_url_tag (f : Bool) (rest : CStr) :
    ∃ h, parse_url (scheme_text f ++ rest) = Except.ok h ∧ h.is_ftp = f ∧
      (':' ∉ host_port (authority rest) → h.port = default_port f) := by
  refine ⟨_, parse_url_of_splits f rest, rfl, ?_⟩
  intro hc
  have : strchr_split ':' (host_port (authority rest)) = none :=
    strchr_split_none ':' _ (fun x hx hxc => hc (hxc ▸ hx))
  simp only [this]
  rfl

/-- C15: `parse_url` dies, with "not an http or ftp url" and the text it was
given, exactly when the text begins with neither `http://` nor `ftp://`; on
a text that begins with `http://` it succeeds with the tag http and, no port
being given, the port 80; on a text that begins with `ftp://` it succeeds
with the tag ftp and, no port being given, the port 21. -/
theorem parse_url_scheme (url : CStr) :
    ((∃ e, parse_url url = Except.error e) ↔
      (¬ ("http://".toList <+: url) ∧ ¬ ("ftp://".toList <+: url))) ∧
    (∀ e, parse_url url = Except.error e → e = Fatal.not_http_or_ftp url) ∧
    (("http://".toList <+: url) → ∃ h, parse_url url = Except.ok h ∧ h.is_ftp = false ∧
      (':' ∉ host_port (authority (url.drop 7)) → h.port = 80)) ∧
    (("ftp://".toList <+: url) → ∃ h, parse_url url = Except.ok h ∧ h.is_ftp = true ∧
      (':' ∉ host_port (authority (url.drop 6)) → h.port = 21)) := by
  have hc := parse_url_cases url
  have t1 := parse_url_tag false (url.drop 7)
  have t2 := parse_url_tag true (url.drop 6)
  refine ⟨⟨?_, ?_⟩, fun e he => parse_url_error url e he, ?_, ?_⟩
  · rintro ⟨e, he⟩
    rcases hc with ⟨_, h⟩ | ⟨_, _, h⟩ | ⟨h1, h2, _⟩
    · obtain ⟨h', hp, _⟩ := t1
      rw [← h, he] at hp
      cases hp
    · obtain ⟨h', hp, _⟩ := t2
      rw [← h, he] at hp
      cases hp
    · exact ⟨h1, h2⟩
  · rintro ⟨h1, h2⟩
    rcases hc with ⟨h, _⟩ | ⟨_, h, _⟩ | ⟨_, _, h⟩
    · exact absurd h h1
    · exact absurd h h2
    · exact ⟨_, h⟩
  · intro hp
    rcases hc with ⟨_, h⟩ | ⟨h, _⟩ | ⟨h, _⟩
    · rw [← h] at t1
      exact t1
    · exact absurd hp h
    · exact absurd hp h
  · intro hp
    rcases hc with ⟨_, h⟩ | ⟨_, _, h⟩ | ⟨_, h, _⟩
    · exfalso
      rw [h] at hp
      have h6 := List.prefix_iff_eq_take.mp hp
      revert h6
      simp [scheme_text]
    · rw [← h] at t2
      exact t2
    · exact absurd hp h

theorem parse_url_scheme_witness :
    (∃ h, parse_url "ftp://host/path".toList = Except.ok h ∧ h.is_ftp = true ∧
      (':' ∉ host_port (authority ("ftp://host/path".toList.drop 6)) → h.port = 21)) ∧
    ':' ∉ host_port (authority ("ftp://host/path".toList.drop 6)) :=
  ⟨(parse_url_scheme "ftp://host/path".toList).2.2.2 (by decide), by decide⟩

/-! ## The credentials end at the last `@` (claim C14) -/

theorem slash_split (auth : CStr) (path : Option CStr) (ha : ∀ x ∈ auth, x ≠ '/') :
    strchr_split '/' (auth ++ slash_text path) = path.map (fun p => (auth, p)) ∧
    authority (auth ++ slash_text path) = auth := by
  cases path with
  | none =>
    simp only [slash_text, List.append_nil, Option.map]
    exact ⟨strchr_split_none '/' auth ha,
      takeWhile_all _ auth (fun x hx => by simpa using ha x hx)⟩
  | some p =>
    simp only [slash_text, Option.map]
    exact ⟨strchr_split_append '/' auth p ha,
      takeWhile_append_stop _ auth p '/' (fun x hx => by simpa using ha x hx) (by simp)⟩

theorem colon_split (host : CStr) (pt : Option CStr) (hh : ∀ x ∈ host, x ≠ ':') :
    strchr_split ':' (host ++ colon_text pt) = pt.map (fun t => (host, t)) := by
  cases pt with
  | none =>
    simp only [colon_text, List.append_nil, Option.map]
    exact strchr_split_none ':' host hh
  | some t =>
    simp only [colon_text, Option.map]
    exact strchr_split_append ':' host t hh

theorem colon_text_no_char (pt : Option CStr) (c : Char) (hc : c ≠ ':')
    (hp : ∀ t, pt = some t → ∀ x ∈ t, x ≠ c) : ∀ x ∈ colon_text pt, x ≠ c := by
  intro x hx
  cases pt with
  | none => simp [colon_text] at hx
  | some t =>
    simp only [colon_text, List.mem_cons] at hx
    rcases hx with hx | hx
    · subst hx; exact fun h => hc h.symm
    · exact hp t rfl x hx

/-- C14, amended: in an address whose authority is `cred@host[:port]`, the
host containing no `@`, the credentials `cred` are the text in front of the
last `@` of the authority (they may contain `@` themselves) and the host is
the text behind that `@`, up to the optional `:port`; the port is the
default one of the scheme without a `:port`, else the value `atoi` gives
the port text, which is `p` for a decimal numeral of `p ≤ 2147483647`. -/
theorem parse_url_last_at (f : Bool) (cred host : CStr) (pt path : Option CStr)
    (hc : ∀ x ∈ cred, x ≠ '/')
    (hh : ∀ x ∈ host, x ≠ '/' ∧ x ≠ '@' ∧ x ≠ ':')
    (hp : ∀ t, pt = some t → ∀ x ∈ t, x ≠ '/' ∧ x ≠ '@') :
    ∃ h, parse_url (scheme_text f ++ ((cred ++ '@' :: (host ++ colon_text pt)) ++ slash_text path))
        = Except.ok h ∧
      h.user = some cred ∧ h.host = host ∧ h.path = path.getD [] ∧ h.is_ftp = f ∧
      (pt = none → h.port = default_port f) ∧
      (∀ t, pt = some t → h.port = atoi t) ∧
      (∀ p : Nat, p ≤ 2147483647 → pt = some (dec p) → h.port = (p : Int)) := by
  have hhp : ∀ x ∈ host ++ colon_text pt, x ≠ '@' ∧ x ≠ '/' := by
    intro x hx
    rcases List.mem_append.mp hx with h | h
    · exact ⟨(hh x h).2.1, (hh x h).1⟩
    · exact ⟨colon_text_no_char pt '@' (by decide) (fun t ht y hy => (hp t ht y hy).2) x h,
        colon_text_no_char pt '/' (by decide) (fun t ht y hy => (hp t ht y hy).1) x h⟩
  have hauth : ∀ x ∈ cred ++ '@' :: (host ++ colon_text pt), x ≠ '/' := by
    intro x hx
    simp only [List.mem_append, List.mem_cons] at hx
    rcases hx with h | h | h
    · exact hc x h
    · subst h; decide
    · exact (hhp x (List.mem_append.mpr h)).2
  have s1 := slash_split (cred ++ '@' :: (host ++ colon_text pt)) path hauth
  have s2 : strrchr_split '@' (cred ++ '@' :: (host ++ colon_text pt))
      = some (cred, host ++ colon_text pt) :=
    strrchr_split_append '@' cred _ (fun x hx => (hhp x hx).1)
  have s3 := colon_split host pt (fun x hx => (hh x hx).2.2)
  have hhost : host_port (cred ++ '@' :: (host ++ colon_text pt)) = host ++ colon_text pt := by
    have := strrchr_split_snd '@' (cred ++ '@' :: (host ++ colon_text pt))
    rw [s2] at this
    exact this.symm
  refine ⟨_, parse_url_of_splits f _, ?_, ?_, ?_, rfl, ?_, ?_, ?_⟩
  · simp only [s1.2, s2, Option.map]
  · simp only [s1.2, hhost, s3]
    cases pt <;> simp [colon_text]
  · simp only [s1.1]
    cases path <;> rfl
  · intro hn
    subst hn
    simp only [s1.2, hhost, s3]
    rfl
  · intro t ht
    subst ht
    simp only [s1.2, hhost, s3]
    rfl
  · intro p hpm ht
    subst ht
    simp only [s1.2, hhost, s3]
    exact atoi_dec_port p hpm

/-- C14 as stated fails: in `ftp://a@b@host:99/path` the text in front of the
first `@` is `a` and the text behind it `b@host`, but `parse_url` gives the
user `a@b` and the host `host`. -/
theorem parse_url_first_at_loses :
    parse_url "ftp://a@b@host:99/path".toList =
      Except.ok { host := "host".toList, port := 99, path := "path".toList, is_ftp := true,
                  user := some "a@b".toList } ∧
    "a@b".toList ≠ "a".toList ∧ "host".toList ≠ "b@host".toList :=
  ⟨rfl, by decide, by decide⟩

theorem parse_url_last_at_witness :
    ∃ h, parse_url "ftp://a@b@host:99/path".toList = Except.ok h ∧
      h.user = some "a@b".toList ∧ h.host = "host".toList ∧ h.path = "path".toList ∧
      h.is_ftp = true ∧ h.port = 99 := by
  obtain ⟨h, h1, h2, h3, h4, h5, _, h7, _⟩ :=
    parse_url_last_at true "a@b".toList "host".toList (some "99".toList) (some "path".toList)
      (by decide) (by decide) (by intro t ht; cases ht; decide)
  exact ⟨h, h1, h2, h3, h4, h5, by rw [h7 _ rfl]; decide⟩

theorem takeWhile_take (p : Char → Bool) : ∀ (i : Nat) (l : List Char),
    (l.take i).takeWhile p = (l.takeWhile p).take i := by
  intro i
  induction i with
  | zero => intro l; simp
  | succ i ih =>
    intro l
    cases l with
    | nil => simp
    | cons a l =>
      by_cases ha : p a = true
      · simp [List.takeWhile, ha, ih]
      · simp [List.takeWhile, ha]

theorem cstr_poke_nul (m : List Char) (i : Nat) : cstr (poke m i NUL) = (cstr m).take i := by
  unfold cstr poke
  rw [takeWhile_append_of_stop _ _ _ NUL (by decide), takeWhile_take]

theorem take_append_length (l r : List Char) (k : Nat) (hk : k = l.length) :
    (l ++ r).take k = l := by
  subst hk; simp

theorem take_append_ge (l : List Char) (k : Nat) (hk : l.length ≤ k) : l.take k = l :=
  List.take_of_length_le hk

/-- The string left in the URL buffer by `parse_url`: the scheme and the text
up to the first NUL written, which is the user if there is one and else the
host. -/
theorem parse_url_mem_cstr (f : Bool) (m : List Char) (rest : CStr)
    (hu : cstr m = scheme_text f ++ rest) :
    cstr (parse_url_mem m) = scheme_text f ++
      ((strrchr_split '@' (authority rest)).map (fun r => r.1)).getD
        (((strchr_split ':' (host_port (authority rest))).map (fun r => r.1)).getD
          (host_port (authority rest))) := by
  have a1 : ((strchr_split '/' rest).map (fun r => r.1)).getD rest = authority rest :=
    strchr_split_fst '/' rest
  have a2 : ((strrchr_split '@' (authority rest)).map (fun r => r.2)).getD (authority rest)
      = host_port (authority rest) := strrchr_split_snd '@' (authority rest)
  have hk : ∃ k, k = (scheme_text f).length ∧
      ((if (scheme_text f ++ rest).take 7 == "http://".toList then some 7
        else if (scheme_text f ++ rest).take 6 == "ftp://".toList then some 6
        else none) = some k) ∧ (scheme_text f ++ rest).drop k = rest := by
    cases f
    · exact ⟨7, rfl, rfl, rfl⟩
    · exact ⟨6, rfl, rfl, rfl⟩
  obtain ⟨k, hk1, hk2, hk3⟩ := hk
  unfold parse_url_mem
  rw [hu]
  simp only [hk2, hk3]
  rw [← a2, ← a1]
  cases h1 : strchr_split '/' rest with
  | none =>
    simp only [Option.map, Option.getD]
    cases h2 : strrchr_split '@' rest with
    | none =>
      simp only [Option.map, Option.getD]
      cases h3 : strchr_split ':' rest with
      | none =>
        simp only [Option.map, Option.getD]
        exact hu
      | some r3 =>
        simp only [Option.map, Option.getD]
        have d3 := (strchr_split_some ':' rest r3 h3).1
        rw [cstr_poke_nul, hu]
        conv_lhs => rw [d3]
        rw [← List.append_assoc]
        exact take_append_length _ _ _ (by simp [hk1])
    | some r2 =>
      simp only [Option.map, Option.getD]
      have d2 := (strrchr_split_some '@' rest r2 h2).1
      cases h3 : strchr_split ':' r2.2 with
      | none =>
        simp only [Option.map, Option.getD]
        rw [cstr_poke_nul, hu]
        conv_lhs => rw [d2]
        rw [← List.append_assoc]
        exact take_append_length _ _ _ (by simp [hk1])
      | some r3 =>
        simp only [Option.map, Option.getD]
        rw [cstr_poke_nul, cstr_poke_nul, hu]
        conv_lhs => rw [d2]
        rw [← List.append_assoc, take_append_length _ _ _ (by simp [hk1])]
        exact take_append_ge _ _ (by simp [hk1]; omega)
  | some r1 =>
    simp only [Option.map, Option.getD]
    have d1 := (strchr_split_some '/' rest r1 h1).1
    have c1 : cstr (poke m (k + r1.1.length) NUL) = scheme_text f ++ r1.1 := by
      rw [cstr_poke_nul, hu]
      conv_lhs => rw [d1]
      rw [← List.append_assoc]
      exact take_append_length _ _ _ (by simp [hk1])
    cases h2 : strrchr_split '@' r1.1 with
    | none =>
      simp only [Option.map, Option.getD]
      cases h3 : strchr_split ':' r1.1 with
      | none =>
        simp only [Option.map, Option.getD]
        exact c1
      | some r3 =>
        simp only [Option.map, Option.getD]
        have d3 := (strchr_split_some ':' r1.1 r3 h3).1
        rw [cstr_poke_nul, c1]
        conv_lhs => rw [d3]
        rw [← List.append_assoc]
        exact take_append_length _ _ _ (by simp [hk1])
    | some r2 =>
      simp only [Option.map, Option.getD]
      have d2 := (strrchr_split_some '@' r1.1 r2 h2).1
      cases h3 : strchr_split ':' r2.2 with
      | none =>
        simp only [Option.map, Option.getD]
        rw [cstr_poke_nul, c1]
        conv_lhs => rw [d2]
        rw [← List.append_assoc]
        exact take_append_length _ _ _ (by simp [hk1])
      | some r3 =>
        simp only [Option.map, Option.getD]
        rw [cstr_poke_nul, cstr_poke_nul, c1]
        conv_lhs => rw [d2]
        rw [← List.append_assoc, take_append_length _ _ _ (by simp [hk1])]
        exact take_append_ge _ _ (by simp [hk1]; omega)

theorem authority_no_slash_mem (rest : CStr) : ∀ x ∈ authority rest, x ≠ '/' := by
  intro x hx
  have := List.mem_takeWhile_imp hx
  simpa using this

theorem authority_of_no_slash (s : CStr) (hs : ∀ x ∈ s, x ≠ '/') : authority s = s :=
  takeWhile_all _ s (fun x hx => by simpa using hs x hx)

theorem host_port_no_at (auth : CStr) : ∀ x ∈ host_port auth, x ≠ '@' := by
  intro x hx
  unfold host_port at hx
  have := List.mem_takeWhile_imp (List.mem_reverse.mp hx)
  simpa using this

theorem host_port_subset (auth : CStr) : ∀ x ∈ host_port auth, x ∈ auth := by
  intro x hx
  unfold host_port at hx
  exact List.mem_reverse.mp ((List.takeWhile_sublist _).subset (List.mem_reverse.mp hx))

theorem host_port_of_no_at (s : CStr) (hs : ∀ x ∈ s, x ≠ '@') : host_port s = s := by
  unfold host_port
  rw [takeWhile_all _ s.reverse (fun x hx => by simpa using hs x (List.mem_reverse.mp hx))]
  simp

/-- `parse_url` on `scheme://host` for a host free of `/`, `@` and `:`. -/
theorem parse_url_bare (f : Bool) (host : CStr) (hh : ∀ x ∈ host, x ≠ '/' ∧ x ≠ '@' ∧ x ≠ ':') :
    parse_url (scheme_text f ++ host) =
      Except.ok { host := host, port := default_port f, path := [], is_ftp := f, user := none } := by
  rw [parse_url_of_splits f host, authority_of_no_slash host (fun x hx => (hh x hx).1),
    host_port_of_no_at host (fun x hx => (hh x hx).2.1),
    strchr_split_none ':' host (fun x hx => (hh x hx).2.2),
    strchr_split_none '/' host (fun x hx => (hh x hx).1),
    strrchr_split_none '@' host (fun x hx => (hh x hx).2.1)]
  rfl

/-- C16, amended: `parse_url` cuts the URL buffer in place, so a second call
on the same buffer parses the text `scheme://X`, where `X` is the user the
first call found and, without a user, its host; the second call gives the
fields of the first if and only if the first found no user, an empty path
and the default port of the scheme. -/
theorem parse_url_reparse (m : List Char) (h : host_info)
    (hp : parse_url (cstr m) = Except.ok h) :
    parse_url (cstr (parse_url_mem m))
      = parse_url (scheme_text h.is_ftp ++ h.user.getD h.host) ∧
    (parse_url (cstr (parse_url_mem m)) = Except.ok h ↔
      h.user = none ∧ h.path = [] ∧ h.port = default_port h.is_ftp) := by
  have key : ∃ f rest, cstr m = scheme_text f ++ rest := by
    rcases parse_url_cases (cstr m) with ⟨_, e⟩ | ⟨_, _, e⟩ | ⟨_, _, e⟩
    · exact ⟨false, _, e⟩
    · exact ⟨true, _, e⟩
    · rw [e] at hp; cases hp
  obtain ⟨f, rest, hu⟩ := key
  have hs := parse_url_of_splits f rest
  rw [← hu, hp] at hs
  have hh := Except.ok.inj hs
  have hmem := parse_url_mem_cstr f m rest hu
  have hf : h.is_ftp = f := by rw [hh]
  have huser : h.user = (strrchr_split '@' (authority rest)).map (fun r => r.1) := by rw [hh]
  have hhost : h.host = ((strchr_split ':' (host_port (authority rest))).map (fun r => r.1)).getD
      (host_port (authority rest)) := by rw [hh]
  have e1 : cstr (parse_url_mem m) = scheme_text h.is_ftp ++ h.user.getD h.host := by
    rw [hmem, hf, huser, hhost]
  refine ⟨by rw [e1], ?_⟩
  rw [e1, hf]
  have hhost_mem : ∀ x ∈ h.host, x ≠ '/' ∧ x ≠ '@' ∧ x ≠ ':' := by
    intro x hx
    rw [hhost] at hx
    cases h3 : strchr_split ':' (host_port (authority rest)) with
    | none =>
      rw [h3] at hx
      simp only [Option.map, Option.getD] at hx
      exact ⟨authority_no_slash_mem rest x (host_port_subset _ x hx), host_port_no_at _ x hx,
        strchr_split_eq_none ':' _ h3 x hx⟩
    | some r3 =>
      rw [h3] at hx
      simp only [Option.map, Option.getD] at hx
      have d3 := strchr_split_some ':' _ r3 h3
      have hx2 : x ∈ host_port (authority rest) := by
        rw [d3.1]; exact List.mem_append_left _ hx
      exact ⟨authority_no_slash_mem rest x (host_port_subset _ x hx2), host_port_no_at _ x hx2,
        d3.2 x hx⟩
  cases h2 : strrchr_split '@' (authority rest) with
  | none =>
    have hun : h.user = none := by rw [huser, h2]; rfl
    rw [hun]
    simp only [Option.getD]
    rw [parse_url_bare f h.host hhost_mem]
    constructor
    · intro he
      have := Except.ok.inj he
      refine ⟨trivial, ?_, ?_⟩
      · rw [← this]
      · rw [← this]
    · rintro ⟨_, hpath, hport⟩
      congr 1
      cases h with
      | mk host port path is_ftp user =>
        simp only at hf hun hpath hport
        subst hf; subst hun; subst hpath; subst hport
        rfl
  | some r2 =>
    have hus : h.user = some r2.1 := by rw [huser, h2]; rfl
    rw [hus]
    simp only [Option.getD]
    have d2 := strrchr_split_some '@' _ r2 h2
    have hu1 : ∀ x ∈ r2.1, x ≠ '/' := by
      intro x hx
      apply authority_no_slash_mem rest x
      rw [d2.1]
      exact List.mem_append_left _ hx
    constructor
    · intro he
      exfalso
      rw [parse_url_of_splits f r2.1, authority_of_no_slash r2.1 hu1] at he
      have := Except.ok.inj he
      have hu2 : (strrchr_split '@' r2.1).map (fun r => r.1) = some r2.1 := by
        rw [← hus, ← this]
      cases h4 : strrchr_split '@' r2.1 with
      | none => rw [h4] at hu2; cases hu2
      | some r4 =>
        rw [h4] at hu2
        simp only [Option.map, Option.some.injEq] at hu2
        have d4 := (strrchr_split_some '@' _ r4 h4).1
        have := congrArg List.length d4
        rw [hu2, List.length_append, List.length_cons] at this
        omega
    · rintro ⟨hn, _, _⟩
      cases hn

theorem parse_url_reparse_witness :
    parse_url (cstr (parse_url_mem ("http://user@host:8080/path".toList ++ [NUL])))
      = parse_url "http://user".toList ∧
    (parse_url (cstr (parse_url_mem ("http://user@host:8080/path".toList ++ [NUL])))
        = Except.ok { host := "host".toList, port := 8080, path := "path".toList,
                      is_ftp := false, user := some "user".toList } ↔
      (some "user".toList : Option CStr) = none ∧ "path".toList = [] ∧ (8080 : Int) = 80) :=
  parse_url_reparse ("http://user@host:8080/path".toList ++ [NUL])
    { host := "host".toList, port := 8080, path := "path".toList, is_ftp := false,
      user := some "user".toList } rfl

/-- C16 as stated fails: `http://host/path` is a valid URL, the first call
gives the path `path` and leaves `http://host` in the buffer, from which the
second call gets an empty path. -/
theorem parse_url_twice_differs :
    parse_url (cstr ("http://host/path".toList ++ [NUL])) =
      Except.ok { host := "host".toList, port := 80, path := "path".toList, is_ftp := false,
                  user := none } ∧
    parse_url_mem ("http://host/path".toList ++ [NUL])
      = "http://host".toList ++ NUL :: "path".toList ++ [NUL] ∧
    parse_url (cstr (parse_url_mem ("http://host/path".toList ++ [NUL]))) =
      Except.ok { host := "host".toList, port := 80, path := [], is_ftp := false,
                  user := none } ∧
    "path".toList ≠ [] :=
  ⟨rfl, by decide, rfl, by decide⟩

/-! ## `base64enc` and the encoding of RFC 4648 (claims C17, C18) -/

theorem al_b64_char : ∀ i, i < 64 → al.getD i NUL = b64_char i := by decide

theorem b64_char_ne_nul : ∀ i, i < 64 → b64_char i ≠ NUL := by decide

theorem bits_hi6 : ∀ a, a < 256 → (a >>> 2) &&& 0x3F = a / 4 := by decide

theorem bits_lo2 : ∀ a, a < 256 → (a <<< 4) &&& 0x30 = a % 4 * 16 := by decide

theorem bits_hi4 : ∀ a, a < 256 → (a >>> 4) &&& 0x0F = a / 16 := by decide

theorem bits_lo4 : ∀ a, a < 256 → (a <<< 2) &&& 0x3C = a % 16 * 4 := by decide

theorem bits_hi2 : ∀ a, a < 256 → (a >>> 6) &&& 0x03 = a / 64 := by decide

theorem bits_lo6 : ∀ a, a < 256 → a &&& 0x3F = a % 64 := by decide

theorem bits_or_16 : ∀ x, x < 4 → ∀ y, y < 16 → (x * 16) ||| y = x * 16 + y := by decide

theorem bits_or_4 : ∀ x, x < 16 → ∀ y, y < 4 → (x * 4) ||| y = x * 4 + y := by decide

theorem enc_idx1 (a : Nat) (ha : a < 256) : al.getD ((a >>> 2) &&& 0x3F) NUL = b64_char (a / 4) := by
  rw [bits_hi6 a ha, al_b64_char _ (by omega)]

theorem enc_idx2 (a b : Nat) (ha : a < 256) (hb : b < 256) :
    al.getD (((a <<< 4) &&& 0x30) ||| ((b >>> 4) &&& 0x0F)) NUL = b64_char (a % 4 * 16 + b / 16) := by
  rw [bits_lo2 a ha, bits_hi4 b hb, bits_or_16 _ (by omega) _ (by omega), al_b64_char _ (by omega)]

theorem enc_idx3 (b c : Nat) (hb : b < 256) (hc : c < 256) :
    al.getD (((b <<< 2) &&& 0x3C) ||| ((c >>> 6) &&& 0x03)) NUL = b64_char (b % 16 * 4 + c / 64) := by
  rw [bits_lo4 b hb, bits_hi2 c hc, bits_or_4 _ (by omega) _ (by omega), al_b64_char _ (by omega)]

theorem enc_idx4 (c : Nat) (hc : c < 256) : al.getD (c &&& 0x3F) NUL = b64_char (c % 64) := by
  rw [bits_lo6 c hc, al_b64_char _ (by omega)]

theorem poke_append (pre rest : List Char) (j : Nat) (c : Char) :
    poke (pre ++ rest) (pre.length + j) c = pre ++ poke rest j c := by
  unfold poke
  rw [List.take_append, Nat.add_assoc, List.drop_append, List.append_assoc]

theorem poke_append_zero (pre rest : List Char) (c : Char) :
    poke (pre ++ rest) pre.length c = pre ++ poke rest 0 c := poke_append pre rest 0 c

theorem poke_zero (x c : Char) (t : List Char) : poke (x :: t) 0 c = c :: t := rfl

theorem poke_succ (x c : Char) (t : List Char) (j : Nat) :
    poke (x :: t) (j + 1) c = x :: poke t j c := rfl

theorem length_ge_five (l : List Char) (h : 5 ≤ l.length) :
    ∃ r0 r1 r2 r3 r4 t, l = r0 :: r1 :: r2 :: r3 :: r4 :: t := by
  match l, h with
  | r0 :: r1 :: r2 :: r3 :: r4 :: t, _ => exact ⟨r0, r1, r2, r3, r4, t, rfl⟩

theorem rfc4648_length : ∀ (n : Nat) (p : List Char), p.length ≤ n →
    (rfc4648 p).length = 4 * ((p.length + 2) / 3) := by
  intro n
  induction n using Nat.strong_induction_on with
  | _ n ih =>
    intro p hn
    match p, hn with
    | [], _ => rfl
    | [a], _ => simp [rfc4648]
    | [a, b], _ => simp [rfc4648]
    | a :: b :: c :: r, hn =>
      simp only [rfc4648, List.length_cons] at hn ⊢
      rw [ih r.length (by omega) r (le_refl _)]
      omega

theorem rfc4648_no_nul : ∀ (n : Nat) (p : List Char), p.length ≤ n →
    (∀ c ∈ p, c.toNat < 256) → ∀ x ∈ rfc4648 p, x ≠ NUL := by
  intro n
  induction n using Nat.strong_induction_on with
  | _ n ih =>
    intro p hn hb x hx
    have hpad : ('=' : Char) ≠ NUL := by decide
    match p, hn, hb, hx with
    | [], _, _, hx => simp [rfc4648] at hx
    | [a], _, hb, hx =>
      have ha := hb a (by simp)
      simp only [rfc4648, List.mem_cons, List.mem_singleton, List.not_mem_nil, or_false] at hx
      rcases hx with h | h | h | h
      · rw [h]; exact b64_char_ne_nul _ (by omega)
      · rw [h]; exact b64_char_ne_nul _ (by omega)
      · rw [h]; exact hpad
      · rw [h]; exact hpad
    | [a, b], _, hb, hx =>
      have ha := hb a (by simp)
      have hb' := hb b (by simp)
      simp only [rfc4648, List.mem_cons, List.mem_singleton, List.not_mem_nil, or_false] at hx
      rcases hx with h | h | h | h
      · rw [h]; exact b64_char_ne_nul _ (by omega)
      · rw [h]; exact b64_char_ne_nul _ (by omega)
      · rw [h]; exact b64_char_ne_nul _ (by omega)
      · rw [h]; exact hpad
    | a :: b :: c :: r, hn, hb, hx =>
      have ha := hb a (by simp)
      have hb' := hb b (by simp)
      have hc := hb c (by simp)
      simp only [rfc4648, List.mem_cons] at hx
      rcases hx with h | h | h | h | h
      · rw [h]; exact b64_char_ne_nul _ (by omega)
      · rw [h]; exact b64_char_ne_nul _ (by omega)
      · rw [h]; exact b64_char_ne_nul _ (by omega)
      · rw [h]; exact b64_char_ne_nul _ (by omega)
      · exact ih r.length (by simp at hn; omega) r (le_refl _)
          (fun y hy => hb y (by simp [hy])) x h

/-- The loop of `base64enc` on a non-empty string of bytes whose encoding
fits: it writes the encoding of RFC 4648 and a NUL at the offset `s`. -/
theorem base64enc_loop_rfc (len : Int) : ∀ (n : Nat) (p : CStr) (pre rest : List Char),
    p.length ≤ n → p ≠ [] → (∀ c ∈ p, c.toNat < 256) →
    ((pre.length + (rfc4648 p).length + 1 : Nat) : Int) ≤ len →
    (rfc4648 p).length + 1 ≤ rest.length →
    base64enc_loop len p (pre ++ rest) pre.length
      = Except.ok (pre ++ (rfc4648 p ++ NUL :: rest.drop ((rfc4648 p).length + 1))) := by
  intro n
  induction n using Nat.strong_induction_on with
  | _ n ih =>
    intro p pre rest hn hne hb hfit hrest
    have hz : NUL.toNat = 0 := rfl
    match p, hn, hne, hb, hfit, hrest with
    | [], _, hne, _, _, _ => exact absurd rfl hne
    | [c0], _, _, hb, hfit, hrest =>
      have h0 := hb c0 (by simp)
      obtain ⟨r0, r1, r2, r3, r4, t, rfl⟩ := length_ge_five rest (by simpa [rfc4648] using hrest)
      have hlt : ¬ ((pre.length : Int) ≥ len - 4) := by
        simp only [rfc4648, List.length_cons, List.length_nil] at hfit
        push_cast at hfit
        omega
      simp only [base64enc_loop, hlt, if_false]
      rw [enc_idx1 _ h0, enc_idx2 _ _ h0 (by rw [hz]; omega), hz]
      simp only [poke_append_zero, poke_append, poke_zero, poke_succ, rfc4648]
      simp
    | [c0, c1], _, _, hb, hfit, hrest =>
      have h0 := hb c0 (by simp)
      have h1 := hb c1 (by simp)
      obtain ⟨r0, r1, r2, r3, r4, t, rfl⟩ := length_ge_five rest (by simpa [rfc4648] using hrest)
      have hlt : ¬ ((pre.length : Int) ≥ len - 4) := by
        simp only [rfc4648, List.length_cons, List.length_nil] at hfit
        push_cast at hfit
        omega
      simp only [base64enc_loop, hlt, if_false]
      rw [enc_idx1 _ h0, enc_idx2 _ _ h0 h1, enc_idx3 _ _ h1 (by rw [hz]; omega), hz]
      simp only [poke_append_zero, poke_append, poke_zero, poke_succ, rfc4648]
      simp
    | c0 :: c1 :: c2 :: p, hn, _, hb, hfit, hrest =>
      have h0 := hb c0 (by simp)
      have h1 := hb c1 (by simp)
      have h2 := hb c2 (by simp)
      have hl4 : (rfc4648 (c0 :: c1 :: c2 :: p)).length = 4 + (rfc4648 p).length := by
        simp only [rfc4648, List.length_cons]; omega
      obtain ⟨r0, r1, r2, r3, r4, t, rfl⟩ := length_ge_five rest (by omega)
      have hlt : ¬ ((pre.length : Int) ≥ len - 4) := by
        rw [hl4] at hfit
        push_cast at hfit
        omega
      simp only [base64enc_loop, hlt, if_false]
      rw [enc_idx1 _ h0, enc_idx2 _ _ h0 h1, enc_idx3 _ _ h1 h2, enc_idx4 _ h2]
      simp only [poke_append_zero, poke_append, poke_zero, poke_succ]
      by_cases hp : p = []
      · subst hp
        simp [base64enc_loop, rfc4648]
      · have e : pre ++ b64_char (c0.toNat / 4) :: b64_char (c0.toNat % 4 * 16 + c1.toNat / 16)
            :: b64_char (c1.toNat % 16 * 4 + c2.toNat / 64) :: b64_char (c2.toNat % 64) :: NUL :: t
            = (pre ++ [b64_char (c0.toNat / 4), b64_char (c0.toNat % 4 * 16 + c1.toNat / 16),
                b64_char (c1.toNat % 16 * 4 + c2.toNat / 64), b64_char (c2.toNat % 64)])
              ++ NUL :: t := by simp
        have el : pre.length + 4 = (pre ++ [b64_char (c0.toNat / 4),
            b64_char (c0.toNat % 4 * 16 + c1.toNat / 16),
            b64_char (c1.toNat % 16 * 4 + c2.toNat / 64), b64_char (c2.toNat % 64)]).length := by
          simp
        rw [e, el]
        rw [ih p.length (by simp at hn; omega) p _ (NUL :: t) (le_refl _) hp
          (fun y hy => hb y (by simp [hy]))
          (by
            rw [hl4] at hfit
            simp only [List.length_append, List.length_cons, List.length_nil]
            push_cast at hfit ⊢
            omega)
          (by
            rw [hl4] at hrest
            simp only [List.length_cons] at hrest ⊢
            omega)]
        simp [rfc4648]

theorem poke_length (m : List Char) (i : Nat) (c : Char) (h : i < m.length) :
    (poke m i c).length = m.length := by
  unfold poke
  simp only [List.length_append, List.length_take, List.length_cons, List.length_drop]
  omega

/-- The loop of `base64enc` ends without "buffer overflow" when the encoding
and its NUL fit in front of `buf + len`, and then leaves the size of the
buffer as it is. -/
theorem base64enc_loop_fits (len : Int) : ∀ (n : Nat) (p : CStr) (buf : List Char) (s : Nat),
    p.length ≤ n → ((s + 4 * ((p.length + 2) / 3) + 1 : Nat) : Int) ≤ len →
    ∃ b, base64enc_loop len p buf s = Except.ok b ∧
      (len ≤ (buf.length : Int) → b.length = buf.length) := by
  intro n
  induction n using Nat.strong_induction_on with
  | _ n ih =>
    intro p buf s hn hfit
    match p, hn, hfit with
    | [], _, _ => exact ⟨buf, rfl, fun _ => rfl⟩
    | [c0], _, hfit =>
      have hlt : ¬ ((s : Int) ≥ len - 4) := by
        simp only [List.length_cons, List.length_nil] at hfit
        push_cast at hfit
        omega
      simp only [base64enc_loop, hlt, if_false]
      refine ⟨_, rfl, fun hl => ?_⟩
      have hs : s + 4 < buf.length := by omega
      have e1 := poke_length buf s (al.getD (c0.toNat >>> 2 &&& 0x3F) NUL) (by omega)
      have e2 := poke_length _ (s + 1)
        (al.getD (c0.toNat <<< 4 &&& 0x30 ||| NUL.toNat >>> 4 &&& 0x0F) NUL)
        (show s + 1 < _ by rw [e1]; omega)
      have e3 := poke_length _ (s + 3) '=' (show s + 3 < _ by rw [e2, e1]; omega)
      have e4 := poke_length _ (s + 2) '=' (show s + 2 < _ by rw [e3, e2, e1]; omega)
      have e5 := poke_length _ (s + 4) NUL (show s + 4 < _ by rw [e4, e3, e2, e1]; omega)
      rw [e5, e4, e3, e2, e1]
    | [c0, c1], _, hfit =>
      have hlt : ¬ ((s : Int) ≥ len - 4) := by
        simp only [List.length_cons, List.length_nil] at hfit
        push_cast at hfit
        omega
      simp only [base64enc_loop, hlt, if_false]
      refine ⟨_, rfl, fun hl => ?_⟩
      have hs : s + 4 < buf.length := by omega
      have e1 := poke_length buf s (al.getD (c0.toNat >>> 2 &&& 0x3F) NUL) (by omega)
      have e2 := poke_length _ (s + 1)
        (al.getD (c0.toNat <<< 4 &&& 0x30 ||| c1.toNat >>> 4 &&& 0x0F) NUL)
        (show s + 1 < _ by rw [e1]; omega)
      have e3 := poke_length _ (s + 3) '=' (show s + 3 < _ by rw [e2, e1]; omega)
      have e4 := poke_length _ (s + 2) '=' (show s + 2 < _ by rw [e3, e2, e1]; omega)
      have e5 := poke_length _ (s + 4) NUL (show s + 4 < _ by rw [e4, e3, e2, e1]; omega)
      have e6 := poke_length _ (s + 2)
        (al.getD (c1.toNat <<< 2 &&& 0x3C ||| NUL.toNat >>> 6 &&& 0x03) NUL)
        (show s + 2 < _ by rw [e5, e4, e3, e2, e1]; omega)
      rw [e6, e5, e4, e3, e2, e1]
    | c0 :: c1 :: c2 :: p, hn, hfit =>
      have hg : ((c0 :: c1 :: c2 :: p).length + 2) / 3 = 1 + (p.length + 2) / 3 := by
        simp only [List.length_cons]; omega
      have hlt : ¬ ((s : Int) ≥ len - 4) := by
        rw [hg] at hfit
        push_cast at hfit
        omega
      simp only [base64enc_loop, hlt, if_false]
      obtain ⟨b, hb, hbl⟩ := ih p.length (by simp at hn; omega) p
        (poke (poke (poke (poke (poke (poke (poke buf s
          (al.getD (c0.toNat >>> 2 &&& 0x3F) NUL)) (s + 1)
          (al.getD (c0.toNat <<< 4 &&& 0x30 ||| c1.toNat >>> 4 &&& 0x0F) NUL)) (s + 3) '=')
          (s + 2) '=') (s + 4) NUL) (s + 2)
          (al.getD (c1.toNat <<< 2 &&& 0x3C ||| c2.toNat >>> 6 &&& 0x03) NUL)) (s + 3)
          (al.getD (c2.toNat &&& 0x3F) NUL)) (s + 4) (le_refl _)
        (by rw [hg] at hfit; push_cast at hfit ⊢; omega)
      refine ⟨b, hb, fun hl => ?_⟩
      have hs : s + 4 < buf.length := by
        rw [hg] at hfit; push_cast at hfit; omega
      have e1 := poke_length buf s (al.getD (c0.toNat >>> 2 &&& 0x3F) NUL) (by omega)
      have e2 := poke_length _ (s + 1)
        (al.getD (c0.toNat <<< 4 &&& 0x30 ||| c1.toNat >>> 4 &&& 0x0F) NUL)
        (show s + 1 < _ by rw [e1]; omega)
      have e3 := poke_length _ (s + 3) '=' (show s + 3 < _ by rw [e2, e1]; omega)
      have e4 := poke_length _ (s + 2) '=' (show s + 2 < _ by rw [e3, e2, e1]; omega)
      have e5 := poke_length _ (s + 4) NUL (show s + 4 < _ by rw [e4, e3, e2, e1]; omega)
      have e6 := poke_length _ (s + 2)
        (al.getD (c1.toNat <<< 2 &&& 0x3C ||| c2.toNat >>> 6 &&& 0x03) NUL)
        (show s + 2 < _ by rw [e5, e4, e3, e2, e1]; omega)
      have e7 := poke_length _ (s + 3) (al.getD (c2.toNat &&& 0x3F) NUL)
        (show s + 3 < _ by rw [e6, e5, e4, e3, e2, e1]; omega)
      rw [hbl (by rw [e7, e6, e5, e4, e3, e2, e1]; exact hl), e7, e6, e5, e4, e3, e2, e1]

/-- On a non-empty string of bytes whose encoding and NUL fit into the `len`
bytes of `buf`, `base64enc` returns in `buf` the NUL-terminated Base64
encoding of RFC 4648, of length `4 * ceil(|p| / 3)`. -/
theorem base64enc_rfc4648 (p : CStr) (buf : List Char) (len : Nat) (hne : p ≠ [])
    (hb : ∀ c ∈ p, c ≠ NUL ∧ c.toNat < 256) (hfit : (rfc4648 p).length + 1 ≤ len)
    (hbuf : len ≤ buf.length) :
    ∃ b, base64enc p buf (len : Int) = Except.ok b ∧ cstr b = rfc4648 p ∧
      b.length = buf.length ∧ (rfc4648 p).length = 4 * ((p.length + 2) / 3) := by
  have h := base64enc_loop_rfc (len : Int) p.length p [] buf (le_refl _) hne
    (fun c hc => (hb c hc).2) (by simp only [List.length_nil, Nat.zero_add]; exact_mod_cast hfit)
    (by omega)
  have hl := rfc4648_length p.length p (le_refl _)
  simp only [List.nil_append, List.length_nil] at h
  refine ⟨_, h, ?_, ?_, hl⟩
  · exact cstr_append_nul _ _ (rfc4648_no_nul p.length p (le_refl _) (fun c hc => (hb c hc).2))
  · simp only [List.length_append, List.length_cons, List.length_drop]
    omega

theorem base64enc_rfc4648_witness :
    ∃ b, base64enc "user:pw".toList (List.replicate 512 NUL) ((512 : Nat) : Int) = Except.ok b ∧
      cstr b = rfc4648 "user:pw".toList ∧ b.length = (List.replicate 512 NUL).length ∧
      (rfc4648 "user:pw".toList).length = 4 * (("user:pw".toList.length + 2) / 3) :=
  base64enc_rfc4648 "user:pw".toList (List.replicate 512 NUL) 512 (by decide) (by decide)
    (by decide) (by decide)

/-- C18 (failing input): for the empty string `base64enc` writes nothing, so
`buf` keeps the string it held and not the (empty) encoding of the empty
string; with the target user `user:pw` and a proxy whose user is empty, the
request carries the target's credentials in `Proxy-Authorization` too. -/
theorem base64enc_empty_keeps_buffer :
    (∀ (buf : List Char) (len : Int), base64enc [] buf len = Except.ok buf) ∧
    rfc4648 [] = [] ∧
    cstr ("stale".toList ++ [NUL]) = "stale".toList ∧
    (final_state (http_session (server_chain 0) proxy_start)).conns.map (fun k => k.sent)
      = [("GET http://host:80/file HTTP/1.1\r\nHost: host\r\nUser-Agent: Wget\r\n"
          ++ "Authorization: Basic dXNlcjpwdw==\r\n"
          ++ "Proxy-Authorization: Basic dXNlcjpwdw==\r\n"
          ++ "Connection: close\r\n\r\n").toList] :=
  ⟨fun _ _ => rfl, rfl, by decide, by decide⟩

/-! ## The request (claim C17) -/

theorem base64enc_fits (u : CStr) (buf : List Char) (hu : u.length ≤ 381) :
    ∃ b, base64enc u buf (BUFSIZ : Nat) = Except.ok b ∧
      (BUFSIZ ≤ buf.length → b.length = buf.length) ∧
      (u ≠ [] → (∀ c ∈ u, c ≠ NUL ∧ c.toNat < 256) → BUFSIZ ≤ buf.length →
        cstr b = rfc4648 u) := by
  obtain ⟨b, hb, hl⟩ := base64enc_loop_fits ((BUFSIZ : Nat) : Int) u.length u buf 0 (le_refl _)
    (by unfold BUFSIZ; push_cast; omega)
  have hb0 : base64enc u buf (BUFSIZ : Nat) = Except.ok b := hb
  refine ⟨b, hb0, fun h => hl (by exact_mod_cast h), ?_⟩
  intro hne hbytes hbuf
  have hlen := rfc4648_length u.length u (le_refl _)
  obtain ⟨b', hb', hc, _⟩ := base64enc_rfc4648 u buf BUFSIZ hne hbytes
    (by rw [hlen]; unfold BUFSIZ; omega) hbuf
  rw [hb0] at hb'
  cases hb'
  exact hc

theorem request_line_target (st : State) :
    request_line st = "GET ".toList ++ request_target st.target st.proxy ++ " HTTP/1.1\r\n".toList := by
  unfold request_line request_target
  cases st.proxy <;> cases st.target.is_ftp <;> simp

theorem range_lines_resume (st : State) :
    range_lines st = (match (if st.do_continue ≠ 0 then some st.beg_range else none) with
        | some offset => "Range: bytes=".toList ++ fmt_int offset ++ "-\r\n".toList
        | none => []) ++ "Connection: close\r\n\r\n".toList := by
  unfold range_lines
  by_cases h : st.do_continue = 0 <;> simp [h]

theorem composed_request_eq (target : host_info) (proxy : Bool) (auth pauth : List Char)
    (resume : Option Int) :
    composed_request target proxy auth pauth resume =
      "GET ".toList ++ request_target target proxy ++ " HTTP/1.1\r\n".toList
        ++ ("Host: ".toList ++ target.host ++ "\r\nUser-Agent: Wget\r\n".toList)
        ++ auth ++ pauth
        ++ ((match resume with
            | some offset => "Range: bytes=".toList ++ fmt_int offset ++ "-\r\n".toList
            | none => []) ++ "Connection: close\r\n\r\n".toList) := by
  unfold composed_request
  simp

/-- The bytes `send_request` writes when the credentials fit the buffer. -/
theorem send_request_composed (st : State)
    (hfit1 : ∀ u, st.target.user = some u → u.length ≤ 381)
    (hfit2 : ∀ u, st.proxy = true → st.server.user = some u → u.length ≤ 381) :
    ∃ auth pauth : List Char,
      (send_request st).1 = composed_request st.target st.proxy auth pauth
        (if st.do_continue ≠ 0 then some st.beg_range else none) ∧
      (send_request st).2.2 = none ∧
      (st.target.user = none → auth = []) ∧
      (∀ u, st.target.user = some u → ∃ v, auth = basic_header "Authorization".toList v ∧
        (u ≠ [] → (∀ c ∈ u, c ≠ NUL ∧ c.toNat < 256) → BUFSIZ ≤ st.buf.length →
          v = rfc4648 u)) ∧
      ((st.proxy = false ∨ st.server.user = none) → pauth = []) ∧
      (∀ u, st.proxy = true → st.server.user = some u →
        ∃ v, pauth = basic_header "Proxy-Authorization".toList v ∧
        (u ≠ [] → (∀ c ∈ u, c ≠ NUL ∧ c.toNat < 256) → BUFSIZ ≤ st.buf.length →
          v = rfc4648 u)) := by
  have hbh : ∀ (name v : List Char), basic_header name v = name ++ ": Basic ".toList ++ v ++ "\r\n".toList :=
    fun _ _ => rfl
  unfold send_request
  rw [range_lines_resume, request_line_target]
  simp only [composed_request_eq]
  unfold host_lines
  cases hu : st.target.user with
  | none =>
    simp only
    cases hpu : (if st.proxy = true then st.server.user else none) with
    | none =>
      refine ⟨[], [], by simp, rfl, fun _ => rfl, (fun u h => by cases h), fun _ => rfl, ?_⟩
      intro u hp hsu
      rw [hp, hsu] at hpu
      simp at hpu
    | some u =>
      have hp : st.proxy = true := by
        by_contra hp
        simp [hp] at hpu
      have hsu : st.server.user = some u := by simpa [hp] using hpu
      obtain ⟨b, hb, hl, hc⟩ := base64enc_fits u st.buf (hfit2 u hp hsu)
      simp only [hb]
      refine ⟨[], basic_header "Proxy-Authorization".toList (cstr b), by simp [hbh], (by first | rfl | trivial),
        fun _ => rfl, (fun u h => by cases h), ?_, ?_⟩
      · rintro (h | h)
        · rw [hp] at h; cases h
        · rw [hsu] at h; cases h
      · intro u' _ hu'
        rw [hsu] at hu'
        cases hu'
        exact ⟨cstr b, rfl, hc⟩
  | some u1 =>
    simp only
    obtain ⟨b1, hb1, hl1, hc1⟩ := base64enc_fits u1 st.buf (hfit1 u1 hu)
    simp only [hb1]
    cases hpu : (if st.proxy = true then st.server.user else none) with
    | none =>
      refine ⟨basic_header "Authorization".toList (cstr b1), [], by simp [hbh], (by first | rfl | trivial),
        (fun h => by cases h), ?_, fun _ => rfl, ?_⟩
      · intro u' hu'
        cases hu'
        exact ⟨cstr b1, rfl, hc1⟩
      · intro u hp hsu
        rw [hp, hsu] at hpu
        simp at hpu
    | some u =>
      have hp : st.proxy = true := by
        by_contra hp
        simp [hp] at hpu
      have hsu : st.server.user = some u := by simpa [hp] using hpu
      obtain ⟨b, hb, hl, hc⟩ := base64enc_fits u b1 (hfit2 u hp hsu)
      simp only [hb]
      refine ⟨basic_header "Authorization".toList (cstr b1),
        basic_header "Proxy-Authorization".toList (cstr b), by simp [hbh], (by first | rfl | trivial),
        (fun h => by cases h), ?_, ?_, ?_⟩
      · intro u' hu'
        cases hu'
        exact ⟨cstr b1, rfl, hc1⟩
      · rintro (h | h)
        · rw [hp] at h; cases h
        · rw [hsu] at h; cases h
      · intro u' _ hu'
        rw [hsu] at hu'
        cases hu'
        exact ⟨cstr b, rfl, fun hne hby hbuf => hc hne hby (by rw [hl1 hbuf]; exact hbuf)⟩

theorem drain_headers_range : ∀ (fuel : Nat) (st st' : State),
    drain_headers fuel st = Except.ok st' → st'.beg_range = st.beg_range := by
  intro fuel
  induction fuel with
  | zero => intro st st' h; cases h; rfl
  | succ fuel ih =>
    intro st st' h
    unfold drain_headers at h
    cases hg : gethdr st.buf BUFSIZ st.sfp with
    | error e => rw [hg] at h; cases h
    | ok r =>
      rw [hg] at h
      simp only at h
      split_ifs at h
      · have := ih _ _ h
        exact this
      · cases h; rfl

theorem read_response_range (env : Env) : ∀ (fuel : Nat) (st st' : State),
    read_response env fuel st = Except.ok st' → st'.beg_range = st.beg_range := by
  intro fuel
  induction fuel with
  | zero => intro st st' h; cases h
  | succ fuel ih =>
    intro st st' h
    rw [read_response_succ] at h
    generalize hb : (fgets st.buf BUFSIZ st.sfp).2.1 = b at h
    generalize hs : (fgets st.buf BUFSIZ st.sfp).2.2 = s at h
    generalize hc : atoi (status_tail b) = c at h
    split_ifs at h with h1 h2 h3 h4 h5 h6
    · cases h
    · cases hdr : drain_headers (s.length + 1) { st with buf := b, sfp := s, status := c } with
      | error e => rw [hdr] at h; cases h
      | ok st2 =>
        rw [hdr] at h
        rw [ih st2 st' h, drain_headers_range _ _ _ hdr]
    · cases h; rfl
    · cases h; rfl
    · cases h; rfl
    · cases h; rfl
    · cases h

theorem handle_header_range (name value : CStr) (st st' : State)
    (h : handle_header name value st = Except.ok st') : st'.beg_range = st.beg_range := by
  revert h
  by_cases h1 : strcaseeq name "content-length".toList = true <;>
  by_cases h2 : strcaseeq name "transfer-encoding".toList = true <;>
  by_cases h3 : strcaseeq value "chunked".toList = true <;>
  by_cases h4 : strcaseeq name "location".toList = true <;>
  by_cases h5 : (value.head? == some '/') = true <;>
  by_cases h6 : st.proxy = true <;>
  cases hp : parse_url value <;>
  simp only [handle_header, hp, h1, h2, h3, h4, h5, h6, close_delete_and_die, error_msg_and_die,
    if_true, if_false, Bool.not_true, Bool.false_eq_true, Bool.not_false] <;>
  intro h <;> cases h <;> rfl

theorem read_headers_range : ∀ (fuel : Nat) (st st' : State),
    read_headers fuel st = Except.ok st' → st'.beg_range = st.beg_range := by
  intro fuel
  induction fuel with
  | zero => intro st st' h; cases h; rfl
  | succ fuel ih =>
    intro st st' h
    unfold read_headers at h
    cases hg : gethdr st.buf BUFSIZ st.sfp with
    | error e => rw [hg] at h; cases h
    | ok r =>
      rw [hg] at h
      simp only at h
      cases hr : r.ret with
      | none => rw [hr] at h; cases h; rfl
      | some value =>
        rw [hr] at h
        simp only at h
        cases hhh : handle_header (cstr r.buf) value
            { st with buf := r.buf, sfp := r.fp, n := r.istrunc } with
        | error e => rw [hhh] at h; cases h
        | ok st2 =>
          rw [hhh] at h
          rw [ih st2 st' h, handle_header_range _ _ _ _ hhh]

theorem read_reply_range (env : Env) (st st' : State)
    (h : read_reply env st = Except.ok st') : st'.beg_range = st.beg_range := by
  unfold read_reply at h
  cases hr : read_response env (st.sfp.length + 1) st with
  | error e => rw [hr] at h; cases h
  | ok st1 =>
    rw [hr] at h
    rw [read_headers_range _ _ _ h, read_response_range env _ _ _ hr]

/-- C17: the exchange started in the state `st` (target address, proxy
setting, resume state) opens a connection and writes to it exactly the
request `composed_request`: the request line with the absolute form of the
target when a proxy is in use and `/path` otherwise, `Host`, `User-Agent:
Wget`, an `Authorization: Basic` header if and only if the target has
credentials, a `Proxy-Authorization: Basic` header if and only if a proxy
with credentials is in use, `Range: bytes=<beg_range>-` if and only if a
resume is in progress, and `Connection: close` with the empty line.  The
value of an authentication header is the Base64 encoding of the credentials
when these are a non-empty string of bytes.  The offset `beg_range` is the
size of the existing file when the session starts and the exchange leaves it
as it is.  (Credentials of more than 381 bytes end the process in
`base64enc`.) -/
theorem request_composition (env : Env) (st : State)
    (hconn : env.connect st.conns.length st.server.host st.server.port = true)
    (hfit1 : ∀ u, st.target.user = some u → u.length ≤ 381)
    (hfit2 : ∀ u, st.proxy = true → st.server.user = some u → u.length ≤ 381) :
    (∃ auth pauth : List Char,
      (final_state (http_exchange env st)).conns = st.conns ++
        [Conn.mk st.server.host st.server.port
          (composed_request st.target st.proxy auth pauth
            (if st.do_continue ≠ 0 then some st.beg_range else none))] ∧
      (st.target.user = none → auth = []) ∧
      (∀ u, st.target.user = some u → ∃ v, auth = basic_header "Authorization".toList v ∧
        (u ≠ [] → (∀ c ∈ u, c ≠ NUL ∧ c.toNat < 256) → BUFSIZ ≤ st.buf.length →
          v = rfc4648 u)) ∧
      ((st.proxy = false ∨ st.server.user = none) → pauth = []) ∧
      (∀ u, st.proxy = true → st.server.user = some u →
        ∃ v, pauth = basic_header "Proxy-Authorization".toList v ∧
        (u ≠ [] → (∀ c ∈ u, c ≠ NUL ∧ c.toNat < 256) → BUFSIZ ≤ st.buf.length →
          v = rfc4648 u))) ∧
    (∀ st', http_exchange env st = Except.ok st' → st'.beg_range = st.beg_range) ∧
    (∀ a : Start, (start_state a).do_continue ≠ 0 → a.fname_out ≠ "-".toList →
      (start_state a).beg_range = ((a.old_file.getD []).length : Int)) := by
  obtain ⟨auth, pauth, h1, h2, h3, h4, h5, h6⟩ := send_request_composed st hfit1 hfit2
  have hx : http_exchange env st = read_reply env
      { st with buf := (send_request st).2.1,
                conns := st.conns ++ [Conn.mk st.server.host st.server.port (send_request st).1],
                sfp := env.reply st.conns.length st.server.host st.server.port (send_request st).1 } := by
    unfold http_exchange
    simp only [hconn, Bool.not_true, Bool.false_eq_true, if_false, h2]
  refine ⟨⟨auth, pauth, ?_, h3, h4, h5, h6⟩, ?_, ?_⟩
  · rw [hx, (read_reply_frame env _).1, h1]
  · intro st' h
    rw [hx] at h
    have := read_reply_range env _ _ h
    exact this
  · intro a hc hf
    have hf' : ¬ a.fname_out = ['-'] := hf
    by_cases hd : a.do_continue = 0
    · simp [start_state, hf', hd] at hc
    · by_cases hs : 0 < (a.old_file.getD []).length
      · simp [start_state, hf', hd, hs]
      · simp [start_state, hf', hd, hs] at hc

theorem request_composition_witness :
    ∃ auth pauth : List Char,
      (final_state (http_exchange (server_chain 0) { start_state resume_start with try_ := 4 })).conns
        = [Conn.mk "host".toList 80
            (composed_request resume_start.target false auth pauth (some 3))] ∧
      auth = [] ∧ pauth = [] := by
  obtain ⟨⟨auth, pauth, h1, h2, _, h4, _⟩, _, _⟩ :=
    request_composition (server_chain 0) { start_state resume_start with try_ := 4 } rfl
      (by intro u h; cases h) (by intro u h; cases h)
  exact ⟨auth, pauth, h1, h2 rfl, h4 (Or.inl rfl)⟩

/-! ## The effect of a header (claim C19) -/

theorem dec_three (c : Nat) (h1 : 100 ≤ c) (h2 : c ≤ 999) :
    dec c = [digit_char (c / 100), digit_char (c / 10 % 10), digit_char (c % 10)] := by
  unfold dec
  rw [digits_be_step 10 c (by omega) (by omega),
    digits_be_step 10 (c / 10) (by omega) (by omega),
    digits_be_small 10 (c / 10 / 10) (by omega) (by omega)]
  have : c / 10 / 10 = c / 100 := by omega
  rw [this]
  rfl

theorem digit_char_isdigit : ∀ d, d < 10 →
    isdigit (digit_char d) = true ∧ digit_char d ≠ '\n' ∧ digit_char d ≠ NUL := by decide

/-- `ftpcmd` on a control connection whose next bytes are one reply line. -/
theorem ftpcmd_reply_line (s1 s2 : Option CStr) (st : State) (cs : List Conn) (k : Conn)
    (code : Nat) (text rest : List Char)
    (hco : st.conns = cs ++ [k])
    (hc1 : 100 ≤ code) (hc2 : code ≤ 999) (ht : ∀ x ∈ text, x ≠ '\n' ∧ x ≠ NUL)
    (hl : text.length ≤ 504) (hsfp : st.sfp = reply_line code text ++ rest) :
    ftpcmd s1 s2 st = Except.ok ((code : Int),
      { st with conns := cs ++ [{ k with sent := k.sent ++ command_text s1 s2 }],
                buf := store st.buf (reply_line code text ++ [NUL]),
                sfp := rest }) ∧
    cstr ((store st.buf (reply_line code text ++ [NUL])).drop 4) = text ++ ['\n'] := by
  have hd := dec_three code hc1 hc2
  have h1 := digit_char_isdigit (code / 100) (by omega)
  have h2 := digit_char_isdigit (code / 10 % 10) (by omega)
  have h3 := digit_char_isdigit (code % 10) (by omega)
  have hline : ∀ c ∈ dec code ++ ' ' :: text, c ≠ '\n' := by
    intro c hcm
    rw [hd] at hcm
    simp only [List.cons_append, List.nil_append, List.mem_cons] at hcm
    rcases hcm with h | h | h | h | h
    · rw [h]; exact h1.2.1
    · rw [h]; exact h2.2.1
    · rw [h]; exact h3.2.1
    · rw [h]; decide
    · exact (ht c h).1
  have hlen : (dec code ++ ' ' :: text).length + 2 ≤ 510 := by
    rw [hd]; simp; omega
  have hrl : reply_line code text ++ rest = (dec code ++ ' ' :: text) ++ '\n' :: rest := by
    unfold reply_line; simp
  have hfg := fgets_line st.buf (dec code ++ ' ' :: text) rest 510 hline hlen
  have hst : store st.buf ((dec code ++ ' ' :: text) ++ ['\n'] ++ [NUL])
      = store st.buf (reply_line code text ++ [NUL]) := by
    unfold reply_line; simp
  rw [hst] at hfg
  obtain ⟨tl, hb⟩ : ∃ tl, store st.buf (reply_line code text ++ [NUL])
      = digit_char (code / 100) :: digit_char (code / 10 % 10) :: digit_char (code % 10) :: ' '
        :: (text ++ ['\n']) ++ NUL :: tl :=
    ⟨st.buf.drop (reply_line code text ++ [NUL]).length, by
      unfold store reply_line; rw [hd]; simp⟩
  have hatoi : atoi (store st.buf (reply_line code text ++ [NUL])) = (code : Int) := by
    rw [hb]
    have e : digit_char (code / 100) :: digit_char (code / 10 % 10) :: digit_char (code % 10) :: ' '
        :: (text ++ ['\n']) ++ NUL :: tl = dec code ++ ' ' :: ((text ++ ['\n']) ++ NUL :: tl) := by
      rw [hd]; rfl
    rw [e]
    exact atoi_dec_small code _ (by omega) (by intro c hc; simp at hc; subst hc; decide)
  have hreply : ftp_reply (st.sfp.length + 1) st.buf st.sfp
      = Except.ok (store st.buf (reply_line code text ++ [NUL]), rest) := by
    rw [ftp_reply_succ, hsfp, hrl, hfg]
    simp only [Bool.not_true, Bool.false_eq_true, if_false]
    rw [hb]
    have e0 : isdigit ((digit_char (code / 100) :: digit_char (code / 10 % 10)
        :: digit_char (code % 10) :: ' ' :: (text ++ ['\n']) ++ NUL :: tl).getD 0 NUL) = true := h1.1
    have e3 : ((digit_char (code / 100) :: digit_char (code / 10 % 10)
        :: digit_char (code % 10) :: ' ' :: (text ++ ['\n']) ++ NUL :: tl).getD 3 NUL != ' ')
        = false := by
      simp [List.getD]
    simp only [e0, e3, Bool.not_true, Bool.or_self, Bool.false_eq_true, if_false]
  constructor
  · unfold ftpcmd
    cases s1 with
    | none =>
      simp only [hreply, hatoi, command_text, List.append_nil]
      rw [hco]
    | some c =>
      have e1 : st.conns.getLast? = some k := by rw [hco]; simp
      have e2 : st.conns.dropLast = cs := by rw [hco]; simp
      simp only [e1, e2, hreply, hatoi, command_text, List.append_assoc]
  · rw [hb]
    show cstr ((text ++ ['\n']) ++ NUL :: tl) = text ++ ['\n']
    apply cstr_append_nul
    intro c hc
    rcases List.mem_append.mp hc with h | h
    · exact (ht c h).2
    · simp at h; subst h; decide

/-- `ftpcmd` on one reply line, in terms of the fields of the new state. -/
theorem ftpcmd_reply_fields (s1 s2 : Option CStr) (st : State) (cs : List Conn) (k : Conn)
    (code : Nat) (text rest : List Char)
    (hco : st.conns = cs ++ [k])
    (hc : 100 ≤ code ∧ code ≤ 999) (ht : (∀ x ∈ text, x ≠ '\n' ∧ x ≠ NUL) ∧ text.length ≤ 504)
    (hsfp : st.sfp = reply_line code text ++ rest) :
    ∃ st', ftpcmd s1 s2 st = Except.ok ((code : Int), st') ∧ st'.sfp = rest ∧
      st'.conns = cs ++ [{ k with sent := k.sent ++ command_text s1 s2 }] ∧
      cstr (st'.buf.drop 4) = text ++ ['\n'] ∧ st'.target = st.target := by
  have h := ftpcmd_reply_line s1 s2 st cs k code text rest hco hc.1 hc.2 ht.1 ht.2 hsfp
  exact ⟨_, h.1, rfl, rfl, h.2, rfl⟩

theorem ftp_connect_user (st : State) :
    (if st.target.user.isNone then
      { st with target := { st.target with user := some "anonymous:busybox@".toList } }
    else st) = { st with target := { st.target with user := some (ftp_credentials st.target.user) } } := by
  cases st with
  | mk n try_ status buf server target proxy sfp dfp do_continue beg_range got_clen output filesize
      chunked statbytes outfile stdout conns quiet_flag meter =>
    cases target with
    | mk host port path is_ftp user =>
      cases user <;> rfl

/-- Lines 322-327 on a server that accepts the connection and greets with
the code 220. -/
theorem ftp_connect_greeted (env : Env) (st : State) (t0 rest : List Char)
    (hconn : env.connect st.conns.length st.server.host st.server.port = true)
    (ht0 : (∀ x ∈ t0, x ≠ '\n' ∧ x ≠ NUL) ∧ t0.length ≤ 504)
    (hreply : env.reply st.conns.length st.server.host st.server.port []
      = reply_line 220 t0 ++ rest) :
    ∃ st', ftp_connect env st = Except.ok st' ∧ st'.sfp = rest ∧
      st'.conns = st.conns ++ [Conn.mk st.server.host st.server.port []] ∧
      st'.target.user = some (ftp_credentials st.target.user) := by
  unfold ftp_connect
  simp only [ftp_connect_user]
  simp only [hconn, Bool.not_true, Bool.false_eq_true, if_false]
  obtain ⟨st', h1, h2, h3, h4, h5⟩ := ftpcmd_reply_fields none none
    { st with target := { st.target with user := some (ftp_credentials st.target.user) },
              sfp := env.reply st.conns.length st.server.host st.server.port [],
              conns := st.conns ++ [Conn.mk st.server.host st.server.port []] }
    st.conns (Conn.mk st.server.host st.server.port []) 220 t0 rest rfl (by omega) ht0 hreply
  rw [h1]
  simp only [Nat.cast_ofNat, bne_self_eq_false, Bool.false_eq_true, if_false]
  refine ⟨st', rfl, h2, ?_, ?_⟩
  · rw [h3]; simp [command_text]
  · rw [h5]

theorem command_text_some (c : CStr) (s2 : Option CStr) :
    command_text (some c) s2 = c ++ s2.getD [] ++ "\n".toList := rfl

/-- Lines 333-345 on a control connection whose next bytes are the reply
line to `USER`. -/
theorem ftp_login_cases (st : State) (cs : List Conn) (k : Conn) (c1 : Nat) (t1 rest : List Char)
    (hco : st.conns = cs ++ [k])
    (hc1 : 100 ≤ c1 ∧ c1 ≤ 999) (ht1 : (∀ x ∈ t1, x ≠ '\n' ∧ x ≠ NUL) ∧ t1.length ≤ 504)
    (hsfp : st.sfp = reply_line c1 t1 ++ rest) :
    (c1 = 230 →
      fatal_of (ftp_login st) = none ∧ (final_state (ftp_login st)).sfp = rest ∧
      (final_state (ftp_login st)).conns = cs ++ [{ k with sent := k.sent ++
        ("USER ".toList ++ (split_user (st.target.user.getD [])).1 ++ "\n".toList) }]) ∧
    (c1 ≠ 230 → c1 ≠ 331 →
      fatal_of (ftp_login st) = some (Fatal.ftp_login (t1 ++ ['\n'])) ∧
      cleaned_up (final_state (ftp_login st)) = true ∧
      (final_state (ftp_login st)).conns = cs ++ [{ k with sent := k.sent ++
        ("USER ".toList ++ (split_user (st.target.user.getD [])).1 ++ "\n".toList) }]) ∧
    (c1 = 331 → ∀ (c2 : Nat) (t2 rest2 : List Char), 100 ≤ c2 ∧ c2 ≤ 999 →
      (∀ x ∈ t2, x ≠ '\n' ∧ x ≠ NUL) ∧ t2.length ≤ 504 → rest = reply_line c2 t2 ++ rest2 →
      (final_state (ftp_login st)).conns = cs ++ [{ k with sent := k.sent ++
        ("USER ".toList ++ (split_user (st.target.user.getD [])).1 ++ "\n".toList) ++
        ("PASS ".toList ++ ((split_user (st.target.user.getD [])).2).getD [] ++ "\n".toList) }] ∧
      (c2 = 230 → fatal_of (ftp_login st) = none ∧ (final_state (ftp_login st)).sfp = rest2) ∧
      (c2 ≠ 230 → fatal_of (ftp_login st) = some (Fatal.ftp_login (t2 ++ ['\n'])) ∧
        cleaned_up (final_state (ftp_login st)) = true)) := by
  obtain ⟨st1, h1, h1s, h1c, h1b, h1t⟩ := ftpcmd_reply_fields (some "USER ".toList)
    (some (split_user (st.target.user.getD [])).1)
    { st with target := { st.target with user := some (split_user (st.target.user.getD [])).1 } }
    cs k c1 t1 rest hco hc1 ht1 hsfp
  rw [command_text_some] at h1c
  simp only [Option.getD_some] at h1c
  refine ⟨?_, ?_, ?_⟩
  · intro h230
    subst h230
    unfold ftp_login
    simp only [h1]
    simp only [Nat.cast_ofNat, beq_self_eq_true, if_true, fatal_of, final_state]
    exact ⟨trivial, h1s, h1c⟩
  · intro hn1 hn2
    have e1 : (((c1 : Nat) : Int) == 230) = false := by
      simp only [beq_eq_false_iff_ne, ne_eq]; omega
    have e2 : (((c1 : Nat) : Int) == 331) = false := by
      simp only [beq_eq_false_iff_ne, ne_eq]; omega
    unfold ftp_login
    simp only [h1, e1, e2, Bool.false_eq_true, if_false, close_delete_and_die, fatal_of,
      final_state, h1b, cleaned_up_close]
    refine ⟨trivial, trivial, ?_⟩
    rw [(close_and_delete_outfile_fields st1).1, h1c]
  · intro h331 c2 t2 rest2 hc2 ht2 hrest
    subst h331
    have e1 : (((331 : Nat) : Int) == 230) = false := by decide
    have e2 : (((331 : Nat) : Int) == 331) = true := by decide
    obtain ⟨st2, h2, h2s, h2c, h2b, h2t⟩ := ftpcmd_reply_fields (some "PASS ".toList)
      (split_user (st.target.user.getD [])).2 st1 cs _ c2 t2 rest2 h1c hc2 ht2
      (by rw [h1s, hrest])
    rw [command_text_some] at h2c
    simp only [List.append_assoc] at h2c
    unfold ftp_login
    simp only [h1, e1, e2, Bool.false_eq_true, if_false, if_true, h2]
    by_cases h230 : c2 = 230
    · subst h230
      simp only [Nat.cast_ofNat, beq_self_eq_true, if_true, fatal_of, final_state]
      refine ⟨?_, fun _ => ⟨trivial, h2s⟩, fun h => absurd rfl h⟩
      rw [h2c]; simp
    · have e3 : (((c2 : Nat) : Int) == 230) = false := by
        simp only [beq_eq_false_iff_ne, ne_eq]; omega
      simp only [e3, Bool.false_eq_true, if_false, close_delete_and_die, fatal_of, final_state,
        h2b, cleaned_up_close]
      refine ⟨?_, fun h => absurd h h230, fun _ => ⟨trivial, trivial⟩⟩
      rw [(close_and_delete_outfile_fields st2).1, h2c]; simp

/-- C20: on a control connection that the server opens with a 220 greeting,
`wget_main` sends `USER <name>`, the name and the password being those of the
URL and `anonymous`, `busybox@` when it has none.  With the reply code 230 to
`USER` the login succeeds and no `PASS` is sent; with 331 `PASS <password>`
is sent, and the login succeeds if the reply code to it is 230 and else ends
with the error "ftp login" and the text of that reply; with any other code to
`USER` it ends with "ftp login" and the text of the reply to `USER`, no `PASS`
being sent.  The error is raised after `close_and_delete_outfile`. -/
theorem ftp_login_rule (env : Env) (st : State) (t0 : List Char) (c1 : Nat) (t1 rest : List Char)
    (hconn : env.connect st.conns.length st.server.host st.server.port = true)
    (ht0 : (∀ x ∈ t0, x ≠ '\n' ∧ x ≠ NUL) ∧ t0.length ≤ 504)
    (hc1 : 100 ≤ c1 ∧ c1 ≤ 999) (ht1 : (∀ x ∈ t1, x ≠ '\n' ∧ x ≠ NUL) ∧ t1.length ≤ 504)
    (hreply : env.reply st.conns.length st.server.host st.server.port []
      = reply_line 220 t0 ++ (reply_line c1 t1 ++ rest)) :
    split_user (ftp_credentials none) = ("anonymous".toList, some "busybox@".toList) ∧
    (c1 = 230 →
      fatal_of (ftp_open env st) = none ∧
      (final_state (ftp_open env st)).conns = st.conns ++ [Conn.mk st.server.host st.server.port
        ("USER ".toList ++ (split_user (ftp_credentials st.target.user)).1 ++ "\n".toList)]) ∧
    (c1 ≠ 230 → c1 ≠ 331 →
      fatal_of (ftp_open env st) = some (Fatal.ftp_login (t1 ++ ['\n'])) ∧
      cleaned_up (final_state (ftp_open env st)) = true ∧
      (final_state (ftp_open env st)).conns = st.conns ++ [Conn.mk st.server.host st.server.port
        ("USER ".toList ++ (split_user (ftp_credentials st.target.user)).1 ++ "\n".toList)]) ∧
    (c1 = 331 → ∀ (c2 : Nat) (t2 rest2 : List Char), 100 ≤ c2 ∧ c2 ≤ 999 →
      (∀ x ∈ t2, x ≠ '\n' ∧ x ≠ NUL) ∧ t2.length ≤ 504 → rest = reply_line c2 t2 ++ rest2 →
      (final_state (ftp_open env st)).conns = st.conns ++ [Conn.mk st.server.host st.server.port
        (("USER ".toList ++ (split_user (ftp_credentials st.target.user)).1 ++ "\n".toList) ++
         ("PASS ".toList ++ ((split_user (ftp_credentials st.target.user)).2).getD []
            ++ "\n".toList))] ∧
      (c2 = 230 → fatal_of (ftp_open env st) = none) ∧
      (c2 ≠ 230 → fatal_of (ftp_open env st) = some (Fatal.ftp_login (t2 ++ ['\n'])) ∧
        cleaned_up (final_state (ftp_open env st)) = true)) := by
  obtain ⟨st1, hg, hs1, hc1', hu1⟩ := ftp_connect_greeted env st t0 (reply_line c1 t1 ++ rest)
    hconn ht0 hreply
  have hopen : ftp_open env st = ftp_login st1 := by
    unfold ftp_open
    rw [hg]
  have hcases := ftp_login_cases st1 st.conns (Conn.mk st.server.host st.server.port []) c1 t1
    rest hc1' hc1 ht1 hs1
  rw [hu1] at hcases
  simp only [Option.getD_some, List.nil_append] at hcases
  rw [hopen]
  refine ⟨rfl, ?_, ?_, ?_⟩
  · intro h
    have := hcases.1 h
    exact ⟨this.1, this.2.2⟩
  · intro h1 h2
    exact hcases.2.1 h1 h2
  · intro h c2 t2 rest2 hc2 ht2 hr
    have := hcases.2.2 h c2 t2 rest2 hc2 ht2 hr
    exact ⟨this.1, fun h2 => (this.2.1 h2).1, this.2.2⟩

theorem ftp_login_rule_witness :
    (final_state (ftp_open server_ftp_login (start_state ftp_start))).conns
      = [Conn.mk "host".toList 21 "USER anonymous\nPASS busybox@\n".toList] ∧
    fatal_of (ftp_open server_ftp_login (start_state ftp_start)) = none := by
  have h := (ftp_login_rule server_ftp_login (start_state ftp_start) "ready\r".toList 331
    "password required\r".toList "230 logged in\r\n200 ok\r\n".toList rfl (by decide) (by decide)
    (by decide) (by decide)).2.2.2 rfl 230 "logged in\r".toList "200 ok\r\n".toList (by decide)
    (by decide) (by decide)
  exact ⟨h.1, h.2.1 rfl⟩

/-! ## The byte counter and the progress meter (claim C21) -/

theorem write_block_counter (st : State) (data : List Char) :
    (write_block st data).quiet_flag = st.quiet_flag ∧
    (st.quiet_flag = true →
      (write_block st data).statbytes = (st.statbytes + data.length) % 4294967296 ∧
      (write_block st data).meter = st.meter) ∧
    (st.quiet_flag = false →
      (write_block st data).statbytes = 0 ∧
      (write_block st data).meter = st.meter ++ [(st.statbytes + data.length) % 4294967296]) := by
  unfold write_block progressmeter fwrite
  cases ho : st.output <;> cases hg : st.got_clen <;> cases hq : st.quiet_flag <;>
    simp [ho, hg, hq]

theorem fread_count_le (st : State) : fread_count st ≤ BUFSIZ := by
  unfold fread_count
  split_ifs <;> omega

/-- With `-q` the loop of lines 399-408 raises `statbytes` by the number of
bytes it writes (modulo 2^32) and never calls the progress meter. -/
theorem read_body_quiet : ∀ (fuel : Nat) (st : State), st.quiet_flag = true →
    st.statbytes < 4294967296 →
    ∃ d, written (read_body fuel st) = written st ++ d ∧
      (read_body fuel st).statbytes = (st.statbytes + d.length) % 4294967296 ∧
      (read_body fuel st).meter = st.meter ∧ (read_body fuel st).quiet_flag = true := by
  intro fuel
  induction fuel with
  | zero =>
    intro st hq hs
    have e : st.statbytes = (st.statbytes + ([] : List Char).length) % 4294967296 := by
      simp only [List.length_nil]; omega
    simp only [read_body]
    split_ifs
    · exact ⟨[], by simp [written, fread_buf], e, rfl, hq⟩
    · exact ⟨[], by simp, e, rfl, hq⟩
  | succ fuel ih =>
    intro st hq hs
    have e : st.statbytes = (st.statbytes + ([] : List Char).length) % 4294967296 := by
      simp only [List.length_nil]; omega
    rw [read_body_succ]
    split_ifs with h1 h2
    · have hw := write_block_fields (fread_buf st) (st.dfp.take (fread_count st))
      have hc := write_block_counter (fread_buf st) (st.dfp.take (fread_count st))
      have hq1 : (fread_buf st).quiet_flag = true := hq
      have hs1 : (write_block (fread_buf st) (st.dfp.take (fread_count st))).statbytes
          < 4294967296 := by
        rw [(hc.2.1 hq1).1]; omega
      obtain ⟨d, e1, e2, e3, e4⟩ := ih _ (hc.1.trans hq1) hs1
      refine ⟨st.dfp.take (fread_count st) ++ d, ?_, ?_, ?_, e4⟩
      · rw [e1, hw.2.2.2.2.2]
        have : written (fread_buf st) = written st := rfl
        rw [this, List.append_assoc]
      · rw [e2, (hc.2.1 hq1).1]
        have : (fread_buf st).statbytes = st.statbytes := rfl
        rw [this, List.length_append]
        omega
      · rw [e3, (hc.2.1 hq1).2]
        rfl
    · exact ⟨[], by simp [written, fread_buf], e, rfl, hq⟩
    · exact ⟨[], by simp, e, rfl, hq⟩

/-- Without `-q` the loop of lines 399-408 leaves `statbytes` at 0, and no
call of the progress meter in it reads more than the size of one block. -/
theorem read_body_meter : ∀ (fuel : Nat) (st : State), st.quiet_flag = false →
    st.statbytes = 0 →
    ∃ rs, (read_body fuel st).meter = st.meter ++ rs ∧ (∀ r ∈ rs, r ≤ BUFSIZ) ∧
      (read_body fuel st).statbytes = 0 ∧ (read_body fuel st).quiet_flag = false := by
  intro fuel
  induction fuel with
  | zero =>
    intro st hq h0
    simp only [read_body]
    split_ifs
    · exact ⟨[], by simp [fread_buf], by simp, h0, hq⟩
    · exact ⟨[], by simp, by simp, h0, hq⟩
  | succ fuel ih =>
    intro st hq h0
    rw [read_body_succ]
    split_ifs with h1 h2
    · have hc := write_block_counter (fread_buf st) (st.dfp.take (fread_count st))
      have hq1 : (fread_buf st).quiet_flag = false := hq
      obtain ⟨rs, e1, e2, e3, e4⟩ := ih _ (hc.1.trans hq1) (hc.2.2 hq1).1
      refine ⟨((fread_buf st).statbytes + (st.dfp.take (fread_count st)).length) % 4294967296 :: rs,
        ?_, ?_, e3, e4⟩
      · rw [e1, (hc.2.2 hq1).2]
        have : (fread_buf st).meter = st.meter := rfl
        rw [this, List.append_assoc]
        rfl
      · intro r hr
        rcases List.mem_cons.mp hr with h | h
        · have : (fread_buf st).statbytes = 0 := h0
          rw [h, this]
          have h3 := fread_count_le st
          have h4 : (st.dfp.take (fread_count st)).length ≤ fread_count st := by
            rw [List.length_take]; omega
          unfold BUFSIZ at h3 ⊢
          omega
        · exact e2 r h
    · exact ⟨[], by simp [fread_buf], by simp, h0, hq⟩
    · exact ⟨[], by simp, by simp, h0, hq⟩

theorem read_body_chunked : ∀ (fuel : Nat) (st : State),
    (read_body fuel st).chunked = st.chunked := by
  intro fuel
  induction fuel with
  | zero => intro st; simp only [read_body]; split_ifs <;> rfl
  | succ fuel ih =>
    intro st
    rw [read_body_succ]
    split_ifs
    · rw [ih, (write_block_fields _ _).2.1]; rfl
    · rfl
    · rfl

theorem next_chunk_counter (st : State) :
    (next_chunk st).statbytes = st.statbytes ∧ (next_chunk st).meter = st.meter ∧
    (next_chunk st).quiet_flag = st.quiet_flag ∧ written (next_chunk st) = written st := by
  unfold next_chunk
  dsimp only
  split_ifs <;> exact ⟨rfl, rfl, rfl, rfl⟩

/-- With `-q`, on a response that is not chunked, the retrieval ends with
`statbytes` holding the number of bytes delivered to the output (modulo
2^32), and the progress meter is not called. -/
theorem retrieve_quiet_counter (fuel : Nat) (st : State) (hq : st.quiet_flag = true)
    (hc : st.chunked = false) :
    ∃ st', retrieve (fuel + 1) st = some st' ∧
      st'.statbytes = delivered st st' % 4294967296 ∧ st'.meter = st.meter := by
  have hr := reset_statbytes_fields st
  have hq0 : (reset_statbytes st).quiet_flag = true := by
    unfold reset_statbytes; simp [hq]
  have hs0 : (reset_statbytes st).statbytes = 0 := by
    unfold reset_statbytes; simp [hq]
  have hm0 : (reset_statbytes st).meter = st.meter := by
    unfold reset_statbytes; simp [hq]
  obtain ⟨d, e1, e2, e3, _⟩ := read_body_quiet (st.dfp.length + 1) (reset_statbytes st) hq0
    (by rw [hs0]; omega)
  refine ⟨_, retrieve_plain fuel st hc (by rw [read_body_chunked, hr.2.1, hc]), ?_, ?_⟩
  · rw [e2, hs0]
    unfold delivered
    rw [e1, hr.2.2.2.2.2, List.length_append]
    congr 1
    omega
  · rw [e3, hm0]

theorem retrieve_loop_meter : ∀ (fuel : Nat) (st st' : State), st.quiet_flag = false →
    retrieve_loop fuel st = some st' →
    st'.statbytes = 0 ∧ ∃ rs, st'.meter = st.meter ++ rs ∧ ∀ r ∈ rs, r ≤ BUFSIZ := by
  intro fuel
  induction fuel with
  | zero => intro st st' _ h; cases h
  | succ fuel ih =>
    intro st st' hq h
    rw [retrieve_loop_succ] at h
    have hq0 : (reset_statbytes st).quiet_flag = false := by
      unfold reset_statbytes progressmeter; simp [hq]
    have hs0 : (reset_statbytes st).statbytes = 0 := by
      unfold reset_statbytes progressmeter; simp [hq]
    have hm0 : (reset_statbytes st).meter = st.meter ++ [0] := by
      unfold reset_statbytes progressmeter; simp [hq]
    obtain ⟨rs, e1, e2, e3, e4⟩ := read_body_meter (st.dfp.length + 1) (reset_statbytes st) hq0 hs0
    have hn := next_chunk_counter (read_body (st.dfp.length + 1) (reset_statbytes st))
    split_ifs at h
    · obtain ⟨i1, rs2, i2, i3⟩ := ih _ st' (hn.2.2.1.trans e4) h
      refine ⟨i1, 0 :: rs ++ rs2, ?_, ?_⟩
      · rw [i2, hn.2.1, e1, hm0]; simp
      · intro r hr
        simp only [List.cons_append, List.mem_cons, List.mem_append] at hr
        rcases hr with h | h | h
        · rw [h]; exact Nat.zero_le _
        · exact e2 r h
        · exact i3 r h
    · cases h
      refine ⟨hn.1.trans e3, 0 :: rs, ?_, ?_⟩
      · rw [hn.2.1, e1, hm0]; simp
      · intro r hr
        rcases List.mem_cons.mp hr with h | h
        · rw [h]; exact Nat.zero_le _
        · exact e2 r h

/-- Without `-q`, whatever the framing, the retrieval ends with `statbytes`
at 0, and no call of the progress meter in it has read more than the size of
one block from `statbytes`. -/
theorem retrieve_meter (fuel : Nat) (st st' : State) (hq : st.quiet_flag = false)
    (h : retrieve fuel st = some st') :
    st'.statbytes = 0 ∧ ∃ rs, st'.meter = st.meter ++ rs ∧ ∀ r ∈ rs, r ≤ BUFSIZ := by
  unfold retrieve at h
  by_cases hc : st.chunked = true
  · simp only [hc, if_true] at h
    have hl := retrieve_loop_meter fuel _ st' (by exact hq) h
    exact hl
  · simp only [hc, if_false] at h
    exact retrieve_loop_meter fuel st st' hq h

/-- C21 (failing inputs): without `-q`, a body of 600 bytes whose size is
not announced is delivered in two blocks; the progress meter reads 0 at the
start, 512 after the first block and 88 after the second, when 600 bytes
have been delivered, and `statbytes` ends at 0.  A body of the two chunks
`abc` and `de` gives the readings 0, 3, 0, 2; and with `-q` it leaves
`statbytes` at 2 when 5 bytes have been delivered. -/
theorem meter_reads_reset_counter :
    (retrieve 1 (final_state (http_session server_two_blocks plain_start))).map
        (fun s => ((written s).length, s.meter, s.statbytes)) = some (600, [0, 512, 88], 0) ∧
    (retrieve 3 (final_state (http_session server_two_chunks plain_start))).map
        (fun s => (written s, s.meter, s.statbytes)) = some ("abcde".toList, [0, 3, 0, 2], 0) ∧
    (retrieve 3 (final_state (http_session server_two_chunks quiet_start))).map
        (fun s => (written s, s.meter, s.statbytes)) = some ("abcde".toList, [], 2) := by
  decide

/-! ## The line that `gethdr` consumes (claim C22) -/

theorem fgets_split_eof (l : List Char) (hl : ∀ c ∈ l, c ≠ '\n') :
    ∀ k, l.length ≤ k → fgets_split k l = (l, []) := by
  induction l with
  | nil => intro k _; cases k <;> rfl
  | cons a l ih =>
    intro k hk
    obtain ⟨k, rfl⟩ : ∃ j, k = j + 1 := ⟨k - 1, by simp at hk; omega⟩
    have ha : a ≠ '\n' := hl a (by simp)
    have := ih (fun c hc => hl c (by simp [hc])) k (by simp at hk; omega)
    simp [fgets_split, ha, this]

theorem dropWhile_append_all (p : Char → Bool) (x r : List Char) (hx : ∀ c ∈ x, p c = true) :
    (x ++ r).dropWhile p = r.dropWhile p := by
  induction x with
  | nil => rfl
  | cons a x ih =>
    have ha : p a = true := hx a (by simp)
    simp only [List.cons_append, List.dropWhile_cons, ha, if_true]
    exact ih (fun c hc => hx c (by simp [hc]))

theorem skip_line_newline (l rest : List Char) (hl : ∀ c ∈ l, c ≠ '\n') :
    skip_line (l ++ '\n' :: rest) = rest := by
  unfold skip_line
  rw [dropWhile_append_stop _ l rest '\n' (fun c hc => by simpa using hl c hc) (by simp)]
  rfl

theorem skip_line_no_newline (l : List Char) (hl : ∀ c ∈ l, c ≠ '\n') : skip_line l = [] := by
  unfold skip_line
  rw [dropWhile_all _ l (fun c hc => by simpa using hl c hc)]
  rfl

theorem skip_line_append (x r : List Char) (hx : ∀ c ∈ x, c ≠ '\n') :
    skip_line (x ++ r) = skip_line r := by
  unfold skip_line
  rw [dropWhile_append_all _ x r (fun c hc => by simpa using hx c hc)]

/-- What `fgets` takes from a stream, in terms of the first physical line
`l` of the stream (the bytes in front of its first newline). -/
theorem fgets_split_first_line (k : Nat) (fp : Stream) :
    ((fp.takeWhile (fun c => c != '\n')).length < k →
      (fgets_split k fp).2 = skip_line fp ∧
      ((fgets_split k fp).1 = fp.takeWhile (fun c => c != '\n') ++ ['\n'] ∨
        (fgets_split k fp).2 = [])) ∧
    (k ≤ (fp.takeWhile (fun c => c != '\n')).length →
      (fgets_split k fp).1 = (fp.takeWhile (fun c => c != '\n')).take k ∧
      skip_line (fgets_split k fp).2 = skip_line fp) := by
  have hl : ∀ c ∈ fp.takeWhile (fun c => c != '\n'), c ≠ '\n' := by
    intro c hc
    simpa using (List.mem_takeWhile_imp hc)
  have hsplit := List.takeWhile_append_dropWhile (fun c => c != '\n') fp
  cases hd : fp.dropWhile (fun c => c != '\n') with
  | nil =>
    rw [hd, List.append_nil] at hsplit
    have e1 : fgets_split k fp = fgets_split k (fp.takeWhile (fun c => c != '\n')) := by
      rw [hsplit]
    have e2 : skip_line fp = [] := by
      rw [← hsplit]; exact skip_line_no_newline _ hl
    rw [e1, e2]
    refine ⟨fun h => ?_, fun h => ?_⟩
    · rw [fgets_split_eof _ hl k (by omega)]
      exact ⟨rfl, Or.inr rfl⟩
    · have e := fgets_split_full _ [] hl k h
      rw [List.append_nil] at e
      rw [e]
      refine ⟨rfl, ?_⟩
      rw [List.append_nil]
      exact skip_line_no_newline _ (fun c hc => hl c (List.mem_of_mem_drop hc))
  | cons c rest =>
    have hc : c = '\n' := by
      have := List.head_dropWhile_not (fun c => c != '\n') fp (by rw [hd]; simp)
      simp only [hd, List.head_cons] at this
      simpa using this
    subst hc
    rw [hd] at hsplit
    have e1 : fgets_split k fp
        = fgets_split k (fp.takeWhile (fun c => c != '\n') ++ '\n' :: rest) := by
      rw [hsplit]
    have e2 : skip_line fp = rest := by
      conv_lhs => rw [← hsplit]
      exact skip_line_newline _ rest hl
    rw [e1, e2]
    refine ⟨fun h => ?_, fun h => ?_⟩
    · rw [fgets_split_line _ rest hl k h]
      exact ⟨rfl, Or.inl rfl⟩
    · rw [fgets_split_full _ ('\n' :: rest) hl k h]
      refine ⟨rfl, ?_⟩
      rw [skip_line_append _ _ (fun c hc => hl c (List.mem_of_mem_drop hc))]
      exact skip_line_newline [] rest (by simp)

theorem gethdr_scan_fp (b : List Char) (fp : Stream) (r : GetHdr)
    (h : gethdr_scan b fp = Except.ok r) (hr : r.ret.isSome = true) :
    (b.dropWhile is_name_char).headD NUL = ':' ∧
    ((((b.dropWhile is_name_char).tail.dropWhile is_blank).dropWhile is_value_char).headD NUL
        ≠ NUL → r.fp = fp) ∧
    ((((b.dropWhile is_name_char).tail.dropWhile is_blank).dropWhile is_value_char).headD NUL
        = NUL → r.fp = skip_line fp) := by
  by_cases h1 : (((b.dropWhile (fun c => c == '\r')).headD NUL) == '\n') = true
  · simp only [gethdr_scan, h1, if_true] at h
    cases h
    simp at hr
  · by_cases h2 : (((b.dropWhile is_name_char).headD NUL) != ':') = true
    · simp only [gethdr_scan, h1, h2, if_true, if_false] at h
      cases h
    · by_cases h3 : (((((b.dropWhile is_name_char).tail.dropWhile is_blank).dropWhile
          is_value_char).headD NUL) != NUL) = true
      · simp only [gethdr_scan, h1, h2, h3, if_true, if_false] at h
        cases h
        refine ⟨by simpa using h2, fun _ => rfl, fun h4 => ?_⟩
        exact absurd h4 (by simpa using h3)
      · simp only [gethdr_scan, h1, h2, h3, if_true, if_false] at h
        cases h
        refine ⟨by simpa using h2, fun h4 => ?_, fun _ => rfl⟩
        exact absurd (by simpa using h3) h4

theorem value_scan_mark (l : List Char) (m : Char) (tl : List Char)
    (hm1 : is_name_char m = false) (hm2 : is_blank m = false) (hm3 : is_value_char m = false)
    (hm4 : m ≠ ':') (hc : ((l ++ m :: tl).dropWhile is_name_char).headD NUL = ':') :
    ∃ x : List Char, (((l ++ m :: tl).dropWhile is_name_char).tail.dropWhile is_blank).dropWhile
        is_value_char = x.dropWhile is_value_char ++ m :: tl ∧ ∀ c ∈ x, c ∈ l := by
  rw [dropWhile_append_of_stop is_name_char l tl m hm1] at hc ⊢
  have hsub : ∀ c ∈ l.dropWhile is_name_char, c ∈ l :=
    fun c hc => (List.dropWhile_suffix is_name_char).subset hc
  cases hx : l.dropWhile is_name_char with
  | nil =>
    rw [hx] at hc
    exact absurd hc hm4
  | cons c x1 =>
    rw [hx] at hsub
    refine ⟨x1.dropWhile is_blank, ?_, ?_⟩
    · simp only [List.cons_append, List.tail_cons]
      rw [dropWhile_append_of_stop is_blank x1 tl m hm2,
        dropWhile_append_of_stop is_value_char _ tl m hm3]
    · intro d hd
      exact hsub d (List.mem_cons_of_mem _ ((List.dropWhile_suffix is_blank).subset hd))

/-- When `gethdr` returns a (name, value) pair it has consumed exactly the
first physical line of the stream, provided that no NUL byte is among the
bytes of the line that fit in the buffer and that either the whole line with
its newline fits in the buffer or no `\r` is among the bytes that fit. -/
theorem gethdr_one_line (buf : List Char) (bufsiz : Nat) (fp : Stream) (r : GetHdr)
    (h : gethdr buf bufsiz fp = Except.ok r) (hr : r.ret.isSome = true)
    (hnul : ∀ c ∈ (fp.takeWhile (fun c => c != '\n')).take (bufsiz - 1), c ≠ NUL)
    (hfit : (fp.takeWhile (fun c => c != '\n')).length < bufsiz - 1 ∨
      ∀ c ∈ (fp.takeWhile (fun c => c != '\n')).take (bufsiz - 1), c ≠ '\r') :
    r.fp = skip_line fp := by
  cases fp with
  | nil =>
    simp only [gethdr, fgets, Bool.not_false, if_true] at h
    cases h
    simp at hr
  | cons a t =>
    have hg : gethdr buf bufsiz (a :: t)
        = gethdr_scan (store buf ((fgets_split (bufsiz - 1) (a :: t)).1 ++ [NUL]))
            (fgets_split (bufsiz - 1) (a :: t)).2 := by
      simp only [gethdr, fgets, Bool.not_true, Bool.false_eq_true, if_false]
    rw [hg] at h
    have hst : store buf ((fgets_split (bufsiz - 1) (a :: t)).1 ++ [NUL])
        = (fgets_split (bufsiz - 1) (a :: t)).1
            ++ NUL :: buf.drop ((fgets_split (bufsiz - 1) (a :: t)).1 ++ [NUL]).length := by
      simp [store]
    rw [hst] at h
    have hs := gethdr_scan_fp _ _ r h hr
    have hf := fgets_split_first_line (bufsiz - 1) (a :: t)
    have hl : ∀ c ∈ (a :: t).takeWhile (fun c => c != '\n'), c ≠ '\n' := by
      intro c hc
      simpa using (List.mem_takeWhile_imp hc)
    by_cases hk : ((a :: t).takeWhile (fun c => c != '\n')).length < bufsiz - 1
    · obtain ⟨e2, e1 | e3⟩ := hf.1 hk
      · rw [e1, List.append_assoc] at hs
        simp only [List.cons_append, List.nil_append] at hs
        obtain ⟨x, ex, hx⟩ := value_scan_mark _ '\n' _ (by decide) (by decide) (by decide)
          (by decide) hs.1
        rw [← e2]
        apply hs.2.1
        rw [ex]
        cases hv : x.dropWhile is_value_char with
        | nil =>
          show '\n' ≠ NUL
          decide
        | cons c v =>
          have hc1 : c ∈ x := (List.dropWhile_suffix is_value_char).subset (by rw [hv]; simp)
          have hc2 := hx c hc1
          rw [List.take_of_length_le (by omega)] at hnul
          exact hnul c hc2
      · rw [← e2, e3]
        by_cases h4 : (((((fgets_split (bufsiz - 1) (a :: t)).1 ++ NUL :: buf.drop
            ((fgets_split (bufsiz - 1) (a :: t)).1 ++ [NUL]).length).dropWhile
            is_name_char).tail.dropWhile is_blank).dropWhile is_value_char).headD NUL = NUL
        · rw [hs.2.2 h4, e3]; rfl
        · rw [hs.2.1 h4, e3]
    · obtain ⟨e1, e2⟩ := hf.2 (by omega)
      have hcr := hfit.resolve_left hk
      rw [← e2]
      apply hs.2.2
      obtain ⟨x, ex, hx⟩ := value_scan_mark _ NUL _ (by decide) (by decide) (by decide)
        (by decide) hs.1
      rw [ex]
      have hall : ∀ c ∈ x, is_value_char c = true := by
        intro c hc
        have hm := hx c hc
        rw [e1] at hm
        have n1 := hnul c hm
        have n2 := hcr c hm
        have n3 := hl c (List.mem_of_mem_take hm)
        simp [is_value_char, n1, n2, n3]
      rw [dropWhile_all _ x hall]
      rfl

theorem gethdr_one_line_witness :
    (gethdr [] 512 "Content-Length: 5\r\nrest".toList).toOption.map (fun r => r.fp)
      = some (skip_line "Content-Length: 5\r\nrest".toList) := by
  have h : gethdr [] 512 "Content-Length: 5\r\nrest".toList
      = Except.ok { ret := some "5".toList,
                    buf := "content-length".toList ++ NUL :: ' ' :: '5' :: NUL :: '\n' :: [NUL],
                    fp := "rest".toList, istrunc := 0 } := rfl
  have e := gethdr_one_line [] 512 "Content-Length: 5\r\nrest".toList _ h rfl (by decide)
    (Or.inl (by decide))
  rw [h]
  exact congrArg some e

/-- C22 (failing input): the line `padded_line` has 512 bytes, its `\r` is
the 511th, the last byte that fits in a buffer of 512 bytes.  `gethdr`
returns its name and value without the truncation flag and leaves the `\n`
of the line unread, so the stream is not at the start of the next line; in a
session the next call then reports the end of the headers and the header
`Content-Length` that follows is taken for the body. -/
theorem gethdr_cr_at_buffer_end :
    padded_line.length = 512 ∧
    padded_line.take 511 = "X-Pad: ".toList ++ List.replicate 503 'a' ++ ['\r'] ∧
    skip_line (padded_line ++ "Content-Length: 5\r\n\r\nhello".toList)
      = "Content-Length: 5\r\n\r\nhello".toList ∧
    (gethdr [] 512 (padded_line ++ "Content-Length: 5\r\n\r\nhello".toList)).toOption.map
        (fun r => (r.ret, r.istrunc, r.fp))
      = some (some (List.replicate 503 'a'), 0, "\nContent-Length: 5\r\n\r\nhello".toList) ∧
    fatal_of (http_session server_padded_header plain_start) = none ∧
    (final_state (http_session server_padded_header plain_start)).got_clen = false ∧
    (final_state (http_session server_padded_header plain_start)).dfp
      = "Content-Length: 5\r\n\r\nhello".toList := by
  decide

/-! ## The request target for a proxy, parsed again (claim C23) -/

theorem strtol_range (s : List Char) (base : Nat) :
    LONG_MIN ≤ strtol s base ∧ strtol s base ≤ LONG_MAX := by
  unfold strtol LONG_MIN LONG_MAX
  dsimp only
  split_ifs <;> constructor <;> omega

theorem strtol_minus (l : List Char) :
    strtol ('-' :: l) 10 = max (-((strtol_digits 10 l 0 : Nat) : Int)) LONG_MIN := by
  unfold strtol
  have e1 : ('-' :: l).dropWhile isspace = '-' :: l := by
    have : isspace '-' = false := by decide
    simp [List.dropWhile, this]
  simp only [e1, List.head?_cons, beq_self_eq_true, Bool.true_or, if_true, List.tail_cons]
  cases l with
  | nil => rfl
  | cons x r =>
    cases r with
    | nil => rfl
    | cons y r => simp

theorem atoi_fmt_int (p : Int) (h1 : LONG_MIN ≤ p) (h2 : p ≤ LONG_MAX) (t : List Char)
    (h : ∀ c, t.head? = some c → isdigit c = false) : atoi (fmt_int p ++ t) = p := by
  unfold LONG_MIN at h1
  unfold LONG_MAX at h2
  unfold fmt_int
  by_cases hneg : p < 0
  · simp only [hneg, if_true]
    have hv := strtol_digits_numeral 10 (by omega) (by omega) p.natAbs 0 t
    rw [strtol_digits_stop_nondigit t _ h] at hv
    have hd : dec p.natAbs = digits_be 10 (p.natAbs + 1) p.natAbs [] := rfl
    unfold atoi
    rw [List.cons_append, strtol_minus, hd, hv]
    unfold LONG_MIN
    simp only [Nat.zero_mul, Nat.zero_add]
    omega
  · simp only [hneg, if_false]
    have := atoi_dec_small p.natAbs t (by omega) h
    rw [this]
    omega

theorem fmt_int_no_char (p : Int) (c : Char) (h1 : c ≠ '-')
    (h2 : ∀ d, d < 10 → digit_char d ≠ c) : ∀ x ∈ fmt_int p, x ≠ c := by
  intro x hx
  unfold fmt_int at hx
  split_ifs at hx
  · rcases List.mem_cons.mp hx with h | h
    · rw [h]; exact fun e => h1 e.symm
    · exact dec_no_char _ c h2 x h
  · exact dec_no_char _ c h2 x hx

/-- `parse_url` on `scheme://host:port/path` for a host free of `/`, `@` and
`:` and a port text free of `/` and `@`. -/
theorem parse_url_full (f : Bool) (host pt path : CStr)
    (hh : ∀ x ∈ host, x ≠ '/' ∧ x ≠ '@' ∧ x ≠ ':') (hpt : ∀ x ∈ pt, x ≠ '/' ∧ x ≠ '@') :
    parse_url (scheme_text f ++ (host ++ ':' :: (pt ++ '/' :: path))) =
      Except.ok { host := host, port := atoi pt, path := path, is_ftp := f, user := none } := by
  have hauth : ∀ x ∈ host ++ ':' :: pt, x ≠ '/' ∧ x ≠ '@' := by
    intro x hx
    rcases List.mem_append.mp hx with h | h
    · exact ⟨(hh x h).1, (hh x h).2.1⟩
    · rcases List.mem_cons.mp h with h | h
      · rw [h]; decide
      · exact hpt x h
  have e0 : host ++ ':' :: (pt ++ '/' :: path) = (host ++ ':' :: pt) ++ '/' :: path := by simp
  have e1 : authority (host ++ ':' :: (pt ++ '/' :: path)) = host ++ ':' :: pt := by
    rw [e0]
    exact takeWhile_append_stop _ _ _ _ (fun x hx => by simpa using (hauth x hx).1) (by simp)
  rw [parse_url_of_splits f _, e1, host_port_of_no_at _ (fun x hx => (hauth x hx).2),
    strchr_split_append ':' host pt (fun x hx => (hh x hx).2.2),
    strrchr_split_none '@' _ (fun x hx => (hauth x hx).2), e0,
    strchr_split_append '/' _ path (fun x hx => (hauth x hx).1)]
  rfl

/-- The host that `parse_url` gives has no `/`, `@` or `:`, and its port is
an `int`. -/
theorem parse_url_host_port (url : CStr) (h : host_info) (hp : parse_url url = Except.ok h) :
    (∀ x ∈ h.host, x ≠ '/' ∧ x ≠ '@' ∧ x ≠ ':') ∧ LONG_MIN ≤ h.port ∧ h.port ≤ LONG_MAX := by
  have key : ∀ (f : Bool) (rest : CStr), parse_url (scheme_text f ++ rest) = Except.ok h →
      (∀ x ∈ h.host, x ≠ '/' ∧ x ≠ '@' ∧ x ≠ ':') ∧ LONG_MIN ≤ h.port ∧ h.port ≤ LONG_MAX := by
    intro f rest hq
    rw [parse_url_of_splits f rest] at hq
    cases hq
    refine ⟨?_, ?_⟩
    · intro x hx
      dsimp only at hx
      rw [strchr_split_fst] at hx
      have h1 := List.mem_takeWhile_imp hx
      have h2 := (List.takeWhile_sublist _).subset hx
      exact ⟨authority_no_slash_mem rest x (host_port_subset _ x h2),
        host_port_no_at _ x h2, by simpa using h1⟩
    · dsimp only
      cases strchr_split ':' (host_port (authority rest)) with
      | none =>
        simp only [Option.map, Option.getD]
        cases f <;> decide
      | some r =>
        simp only [Option.map, Option.getD]
        exact strtol_range _ _
  rcases parse_url_cases url with ⟨_, e⟩ | ⟨_, _, e⟩ | ⟨_, _, e⟩
  · rw [e] at hp; exact key false _ hp
  · rw [e] at hp; exact key true _ hp
  · rw [e] at hp; cases hp

theorem request_target_text (h : host_info) :
    request_target h true
      = scheme_text h.is_ftp ++ (h.host ++ ':' :: (fmt_int h.port ++ '/' :: h.path)) := by
  unfold request_target scheme_text
  cases h.is_ftp <;> simp

/-- C23: for every address `h` that `parse_url` produces, the request target
that `wget_main` writes for a proxy, `<ht|f>tp://` + `h.host` + `:` + the
decimal `h.port` + `/` + `h.path`, is parsed by `parse_url` to the scheme
tag, host, port and path of `h` (and to no user). -/
theorem proxy_target_round_trip (url : CStr) (h : host_info)
    (hp : parse_url url = Except.ok h) :
    (∀ st : State, st.proxy = true → st.target = h →
      request_line st = "GET ".toList ++ request_target h true ++ " HTTP/1.1\r\n".toList) ∧
    parse_url (request_target h true) = Except.ok { h with user := none } := by
  constructor
  · intro st hpr ht
    unfold request_line request_target
    rw [hpr, ht]
    cases h.is_ftp <;> simp
  · obtain ⟨hh, h1, h2⟩ := parse_url_host_port url h hp
    rw [request_target_text, parse_url_full h.is_ftp h.host (fmt_int h.port) h.path hh
      (fun x hx => ⟨fmt_int_no_char _ '/' (by decide) (by decide) x hx,
        fmt_int_no_char _ '@' (by decide) (by decide) x hx⟩)]
    have := atoi_fmt_int h.port h1 h2 [] (by simp)
    rw [List.append_nil] at this
    rw [this]

theorem proxy_target_round_trip_witness :
    (∀ st : State, st.proxy = true →
      st.target = { host := "host".toList, port := -8080, path := "a/b".toList, is_ftp := true,
                    user := some "user:pw".toList } →
      request_line st = "GET ftp://host:-8080/a/b HTTP/1.1\r\n".toList) ∧
    parse_url "ftp://host:-8080/a/b".toList
      = Except.ok { host := "host".toList, port := -8080, path := "a/b".toList, is_ftp := true,
                    user := none } :=
  proxy_target_round_trip "ftp://user:pw@host:-8080/a/b".toList
    { host := "host".toList, port := -8080, path := "a/b".toList, is_ftp := true,
      user := some "user:pw".toList } rfl

/-! ## The stores of `base64enc` stay in the buffer (claim C24) -/

/-- Every store of the loop of `base64enc` goes to an offset below `len`. -/
theorem base64enc_stores_below (len : Int) : ∀ (n : Nat) (p : CStr) (s : Nat), p.length ≤ n →
    ∀ w ∈ base64enc_stores len p s, ((w.1 : Nat) : Int) < len := by
  intro n
  induction n using Nat.strong_induction_on with
  | _ n ih =>
    intro p s hn w hw
    match p, hn, hw with
    | [], _, hw => simp [base64enc_stores] at hw
    | [c0], _, hw =>
      simp only [base64enc_stores] at hw
      split_ifs at hw with h
      · simp at hw
      · simp only [List.mem_cons, List.mem_singleton, List.not_mem_nil, or_false] at hw
        rcases hw with h | h | h | h | h <;> rw [h] <;> push_cast <;> omega
    | [c0, c1], _, hw =>
      simp only [base64enc_stores] at hw
      split_ifs at hw with h
      · simp at hw
      · simp only [List.mem_cons, List.mem_singleton, List.not_mem_nil, or_false] at hw
        rcases hw with h | h | h | h | h | h <;> rw [h] <;> push_cast <;> omega
    | c0 :: c1 :: c2 :: p, hn, hw =>
      simp only [base64enc_stores] at hw
      split_ifs at hw with h
      · simp at hw
      · simp only [List.cons_append, List.nil_append, List.mem_cons] at hw
        rcases hw with h | h | h | h | h | h | h | h
        · rw [h]; push_cast; omega
        · rw [h]; push_cast; omega
        · rw [h]; push_cast; omega
        · rw [h]; push_cast; omega
        · rw [h]; push_cast; omega
        · rw [h]; push_cast; omega
        · rw [h]; push_cast; omega
        · exact ih p.length (by simp at hn; omega) p (s + 4) (le_refl _) w h

/-- The memory the loop of `base64enc` ends with is the memory it started
with after the stores of `base64enc_stores`. -/
theorem base64enc_loop_stored (len : Int) : ∀ (n : Nat) (p : CStr) (buf b : List Char) (s : Nat),
    p.length ≤ n → base64enc_loop len p buf s = Except.ok b →
    b = stored buf (base64enc_stores len p s) := by
  intro n
  induction n using Nat.strong_induction_on with
  | _ n ih =>
    intro p buf b s hn h
    match p, hn, h with
    | [], _, h =>
      simp only [base64enc_loop] at h
      cases h
      rfl
    | [c0], _, h =>
      simp only [base64enc_loop] at h
      split_ifs at h with h4
      cases h
      simp only [base64enc_stores, h4, if_false]
      rfl
    | [c0, c1], _, h =>
      simp only [base64enc_loop] at h
      split_ifs at h with h4
      cases h
      simp only [base64enc_stores, h4, if_false]
      rfl
    | c0 :: c1 :: c2 :: p, hn, h =>
      simp only [base64enc_loop] at h
      split_ifs at h with h4
      have := ih p.length (by simp at hn; omega) p _ b (s + 4) (le_refl _) h
      rw [this]
      simp only [base64enc_stores, h4, if_false, stored, List.foldl_append]
      rfl

theorem stored_length (m : List Char) : ∀ (ws : List (Nat × Char)),
    (∀ w ∈ ws, w.1 < m.length) → (stored m ws).length = m.length := by
  intro ws
  induction ws generalizing m with
  | nil => intro _; rfl
  | cons w ws ih =>
    intro h
    have h1 := poke_length m w.1 w.2 (h w (by simp))
    have := ih (poke m w.1 w.2) (fun x hx => by rw [h1]; exact h x (by simp [hx]))
    show (stored (poke m w.1 w.2) ws).length = m.length
    rw [this, h1]

theorem poke_drop (m : List Char) (i k : Nat) (c : Char) (h : i < k) :
    (poke m i c).drop k = m.drop k := by
  unfold poke
  by_cases hi : i < m.length
  · rw [List.drop_append_eq_append_drop]
    have e1 : (m.take i).length = i := by rw [List.length_take]; omega
    rw [e1, List.drop_of_length_le (by rw [e1]; omega), List.nil_append]
    obtain ⟨j, rfl⟩ : ∃ j, k = i + 1 + j := ⟨k - i - 1, by omega⟩
    have e2 : i + 1 + j - i = j + 1 := by omega
    rw [e2, List.drop_succ_cons, List.drop_drop]
  · have e0 : m.length ≤ k := by omega
    rw [List.drop_of_length_le e0]
    apply List.drop_of_length_le
    simp only [List.length_append, List.length_take, List.length_cons, List.length_drop]
    omega

theorem stored_drop (k : Nat) : ∀ (ws : List (Nat × Char)) (m : List Char),
    (∀ w ∈ ws, w.1 < k) → (stored m ws).drop k = m.drop k := by
  intro ws
  induction ws with
  | nil => intro m _; rfl
  | cons w ws ih =>
    intro m h
    show (stored (poke m w.1 w.2) ws).drop k = m.drop k
    rw [ih _ (fun x hx => h x (by simp [hx])), poke_drop m w.1 k w.2 (h w (by simp))]

/-- C24: `base64enc(p, buf, len)` never stores at an offset of `buf` that is
not below `len`: every store it makes before it returns or dies, the `=`
padding and the terminating NUL included, goes to one of the offsets
`0 .. len-1`; the memory it returns is the given one after these stores, so
with `len` bytes in `buf` the length of the memory and every byte from the
offset `len` on are unchanged; and the only way it dies is "buffer
overflow". -/
theorem base64enc_within_buffer (p : CStr) (buf : List Char) (len : Int) :
    (∀ w ∈ base64enc_stores len p 0, ((w.1 : Nat) : Int) < len) ∧
    (∀ b, base64enc p buf len = Except.ok b →
      b = stored buf (base64enc_stores len p 0) ∧
      (len ≤ (buf.length : Int) →
        b.length = buf.length ∧ b.drop len.toNat = buf.drop len.toNat)) ∧
    (∀ e, base64enc p buf len = Except.error e → e = Fatal.buffer_overflow) := by
  have hbelow := base64enc_stores_below len p.length p 0 (le_refl _)
  refine ⟨hbelow, ?_, ?_⟩
  · intro b hb
    have hs := base64enc_loop_stored len p.length p buf b 0 (le_refl _) hb
    refine ⟨hs, fun hlen => ?_⟩
    rw [hs]
    constructor
    · apply stored_length
      intro w hw
      have := hbelow w hw
      omega
    · apply stored_drop
      intro w hw
      have := hbelow w hw
      omega
  · intro e he
    exact base64enc_loop_error len p.length p buf 0 e (le_refl _) he

theorem base64enc_within_buffer_witness :
    ((4 : Nat) : Int) < 8 ∧
    (("YQ==".toList ++ NUL :: "yz".toList).length = (List.replicate 5 'x' ++ "yz".toList).length ∧
      ("YQ==".toList ++ NUL :: "yz".toList).drop (5 : Int).toNat
        = (List.replicate 5 'x' ++ "yz".toList).drop (5 : Int).toNat) ∧
    Fatal.buffer_overflow = Fatal.buffer_overflow :=
  ⟨(base64enc_within_buffer "ab".toList (List.replicate 8 'x') 8).1 (4, NUL) (by decide),
   ((base64enc_within_buffer "a".toList (List.replicate 5 'x' ++ "yz".toList) 5).2.1
      ("YQ==".toList ++ NUL :: "yz".toList) rfl).2 (by decide),
   (base64enc_within_buffer "ab".toList (List.replicate 5 'x' ++ "yz".toList) 4).2.2
      Fatal.buffer_overflow rfl⟩

/-! ## A response of status 200 to the first request (claims C6, C12) -/

theorem status_200_read (t : List Char) :
    atoi (status_tail (status_line_200 ++ NUL :: t)) = 200 := by
  rfl

theorem fgets_status_200 (buf rest : List Char) :
    fgets buf BUFSIZ (status_line_200 ++ rest)
      = (true, status_line_200 ++ NUL :: buf.drop 18, rest) := by
  have h := fgets_line buf "HTTP/1.1 200 OK\r".toList rest BUFSIZ (by decide) (by decide)
  have e1 : "HTTP/1.1 200 OK\r".toList ++ '\n' :: rest = status_line_200 ++ rest := by
    simp [status_line_200]
  rw [e1] at h
  rw [h]
  simp [store, status_line_200]

/-- The label `read_response` on a response that starts with the status line
`HTTP/1.1 200 OK`: the status is 200, the resume flag is cleared and, when it
was set and the output is a file, the file is reopened truncated. -/
theorem read_response_200 (env : Env) (fuel : Nat) (st : State) (rest : List Char)
    (h : st.sfp = status_line_200 ++ rest) :
    read_response env (fuel + 1) st =
      Except.ok { (if st.do_continue != 0 && st.output != Sink.stdout then
            freopen_w { st with buf := status_line_200 ++ NUL :: st.buf.drop 18, sfp := rest,
                                status := 200 }
          else { st with buf := status_line_200 ++ NUL :: st.buf.drop 18, sfp := rest,
                         status := 200 })
          with do_continue := 0 } := by
  rw [read_response_succ, h, fgets_status_200]
  simp only [status_200_read]
  rfl

theorem read_headers_end (fuel : Nat) (st : State) (body : List Char)
    (h : st.sfp = '\r' :: '\n' :: body) :
    read_headers (fuel + 1) st
      = Except.ok { st with buf := '\r' :: '\n' :: NUL :: st.buf.drop 3, sfp := body, n := 0 } := by
  have hf : fgets st.buf BUFSIZ ('\r' :: '\n' :: body)
      = (true, '\r' :: '\n' :: NUL :: st.buf.drop 3, body) := by
    have := fgets_line st.buf ['\r'] body BUFSIZ (by decide) (by decide)
    simp only [List.singleton_append] at this
    rw [this]
    simp [store]
  simp only [read_headers, h, gethdr, hf]
  rfl

theorem dec_digits (n : Nat) : ∀ c ∈ dec n, isdigit c = true := by
  intro c hc
  obtain ⟨d, hd, rfl⟩ := digits_be_mem 10 (by omega) n c hc
  exact (digit_char_isdigit d hd).1

theorem dec_length_le (n : Nat) (h : n ≤ 2147483647) : (dec n).length ≤ 10 :=
  digits_be_length 10 (by omega) 9 n (by omega)

theorem read_headers_content_length (fuel : Nat) (st : State) (n : Nat) (rest : List Char)
    (hn : n ≤ 2147483647) (h : st.sfp = content_length_line n ++ rest) :
    ∃ b, read_headers (fuel + 1) st
      = read_headers fuel { st with buf := b, sfp := rest, n := 0, filesize := (n : Int),
                                    got_clen := true } := by
  have hd := dec_digits n
  have hlen := dec_length_le n hn
  have hnl : ∀ c ∈ "Content-Length: ".toList ++ dec n ++ ['\r'], c ≠ '\n' := by
    intro c hc
    simp only [List.mem_append, List.mem_singleton] at hc
    rcases hc with (hc | hc) | hc
    · revert c; decide
    · intro e; have := hd c hc; rw [e] at this; exact absurd this (by decide)
    · rw [hc]; decide
  have hf := fgets_line st.buf ("Content-Length: ".toList ++ dec n ++ ['\r']) rest BUFSIZ hnl
    (by simp only [List.length_append, List.length_singleton]
        have : "Content-Length: ".toList.length = 16 := rfl
        rw [this]; unfold BUFSIZ; omega)
  have e1 : "Content-Length: ".toList ++ dec n ++ ['\r'] ++ '\n' :: rest
      = content_length_line n ++ rest := by
    simp [content_length_line]
  have e2 : "Content-Length: ".toList ++ dec n ++ ['\r'] ++ ['\n'] ++ [NUL]
      = "Content-Length".toList ++ ':' :: (' ' :: dec n ++ "\r\n".toList) ++ [NUL] := by
    simp
  rw [e1, e2] at hf
  obtain ⟨b, hb, hg⟩ := gethdr_colon st.buf BUFSIZ (content_length_line n ++ rest) rest
    "Content-Length".toList (' ' :: dec n ++ "\r\n".toList) hf (by decide)
  have hblank : (' ' :: dec n ++ "\r\n".toList).dropWhile is_blank = dec n ++ "\r\n".toList := by
    have hne := digits_be_ne_nil 10 (by omega) n
    have hb0 : is_blank ' ' = true := by decide
    simp only [List.cons_append, List.dropWhile_cons, hb0, if_true]
    cases hdn : dec n with
    | nil => exact absurd hdn hne
    | cons c t =>
      have hc : isdigit c = true := hd c (by rw [hdn]; simp)
      have : is_blank c = false := by
        unfold is_blank
        have h1 : c ≠ ' ' := by intro e; rw [e] at hc; exact absurd hc (by decide)
        have h2 : c ≠ '\t' := by intro e; rw [e] at hc; exact absurd hc (by decide)
        simp [h1, h2]
      simp [List.dropWhile, this]
  have hval : ∀ c ∈ dec n, is_value_char c = true := by
    intro c hc
    have hc' := hd c hc
    unfold is_value_char
    have h1 : c ≠ NUL := by intro e; rw [e] at hc'; exact absurd hc' (by decide)
    have h2 : c ≠ '\r' := by intro e; rw [e] at hc'; exact absurd hc' (by decide)
    have h3 : c ≠ '\n' := by intro e; rw [e] at hc'; exact absurd hc' (by decide)
    simp [h1, h2, h3]
  have hcr : is_value_char '\r' = false := by decide
  have htake : (dec n ++ "\r\n".toList).takeWhile is_value_char = dec n :=
    takeWhile_append_stop _ _ _ _ hval hcr
  have hdrop : (dec n ++ "\r\n".toList).dropWhile is_value_char = "\r\n".toList :=
    dropWhile_append_stop _ _ _ _ hval hcr
  rw [hblank, htake, hdrop] at hg
  have hstop : (("\r\n".toList).headD NUL != NUL) = true := by decide
  simp only [hstop, if_true] at hg
  have hat : atol (dec n) = (n : Int) := atoi_dec_port n hn
  have hname : strcaseeq (cstr b) "content-length".toList = true := by
    rw [hb]; decide
  refine ⟨b, ?_⟩
  simp only [read_headers, h, hg, handle_header, hname, if_true, hat]

/-- Lines 251-312 on a response `reply_200 size body`, in a state in which
no header has set `got_clen` or `chunked` yet: the status is 200, the
headers leave the size as the response announces it, and the body is what is
left on the connection. -/
theorem read_reply_200 (env : Env) (st : State) (size : Option Nat) (body : List Char)
    (hsfp : st.sfp = reply_200 size body) (hsize : ∀ n, size = some n → n ≤ 2147483647)
    (hg : st.got_clen = false) (hc : st.chunked = false) :
    ∃ st', read_reply env st = Except.ok st' ∧ st'.status = 200 ∧ st'.do_continue = 0 ∧
      st'.sfp = body ∧ st'.chunked = false ∧
      (size = none → st'.got_clen = false) ∧
      (∀ n, size = some n → st'.got_clen = true ∧ st'.filesize = (n : Int)) ∧
      st'.output = st.output ∧ st'.conns = st.conns ∧ st'.stdout = st.stdout ∧
      st'.outfile = (if st.do_continue != 0 && st.output != Sink.stdout then some []
        else st.outfile) := by
  obtain ⟨st1, hst1, f1, f2, f3⟩ : ∃ st1, read_response env (st.sfp.length + 1) st = Except.ok st1 ∧
      st1.sfp = size_header size ++ '\r' :: '\n' :: body ∧
      (st1.status = 200 ∧ st1.do_continue = 0 ∧ st1.chunked = false ∧
        st1.got_clen = false ∧ st1.output = st.output ∧ st1.conns = st.conns ∧
        st1.stdout = st.stdout) ∧
      st1.outfile = (if st.do_continue != 0 && st.output != Sink.stdout then some []
        else st.outfile) := by
    refine ⟨_, read_response_200 env st.sfp.length st _ hsfp, ?_, ?_, ?_⟩
    · split_ifs <;> rfl
    · split_ifs <;> exact ⟨rfl, rfl, hc, hg, rfl, rfl, rfl⟩
    · split_ifs <;> rfl
  unfold read_reply
  rw [hst1]
  simp only
  cases size with
  | none =>
    simp only [size_header, List.nil_append] at f1
    rw [read_headers_end st1.sfp.length st1 body f1]
    exact ⟨_, rfl, f2.1, f2.2.1, rfl, f2.2.2.1, fun _ => f2.2.2.2.1,
      fun n hn => (by cases hn), f2.2.2.2.2.1, f2.2.2.2.2.2.1, f2.2.2.2.2.2.2, f3⟩
  | some n =>
    simp only [size_header] at f1
    obtain ⟨b, hb⟩ := read_headers_content_length st1.sfp.length st1 n _ (hsize n rfl) f1
    rw [hb]
    have hlen : st1.sfp.length
        = ((content_length_line n).length + body.length + 1) + 1 := by
      rw [f1]
      simp only [List.length_append, List.length_cons]
      omega
    rw [hlen, read_headers_end _ _ body rfl]
    exact ⟨_, rfl, f2.1, f2.2.1, rfl, f2.2.2.1, fun h => (by cases h),
      fun k hk => (by cases hk; exact ⟨rfl, rfl⟩), f2.2.2.2.2.1, f2.2.2.2.2.2.1,
      f2.2.2.2.2.2.2, f3⟩

/-- Lines 217-312 for the first request of a session, answered with
`reply_200 size body`. -/
theorem http_exchange_200 (env : Env) (st : State) (size : Option Nat) (body : List Char)
    (hconns : st.conns = []) (hconn : ∀ h p, env.connect 0 h p = true)
    (hreply : ∀ h p sent, env.reply 0 h p sent = reply_200 size body)
    (hsend : (send_request st).2.2 = none) (hsize : ∀ n, size = some n → n ≤ 2147483647)
    (hg : st.got_clen = false) (hc : st.chunked = false) :
    ∃ st', http_exchange env st = Except.ok st' ∧ st'.status = 200 ∧ st'.do_continue = 0 ∧
      st'.sfp = body ∧ st'.chunked = false ∧
      (size = none → st'.got_clen = false) ∧
      (∀ n, size = some n → st'.got_clen = true ∧ st'.filesize = (n : Int)) ∧
      st'.output = st.output ∧ st'.conns.length = 1 ∧ st'.stdout = st.stdout ∧
      st'.outfile = (if st.do_continue != 0 && st.output != Sink.stdout then some []
        else st.outfile) := by
  unfold http_exchange
  simp only [hconns, List.length_nil, hconn, Bool.not_true, Bool.false_eq_true, if_false, hsend,
    hreply, List.nil_append]
  obtain ⟨st', h1, h2, h3, h4, h5, h6, h7, h8, h9, h10, h11⟩ := read_reply_200 env
    { st with buf := (send_request st).2.1,
              conns := [{ host := st.server.host, port := st.server.port,
                          sent := (send_request st).1 }],
              sfp := reply_200 size body } size body rfl hsize hg hc
  exact ⟨st', h1, h2, h3, h4, h5, h6, h7, h8, by rw [h9]; rfl, h10, h11⟩

theorem start_state_fresh (a : Start) :
    (start_state a).got_clen = false ∧ (start_state a).chunked = false ∧
    (start_state a).stdout = [] ∧ (start_state a).target = a.target ∧
    (start_state a).proxy = a.proxy.isSome ∧
    (∀ p, a.proxy = some p → (start_state a).server = p) := by
  unfold start_state
  refine ⟨rfl, rfl, rfl, rfl, rfl, ?_⟩
  intro p hp
  simp [hp]

/-- At the first response of status 200 the output holds nothing: the file
was opened truncated, or is reopened truncated, or held nothing. -/
theorem start_state_empty_output (a : Start) :
    written { start_state a with
      outfile := if (start_state a).do_continue != 0 && (start_state a).output != Sink.stdout
        then some [] else (start_state a).outfile } = [] := by
  unfold written start_state
  by_cases hf : a.fname_out = ['-']
  · simp [hf]
  · by_cases hd : a.do_continue = 0
    · simp [hf, hd]
    · cases ho : a.old_file with
      | none => simp [hf, hd]
      | some old =>
        cases old with
        | nil => simp [hf, hd]
        | cons c t =>
          have : (0 : Int) < (t.length : Int) + 1 := by omega
          simp [hf, hd, this]

/-- The first response decides: for every command line `a` (credentials
short enough for the buffer), every body and every server that accepts the
first connection and answers the first request with `HTTP/1.1 200 OK`, the
body, and either no header (size unknown) or `Content-Length` with the
number of bytes of the body, the session ends with status 200 and the resume
flag cleared after one connection, the output holds nothing before the
retrieval, and the retrieval loop writes the body, whole and unchanged. -/
theorem direct_200_body (env : Env) (a : Start) (size : Option Nat) (body : List Char)
    (fuel : Nat) (hconn : ∀ h p, env.connect 0 h p = true)
    (hreply : ∀ h p sent, env.reply 0 h p sent = reply_200 size body)
    (hsize : ∀ n, size = some n → n = body.length ∧ n ≤ 2147483647)
    (hfit1 : ∀ u, a.target.user = some u → u.length ≤ 381)
    (hfit2 : ∀ p u, a.proxy = some p → p.user = some u → u.length ≤ 381) :
    ∃ st st', http_session env a = Except.ok st ∧ st.status = 200 ∧ st.do_continue = 0 ∧
      st.conns.length = 1 ∧ written st = [] ∧ st.dfp = body ∧
      retrieve (fuel + 1) st = some st' ∧ written st' = body ∧ st'.dfp = [] := by
  have hs := start_state_try a
  have hfr := start_state_fresh a
  obtain ⟨_, _, _, hsend, _⟩ := send_request_composed { start_state a with try_ := (start_state a).try_ - 1 }
    (fun u hu => hfit1 u (by rw [← hfr.2.2.2.1]; exact hu))
    (fun u hp hu => by
      have hp' : a.proxy.isSome = true := by rw [← hfr.2.2.2.2.1]; exact hp
      obtain ⟨p, hpp⟩ := Option.isSome_iff_exists.mp hp'
      have hsv : (start_state a).server = p := hfr.2.2.2.2.2 p hpp
      exact hfit2 p u hpp (by rw [← hsv]; exact hu))
  obtain ⟨st1, h1, h2, h3, h4, h5, h6, h7, h8, h9, h10, h11⟩ := http_exchange_200 env
    { start_state a with try_ := (start_state a).try_ - 1 } size body hs.2 hconn hreply hsend
    (fun n hn => (hsize n hn).2) hfr.1 hfr.2.1
  have hsess : http_session env a = Except.ok { st1 with dfp := st1.sfp } := by
    unfold http_session
    simp only [http_loop]
    rw [(http_attempt_eq env (start_state a)).2 (by rw [hs.1]; decide), h1]
    simp only [h2]
    rfl
  have hw : written ({ st1 with dfp := st1.sfp } : State) = [] := by
    have := start_state_empty_output a
    unfold written at this ⊢
    simp only [h8, h10, h11]
    exact this
  obtain ⟨st', r1, r2, r3⟩ := retrieve_verbatim fuel { st1 with dfp := st1.sfp } h5
    (by
      cases size with
      | none => exact Or.inl (h6 rfl)
      | some n =>
        refine Or.inr ⟨(h7 n rfl).1, ?_⟩
        show st1.filesize = (st1.sfp.length : Int)
        rw [(h7 n rfl).2, h4, (hsize n rfl).1])
  refine ⟨_, st', hsess, h2, h3, h9, hw, h4, r1, ?_, r3⟩
  rw [r2, hw]
  show [] ++ st1.sfp = body
  rw [h4]
  rfl

theorem direct_200_body_witness :
    ∃ st st', http_session (server_chain 0) resume_start = Except.ok st ∧ st.status = 200 ∧
      st.do_continue = 0 ∧ st.conns.length = 1 ∧ written st = [] ∧ st.dfp = "hello".toList ∧
      retrieve 1 st = some st' ∧ written st' = "hello".toList ∧ st'.dfp = [] :=
  direct_200_body (server_chain 0) resume_start (some 5) "hello".toList 0 (fun _ _ => rfl)
    (fun _ _ _ => rfl) (fun n hn => by cases hn; exact ⟨rfl, by decide⟩)
    (fun u hu => by cases hu) (fun p u hp => by cases hp)

end Wget

namespace Mount

/-! ## The option string and its options -/

theorem options_of_ne_nil (s : Wget.CStr) : options_of s ≠ [] := by
  cases s with
  | nil => simp [options_of]
  | cons c s => simp only [options_of]; split_ifs <;> simp

theorem options_of_plain (l : Wget.CStr) (hl : ∀ x ∈ l, x ≠ ',') : options_of l = [l] := by
  induction l with
  | nil => rfl
  | cons a l ih =>
    have ha : a ≠ ',' := hl a (by simp)
    simp [options_of, ha, ih (fun x hx => hl x (by simp [hx]))]

theorem options_of_comma (l r : Wget.CStr) (hl : ∀ x ∈ l, x ≠ ',') :
    options_of (l ++ ',' :: r) = l :: options_of r := by
  induction l with
  | nil => simp [options_of]
  | cons a l ih =>
    have ha : a ≠ ',' := hl a (by simp)
    simp [options_of, ha, ih (fun x hx => hl x (by simp [hx]))]

/-- The options of an option string have no comma, and the string is its
options with a comma between each two. -/
theorem options_of_joined (s : Wget.CStr) :
    (∀ o ∈ options_of s, ∀ x ∈ o, x ≠ ',') ∧ comma_joined (options_of s) = s := by
  induction s with
  | nil => simp [options_of, comma_joined]
  | cons c s ih =>
    have hne := options_of_ne_nil s
    cases ho : options_of s with
    | nil => exact absurd ho hne
    | cons o os =>
      rw [ho] at ih
      by_cases hc : c = ','
      · subst hc
        simp only [options_of, beq_self_eq_true, if_true, ho]
        refine ⟨?_, ?_⟩
        · intro o' ho'
          rcases List.mem_cons.mp ho' with h | h
          · rw [h]; simp
          · exact ih.1 o' h
        · simp only [comma_joined, List.nil_append]
          rw [ih.2]
      · have hc' : (c == ',') = false := by simpa using hc
        simp only [options_of, hc', Bool.false_eq_true, if_false, ho, List.headD_cons,
          List.tail_cons]
        refine ⟨?_, ?_⟩
        · intro o' ho'
          rcases List.mem_cons.mp ho' with h | h
          · rw [h]
            intro x hx
            rcases List.mem_cons.mp hx with h2 | h2
            · rw [h2]; exact hc
            · exact ih.1 o (by simp) x h2
          · exact ih.1 o' (by simp [h])
        · cases os with
          | nil =>
            simp only [comma_joined] at ih ⊢
            rw [ih.2]
          | cons p os =>
            simp only [comma_joined, List.cons_append] at ih ⊢
            rw [ih.2]

/-! ## One pass of the loop -/

theorem parse_one_fields (lf : Bool) (opt : Wget.CStr) (st : Parsed) :
    (parse_one lf opt st).flags = flag_step st.flags opt ∧
    (parse_one lf opt st).strflags = str_step lf st.strflags opt := by
  unfold parse_one flag_step str_step recognised
  generalize Wget.strcaseeq "loop".toList opt = b
  by_cases hs : st.strflags = []
  · cases hf : find_option opt <;> cases lf <;> cases b <;> simp [hs]
  · cases hf : find_option opt <;> cases lf <;> cases b <;> simp [hs]

theorem foldl_parse_one (lf : Bool) : ∀ (os : List Wget.CStr) (st : Parsed),
    (os.foldl (fun s o => parse_one lf o s) st).flags = os.foldl flag_step st.flags ∧
    (os.foldl (fun s o => parse_one lf o s) st).strflags = os.foldl (str_step lf) st.strflags := by
  intro os
  induction os with
  | nil => intro st; exact ⟨rfl, rfl⟩
  | cons o os ih =>
    intro st
    have h := ih (parse_one lf o st)
    have hp := parse_one_fields lf o st
    simp only [List.foldl_cons]
    rw [h.1, h.2, hp.1, hp.2]
    exact ⟨rfl, rfl⟩

/-- The loop of `parse_mount_options` makes one pass for each option of the
string, in their order; a fuel above the length of the string is enough. -/
theorem parse_mount_options_loop_options (lf : Bool) : ∀ (fuel : Nat) (options : Wget.CStr)
    (st : Parsed), options.length < fuel →
    parse_mount_options_loop lf fuel options st
      = (options_of options).foldl (fun s o => parse_one lf o s) st := by
  intro fuel
  induction fuel with
  | zero => intro options st h; omega
  | succ fuel ih =>
    intro options st h
    simp only [parse_mount_options_loop]
    cases hc : Wget.strchr_split ',' options with
    | none =>
      have := Wget.strchr_split_eq_none ',' options hc
      rw [options_of_plain options this]
      rfl
    | some r =>
      have := Wget.strchr_split_some ',' options r hc
      have hlen : r.2.length < fuel := by
        have e := congrArg List.length this.1
        simp only [List.length_append, List.length_cons] at e
        omega
      simp only []
      rw [ih r.2 _ hlen]
      conv_rhs => rw [this.1, options_of_comma r.1 r.2 this.2]
      rfl

/-! ## Opposite options, `defaults`, and the string flags -/

theorem find_option_some (x : Wget.CStr) (f : struct_mount_options)
    (h : find_option x = some f) : f ∈ mount_options ∧ Wget.strcaseeq f.name x = true := by
  unfold find_option at h
  exact ⟨List.mem_of_find?_eq_some h, by simpa using List.find?_some h⟩

theorem flag_step_other (s c : Wget.CStr) (k : Nat)
    (hk : ∀ f ∈ mount_options, f.name ≠ s → f.name ≠ c →
      f.and.testBit k = true ∧ f.or.testBit k = false)
    (x : Wget.CStr) (hs : Wget.strcaseeq s x = false) (hc : Wget.strcaseeq c x = false)
    (flags : Nat) : (flag_step flags x).testBit k = flags.testBit k := by
  unfold flag_step
  cases hf : find_option x with
  | none => rfl
  | some f =>
    have h := find_option_some x f hf
    have h1 : f.name ≠ s := by
      intro e; rw [e, hs] at h; exact Bool.noConfusion h.2
    have h2 : f.name ≠ c := by
      intro e; rw [e, hc] at h; exact Bool.noConfusion h.2
    have h3 := hk f h.1 h1 h2
    simp only [Nat.testBit_or, Nat.testBit_and, h3.1, h3.2, Bool.and_true, Bool.or_false]

theorem foldl_flag_step_other (s c : Wget.CStr) (k : Nat)
    (hk : ∀ f ∈ mount_options, f.name ≠ s → f.name ≠ c →
      f.and.testBit k = true ∧ f.or.testBit k = false) :
    ∀ (post : List Wget.CStr) (flags : Nat),
      (∀ x ∈ post, Wget.strcaseeq s x = false ∧ Wget.strcaseeq c x = false) →
      (post.foldl flag_step flags).testBit k = flags.testBit k := by
  intro post
  induction post with
  | nil => intro flags _; rfl
  | cons x post ih =>
    intro flags h
    simp only [List.foldl_cons]
    rw [ih _ (fun y hy => h y (by simp [hy]))]
    exact flag_step_other s c k hk x (h x (by simp)).1 (h x (by simp)).2 flags

/-- No two entries of the table have the same name, case ignored. -/
theorem mount_options_distinct : ∀ f ∈ mount_options, ∀ g ∈ mount_options,
    f.name.map Wget.tolower = g.name.map Wget.tolower → f = g := by
  decide

theorem find_option_of_name (g : struct_mount_options) (hg : g ∈ mount_options)
    (o : Wget.CStr) (h : Wget.strcaseeq g.name o = true) : find_option o = some g := by
  cases hf : find_option o with
  | none =>
    unfold find_option at hf
    have := List.find?_eq_none.mp hf g hg
    exact absurd h this
  | some f =>
    have h2 := find_option_some o f hf
    unfold Wget.strcaseeq at h h2
    have e1 : f.name.map Wget.tolower = o.map Wget.tolower := by simpa using h2.2
    have e2 : g.name.map Wget.tolower = o.map Wget.tolower := by simpa using h
    rw [mount_options_distinct f h2.1 g hg (e1.trans e2.symm)]

/-- What the table says about each pair of opposite options: the entry of
the first sets the bit, the entry of the second clears it, and no other
entry touches it. -/
theorem opposites_table : ∀ t ∈ opposites,
    (∃ g ∈ mount_options, g.name = t.1 ∧ g.or.testBit t.2.2 = true) ∧
    (∃ g ∈ mount_options, g.name = t.2.1 ∧ g.and.testBit t.2.2 = false ∧
      g.or.testBit t.2.2 = false) ∧
    ∀ f ∈ mount_options, f.name ≠ t.1 → f.name ≠ t.2.1 →
      f.and.testBit t.2.2 = true ∧ f.or.testBit t.2.2 = false := by
  decide

/-- The later of two opposite options wins: after the options `pre`, an
option `o` of a pair (case ignored), and options `post` that are none of the
pair, the bit of the pair is set if `o` is the setting option and clear if
it is the clearing one. -/
theorem later_opposite_wins : ∀ t ∈ opposites, ∀ (pre post : List Wget.CStr) (o : Wget.CStr)
    (flags : Nat),
    (∀ x ∈ post, Wget.strcaseeq t.1 x = false ∧ Wget.strcaseeq t.2.1 x = false) →
    (Wget.strcaseeq t.1 o = true →
      ((pre ++ o :: post).foldl flag_step flags).testBit t.2.2 = true) ∧
    (Wget.strcaseeq t.2.1 o = true →
      ((pre ++ o :: post).foldl flag_step flags).testBit t.2.2 = false) := by
  intro t ht pre post o flags hpost
  obtain ⟨⟨g1, hg1, n1, b1⟩, ⟨g2, hg2, n2, b2, b3⟩, h3⟩ := opposites_table t ht
  simp only [List.foldl_append, List.foldl_cons]
  rw [foldl_flag_step_other t.1 t.2.1 t.2.2 h3 post _ hpost]
  constructor
  · intro h
    unfold flag_step
    rw [find_option_of_name g1 hg1 o (by rw [n1]; exact h)]
    simp only [Nat.testBit_or, b1, Bool.or_true]
  · intro h
    unfold flag_step
    rw [find_option_of_name g2 hg2 o (by rw [n2]; exact h)]
    simp only [Nat.testBit_or, Nat.testBit_and, b2, b3, Bool.and_false, Bool.or_false]

theorem flag_step_defaults (flags : Nat) (h : flags ≤ ULONG_MAX) :
    flag_step flags "defaults".toList = flags := by
  have e : find_option "defaults".toList
      = some { name := "defaults".toList, and := 4294967295, or := 0 } := by decide
  unfold flag_step
  rw [e]
  show (flags &&& 4294967295) ||| 0 = flags
  have e2 : flags &&& (2 ^ 32 - 1) = flags % 2 ^ 32 := Nat.and_pow_two_sub_one_eq_mod flags 32
  have e3 : (2 : Nat) ^ 32 - 1 = 4294967295 := by norm_num
  rw [e3] at e2
  rw [e2, Nat.or_zero]
  unfold ULONG_MAX at h
  omega

theorem comma_joined_cons (s o : Wget.CStr) (us : List Wget.CStr) :
    comma_joined ((s ++ ',' :: o) :: us) = comma_joined (s :: o :: us) := by
  cases us with
  | nil => rfl
  | cons u us => simp [comma_joined]

/-- Without an empty option the string flags are the string flags at the
start (when not empty) and the options that are not recognised, with single
commas between them. -/
theorem foldl_str_step (lf : Bool) : ∀ (os : List Wget.CStr) (s : Wget.CStr),
    (∀ o ∈ os, o ≠ []) →
    os.foldl (str_step lf) s
      = comma_joined ((if s = [] then [] else [s]) ++ os.filter (fun o => !recognised lf o)) := by
  intro os
  induction os with
  | nil =>
    intro s _
    by_cases hs : s = [] <;> simp [hs, comma_joined]
  | cons o os ih =>
    intro s h
    have ho : o ≠ [] := h o (by simp)
    simp only [List.foldl_cons]
    rw [ih _ (fun x hx => h x (by simp [hx]))]
    unfold str_step
    cases hr : recognised lf o with
    | true => simp [hr]
    | false =>
      by_cases hs : s = []
      · simp [hr, hs, ho]
      · have hne : s ++ ',' :: o ≠ [] := by simp
        simp only [hr, Bool.false_eq_true, if_false, hs, bne_iff_ne, ne_eq, not_false_eq_true,
          if_true, hne, List.filter_cons, Bool.not_false, List.singleton_append]
        exact comma_joined_cons s o _

/-- C25 (counterexample): in `rw,foo,,bar` the options that are not
recognised and not empty are `foo` and `bar`, but the string flags come out
as `foo,,bar`, with two commas between them: the empty option is appended
too, behind a comma of its own. -/
theorem parse_mount_options_empty_option :
    (options_of "rw,foo,,bar".toList).filter (fun o => o != [] && !recognised true o)
      = ["foo".toList, "bar".toList] ∧
    comma_joined ["foo".toList, "bar".toList] = "foo,bar".toList ∧
    parse_mount_options true (some "rw,foo,,bar".toList)
        { flags := 1, strflags := [], use_loop := 0 }
      = { flags := 0, strflags := "foo,,bar".toList, use_loop := 0 } := by
  decide

/-- C25, amended: `parse_mount_options` processes the options of the
comma-separated option string from left to right.  For the flag word, an
option whose name matches an entry of the table `mount_options`, case
ignored, replaces `flags` by `(flags & and) | or` and any other option leaves
it; so the later of two opposite options wins and `defaults` changes
nothing.  For the string flags, a recognised option is never copied, and
every other option, an empty one included, is appended, behind a comma if
the string flags are not empty at that point; so when no option of the
string is empty, the string flags end as what they were (if not empty) and
the options that are not recognised, in order, with single commas between
them. -/
theorem parse_mount_options_translation (lf : Bool) (options : Wget.CStr) (st : Parsed) :
    ((∀ o ∈ options_of options, ∀ x ∈ o, x ≠ ',') ∧
      comma_joined (options_of options) = options) ∧
    (parse_mount_options lf (some options) st).flags
      = (options_of options).foldl flag_step st.flags ∧
    (∀ t ∈ opposites, ∀ (pre post : List Wget.CStr) (o : Wget.CStr),
      options_of options = pre ++ o :: post →
      (∀ x ∈ post, Wget.strcaseeq t.1 x = false ∧ Wget.strcaseeq t.2.1 x = false) →
      (Wget.strcaseeq t.1 o = true →
        (parse_mount_options lf (some options) st).flags.testBit t.2.2 = true) ∧
      (Wget.strcaseeq t.2.1 o = true →
        (parse_mount_options lf (some options) st).flags.testBit t.2.2 = false)) ∧
    (∀ flags, flags ≤ ULONG_MAX → flag_step flags "defaults".toList = flags) ∧
    (parse_mount_options lf (some options) st).strflags
      = (options_of options).foldl (str_step lf) st.strflags ∧
    ((∀ o ∈ options_of options, o ≠ []) →
      (parse_mount_options lf (some options) st).strflags
        = comma_joined ((if st.strflags = [] then [] else [st.strflags])
            ++ (options_of options).filter (fun o => !recognised lf o))) := by
  have hloop : parse_mount_options lf (some options) st
      = (options_of options).foldl (fun s o => parse_one lf o s) st :=
    parse_mount_options_loop_options lf (options.length + 1) options st (by omega)
  have hf := foldl_parse_one lf (options_of options) st
  rw [hloop]
  refine ⟨options_of_joined options, hf.1, ?_, flag_step_defaults, hf.2, ?_⟩
  · intro t ht pre post o e hpost
    rw [hf.1, e]
    exact later_opposite_wins t ht pre post o st.flags hpost
  · intro hne
    rw [hf.2]
    exact foldl_str_step lf (options_of options) st.strflags hne

theorem parse_mount_options_translation_witness :
    (parse_mount_options true (some "ro,foo,RW,bar".toList)
        { flags := 0, strflags := [], use_loop := 0 }).flags.testBit 0 = false ∧
    flag_step 9 "defaults".toList = 9 ∧
    (parse_mount_options true (some "ro,foo,RW,bar".toList)
        { flags := 0, strflags := [], use_loop := 0 }).strflags
      = comma_joined ((if ([] : Wget.CStr) = [] then [] else [[]])
          ++ (options_of "ro,foo,RW,bar".toList).filter (fun o => !recognised true o)) :=
  ⟨((parse_mount_options_translation true "ro,foo,RW,bar".toList
        { flags := 0, strflags := [], use_loop := 0 }).2.2.1
      ("ro".toList, "rw".toList, 0) (by decide) ["ro".toList, "foo".toList] ["bar".toList]
      "RW".toList (by decide) (by decide)).2 (by decide),
   (parse_mount_options_translation true "ro,foo,RW,bar".toList
        { flags := 0, strflags := [], use_loop := 0 }).2.2.2.1 9 (by decide),
   (parse_mount_options_translation true "ro,foo,RW,bar".toList
        { flags := 0, strflags := [], use_loop := 0 }).2.2.2.2.2 (by decide)⟩

end Mount
